import Mathlib

/-!
Verification development for the address-reconciliation pipeline
(`scripts/main.py`, `scripts/helpers.py`, `scripts/fuzzy_search.py`,
`scripts/fuzzy_search_cities.py`, `scripts/fill_missing_zip_codes.py`).

Modelling conventions:
* A pandas cell is `Option String`: `none` models `NaN` and `some s` a
  string value.  All CSV columns used by the rules hold strings after load.
* Python / pandas scalar equality `x == y` on cells is `pyEqC`: `NaN` is
  unequal to everything, including itself.  `pd.isna` is `pyIsNa` and
  `str(x)` is `pyStr` (rendering `NaN` as the text `"nan"`, as
  `.astype(str)` does).
* A DataFrame is a list of rows.  An address row keeps its integer `AID`
  key in a dedicated field and the remaining columns in an association
  list; relationship rows carry their four fixed columns.
* Every rule of the repository produces `ProposedChange` values whose
  `proposed_value` is a string (never `NaN`), so the model types that
  field as `String`; `EID_context` is `Option String` (`None` for the
  context-free rules 3b and 4).
-/

/-- A pandas cell: `none` is `NaN`. -/
abbrev Cell := Option String

/-- Python `str` applied to a cell, as pandas `.astype(str)` renders it. -/
def pyStr : Cell → String
  | some s => s
  | none => "nan"

/-- Model of `pd.isna` on a cell. -/
def pyIsNa : Cell → Bool
  | none => true
  | some _ => false

/-- Python scalar `==` on two cells: `NaN` compares unequal to everything. -/
def pyEqC : Cell → Cell → Bool
  | some a, some b => a == b
  | _, _ => false

/-- Order-preserving deduplication, as Python dict keys / `unique()` /
membership-guarded `append` produce: first occurrences survive, in order. -/
def pyDedup {α : Type} [DecidableEq α] (l : List α) : List α :=
  l.foldl (fun acc x => if x ∈ acc then acc else acc ++ [x]) []

/-- An address-table row (`df_fa`): the `AID` key plus the named columns. -/
structure Row where
  aid : Nat
  cells : List (String × Cell)
deriving DecidableEq, Repr

/-- A relationship-table row (`df_r_fe_fa`): `EID_1`, `AID_2`,
`relationshipType`, `number`. -/
structure RelRow where
  eid : String
  aid : Nat
  relType : Cell
  number : Cell
deriving DecidableEq, Repr

/-- The `ProposedChange` record of `helpers.py`. -/
structure ProposedChange where
  original_AID : Nat
  EID_context : Option String
  column_to_change : String
  original_value : Cell
  proposed_value : String
  rule_name : String
deriving DecidableEq, Repr

/-- The `SplitEvent` record of `helpers.py`. -/
structure SplitEvent where
  old_aid : Nat
  new_aid : Nat
  column : String
  new_value : String
deriving DecidableEq, Repr

/-- Read a named column of a row (`df.at[i, col]`); a missing binding is
`NaN`. -/
def getCell (r : Row) (c : String) : Cell :=
  match r.cells.lookup c with
  | some v => v
  | none => none

/-- Whether the row carries the named column. -/
def hasCol (r : Row) (c : String) : Bool :=
  r.cells.any (fun p => p.1 == c)

/-- Overwrite a named column of a row (`df.at[i, col] = v`). -/
def setCell (r : Row) (c : String) (v : Cell) : Row :=
  { r with cells := r.cells.map (fun p => if p.1 == c then (p.1, v) else p) }

/-- Model of `"fullAddress_c" in df_fa.columns`: pandas columns are a
table-level schema, read here off the first row. -/
def hasFullAddress : List Row → Bool
  | [] => false
  | r :: _ => hasCol r "fullAddress_c"

/-- The `reconstruct_full_address` helper of `main.py`: join the present,
truthy parts with spaces and strip. -/
def reconstruct_full_address (row : Row) : String :=
  let parts : List Cell :=
    [getCell row "num1_c", getCell row "streetName_c", getCell row "city_c",
     getCell row "state_c", getCell row "zip_c"]
  (String.intercalate " " ((parts.filterMap id).filter (fun p => p ≠ ""))).trim

/-- Mutable state threaded through `resolve_and_apply_changes`. -/
structure RState where
  fa : List Row
  rel : List RelRow
  maxAid : Nat
  splits : List SplitEvent
deriving DecidableEq, Repr

/-- The `val2eids` table of one `(AID, column)` bucket: distinct proposed
values in first-occurrence order, each with its deduplicated supporter
contexts in first-occurrence order. -/
def val2eids (items : List ProposedChange) : List (String × List (Option String)) :=
  (pyDedup (items.map (·.proposed_value))).map (fun v =>
    (v, pyDedup ((items.filter (fun p => p.proposed_value == v)).map (·.EID_context))))

/-- Executable lexicographic comparison of character lists by code point,
as Python compares strings. -/
def pyCharsLt : List Char → List Char → Bool
  | [], [] => false
  | [], _ :: _ => true
  | _ :: _, [] => false
  | c :: cs, d :: ds =>
      if c < d then true
      else if d < c then false
      else pyCharsLt cs ds

/-- Executable Python string `<`. -/
def pyStrLtB (a b : String) : Bool :=
  pyCharsLt a.data b.data

/-- Strict `<` on Python key tuples `(len(eids), str(value))`. -/
def pyKeyLt (a b : Nat × String) : Bool :=
  a.1 < b.1 || (a.1 == b.1 && pyStrLtB a.2 b.2)

/-- Python `max(xs, key=...)`: scan left to right, keep the first element
whose key is maximal (replace only on strictly greater key). -/
def pyMax {α : Type} (key : α → Nat × String) (x : α) (xs : List α) : α :=
  xs.foldl (fun best y => if pyKeyLt (key best) (key y) then y else best) x

/-- Supporter key of a `val2eids` entry: `(len(eids), str(value))`. -/
def entryKey (q : String × List (Option String)) : Nat × String :=
  (q.2.length, q.1)

/-- Mint one split: bump the counter, record the `SplitEvent`, clone the
current record under the original AID with the minority value in the target
column (recomputing the derived field when present), and repoint the
relationship rows of the minority supporters. -/
def mintSplit (recon : Row → String) (aid : Nat) (col : String) (i : Nat)
    (s : RState) (q : String × List (Option String)) : RState :=
  let newAid := s.maxAid + 1
  let ev : SplitEvent := ⟨aid, newAid, col, q.1⟩
  let base := s.fa.getD i ⟨0, []⟩
  let nr1 := setCell { base with aid := newAid } col (some q.1)
  let nr2 := if hasFullAddress s.fa then setCell nr1 "fullAddress_c" (some (recon nr1)) else nr1
  let supporters := q.2.filterMap id
  { fa := s.fa ++ [nr2],
    rel := s.rel.map (fun rr =>
      if rr.aid == aid && supporters.contains rr.eid then { rr with aid := newAid } else rr),
    maxAid := newAid,
    splits := s.splits ++ [ev] }

/-- The minority loop of `resolve_and_apply_changes`: walk the `val2eids`
entries, skip the majority value, mint a split for every other value. -/
def processMinorities (recon : Row → String) (aid : Nat) (col : String) (i : Nat)
    (mj : String) (s : RState) : List (String × List (Option String)) → RState
  | [] => s
  | q :: qs =>
      if q.1 == mj then processMinorities recon aid col i mj s qs
      else processMinorities recon aid col i mj (mintSplit recon aid col i s q) qs

/-- One `(AID, column)` bucket of `resolve_and_apply_changes`: fetch the
current value (dropping stale AIDs), apply the single uncontested value, or
pick the majority, apply it in place and split off every minority value. -/
def processBucket (recon : Row → String) (st : RState) (aid : Nat) (col : String)
    (items : List ProposedChange) : RState :=
  let v2e := val2eids items
  match st.fa.findIdx? (fun row => row.aid == aid) with
  | none => st
  | some i =>
    let curVal := getCell (st.fa.getD i ⟨0, []⟩) col
    match v2e with
    | [] => st
    | [(v, _)] =>
        if (pyIsNa curVal && pyIsNa (some v)) || pyEqC curVal (some v) then st
        else
          let row1 := setCell (st.fa.getD i ⟨0, []⟩) col (some v)
          let row2 := if hasFullAddress st.fa then setCell row1 "fullAddress_c" (some (recon row1)) else row1
          { st with fa := st.fa.set i row2 }
    | x :: y :: tl =>
        let mj := (pyMax entryKey x (y :: tl)).1
        let fa1 :=
          if pyEqC curVal (some mj) then st.fa
          else
            let row1 := setCell (st.fa.getD i ⟨0, []⟩) col (some mj)
            let row2 := if hasFullAddress st.fa then setCell row1 "fullAddress_c" (some (recon row1)) else row1
            st.fa.set i row2
        processMinorities recon aid col i mj { st with fa := fa1 } (x :: y :: tl)

/-- The `resolve_and_apply_changes` function of `main.py`: bucket the
proposals by `(AID, column)` in first-occurrence order and process every
bucket in turn. -/
def resolve_and_apply_changes (recon : Row → String) (fa : List Row) (rel : List RelRow)
    (proposals : List ProposedChange) (maxAid : Nat) : RState :=
  let keys := pyDedup (proposals.map (fun p => (p.original_AID, p.column_to_change)))
  keys.foldl (fun st k =>
      processBucket recon st k.1 k.2
        (proposals.filter (fun p => p.original_AID == k.1 && p.column_to_change == k.2)))
    ⟨fa, rel, maxAid, []⟩

/-! ### Basic lemmas about cells and rows -/

theorem aid_setCell (r : Row) (c : String) (v : Cell) : (setCell r c v).aid = r.aid := rfl

theorem lookup_setCells_self (cs : List (String × Cell)) (c : String) (v : Cell)
    (h : cs.any (fun p => p.1 == c) = true) :
    List.lookup c (cs.map (fun p => if p.1 == c then (p.1, v) else p)) = some v := by
  induction cs with
  | nil => simp at h
  | cons q qs ih =>
      obtain ⟨k, b⟩ := q
      by_cases hq : k = c
      · subst hq
        simp [List.lookup_cons]
      · have hne : (k == c) = false := by simp [hq]
        simp only [List.any_cons, hne, Bool.false_or] at h
        simp only [List.map_cons, hne, Bool.false_eq_true, if_neg, not_false_iff]
        rw [List.lookup_cons]
        have : (c == k) = false := by simp [Ne.symm hq]
        simp only [this]
        exact ih h

theorem lookup_setCells_ne (cs : List (String × Cell)) (c c' : String) (v : Cell)
    (h : c' ≠ c) :
    List.lookup c' (cs.map (fun p => if p.1 == c then (p.1, v) else p)) =
      List.lookup c' cs := by
  induction cs with
  | nil => rfl
  | cons q qs ih =>
      obtain ⟨k, b⟩ := q
      by_cases hq : k = c
      · subst hq
        simp only [List.map_cons, beq_self_eq_true, if_pos]
        rw [List.lookup_cons, List.lookup_cons]
        have : (c' == k) = false := by simp [h]
        simp only [this]
        exact ih
      · have hne : (k == c) = false := by simp [hq]
        simp only [List.map_cons, hne, Bool.false_eq_true, if_neg, not_false_iff]
        rw [List.lookup_cons, List.lookup_cons]
        by_cases hck : c' = k
        · subst hck; simp
        · have : (c' == k) = false := by simp [hck]
          simp only [this]
          exact ih

theorem getCell_setCell_self {r : Row} {c : String} (v : Cell) (h : hasCol r c = true) :
    getCell (setCell r c v) c = v := by
  unfold getCell setCell
  simp only
  rw [lookup_setCells_self r.cells c v h]

theorem getCell_setCell_ne {r : Row} {c c' : String} (v : Cell) (h : c' ≠ c) :
    getCell (setCell r c v) c' = getCell r c' := by
  unfold getCell setCell
  simp only
  rw [lookup_setCells_ne r.cells c c' v h]

theorem hasCol_setCell (r : Row) (c c' : String) (v : Cell) :
    hasCol (setCell r c v) c' = hasCol r c' := by
  unfold hasCol setCell
  simp only [List.any_map]
  congr 1
  funext p
  by_cases hq : p.1 == c <;> simp [hq, Function.comp]

/-! ### pyDedup lemmas -/

theorem pyDedup_aux_mem {α : Type} [DecidableEq α] (l acc : List α) (y : α) :
    y ∈ l.foldl (fun acc x => if x ∈ acc then acc else acc ++ [x]) acc ↔ y ∈ acc ∨ y ∈ l := by
  induction l generalizing acc with
  | nil => simp
  | cons x xs ih =>
      rw [List.foldl_cons, ih]
      by_cases hx : x ∈ acc
      · simp only [hx, if_pos]
        constructor
        · rintro (h | h)
          · exact Or.inl h
          · exact Or.inr (List.mem_cons_of_mem _ h)
        · rintro (h | h)
          · exact Or.inl h
          · rcases List.mem_cons.1 h with h | h
            · subst h; exact Or.inl hx
            · exact Or.inr h
      · simp only [hx, if_neg, not_false_iff]
        simp only [List.mem_append, List.mem_singleton, List.mem_cons]
        tauto

theorem mem_pyDedup {α : Type} [DecidableEq α] (l : List α) (y : α) :
    y ∈ pyDedup l ↔ y ∈ l := by
  unfold pyDedup
  rw [pyDedup_aux_mem]
  simp

theorem pyDedup_aux_nodup {α : Type} [DecidableEq α] (l acc : List α) (h : acc.Nodup) :
    (l.foldl (fun acc x => if x ∈ acc then acc else acc ++ [x]) acc).Nodup := by
  induction l generalizing acc with
  | nil => exact h
  | cons x xs ih =>
      rw [List.foldl_cons]
      by_cases hx : x ∈ acc
      · simp only [hx, if_pos]; exact ih acc h
      · simp only [hx, if_neg, not_false_iff]
        refine ih _ ?_
        simp [List.nodup_append, h, hx]

theorem nodup_pyDedup {α : Type} [DecidableEq α] (l : List α) : (pyDedup l).Nodup :=
  pyDedup_aux_nodup l [] List.nodup_nil

theorem pyDedup_perm {α : Type} [DecidableEq α] {l l' : List α} (h : l.Perm l') :
    (pyDedup l).Perm (pyDedup l') := by
  refine List.perm_of_nodup_nodup_toFinset_eq (nodup_pyDedup l) (nodup_pyDedup l') ?_
  ext x
  simp [List.mem_toFinset, mem_pyDedup, h.mem_iff]

theorem length_pyDedup_perm {α : Type} [DecidableEq α] {l l' : List α} (h : l.Perm l') :
    (pyDedup l).length = (pyDedup l').length :=
  (pyDedup_perm h).length_eq

/-! ### findIdx? lemmas -/

theorem findIdx?_spec {α : Type} (p : α → Bool) (l : List α) (i : Nat) (d : α)
    (h : l.findIdx? p = some i) : i < l.length ∧ p (l.getD i d) = true := by
  induction l generalizing i with
  | nil => simp [List.findIdx?] at h
  | cons x xs ih =>
      rw [List.findIdx?_cons] at h
      by_cases hx : p x
      · simp only [hx, if_pos] at h
        cases h
        simpa using hx
      · simp only [hx, Bool.false_eq_true, if_neg, not_false_iff] at h
        rw [List.findIdx?_succ] at h
        rcases Option.map_eq_some'.1 h with ⟨j, hj, hji⟩
        subst hji
        obtain ⟨h1, h2⟩ := ih j hj
        refine ⟨Nat.succ_lt_succ h1, ?_⟩
        simpa using h2

/-! ### Closed form of the minority loop -/

/-- The clone row minted for one minority value: the current record under
the original AID, renumbered, with the minority value in the target column
and the derived field recomputed when present. -/
def cloneOf (recon : Row → String) (col : String) (base : Row) (hasFull : Bool)
    (newAid : Nat) (v : String) : Row :=
  let nr1 := setCell { base with aid := newAid } col (some v)
  if hasFull then setCell nr1 "fullAddress_c" (some (recon nr1)) else nr1

/-- Split events minted for a run of minority entries, numbering from
`b + 1`. -/
def splitsOf (aid : Nat) (col : String) : Nat → List (String × List (Option String)) → List SplitEvent
  | _, [] => []
  | b, q :: qs => ⟨aid, b + 1, col, q.1⟩ :: splitsOf aid col (b + 1) qs

/-- Clone rows minted for a run of minority entries, numbering from `b + 1`. -/
def clonesOf (recon : Row → String) (col : String) (base : Row) (hasFull : Bool) :
    Nat → List (String × List (Option String)) → List Row
  | _, [] => []
  | b, q :: qs => cloneOf recon col base hasFull (b + 1) q.1 :: clonesOf recon col base hasFull (b + 1) qs

/-- One relationship repointing pass for one minority value. -/
def repointStep (aid newAid : Nat) (sup : List String) (rr : RelRow) : RelRow :=
  if rr.aid == aid && sup.contains rr.eid then { rr with aid := newAid } else rr

/-- Sequential relationship repointing for one relationship row across a run
of minority entries, numbering from `b + 1`. -/
def rowRepoint (aid : Nat) : Nat → List (String × List (Option String)) → RelRow → RelRow
  | _, [], rr => rr
  | b, q :: qs, rr => rowRepoint aid (b + 1) qs (repointStep aid (b + 1) (q.2.filterMap id) rr)

theorem clonesOf_cons (recon : Row → String) (col : String) (base : Row) (hf : Bool)
    (b : Nat) (q : String × List (Option String)) (qs : List (String × List (Option String))) :
    clonesOf recon col base hf b (q :: qs) =
      cloneOf recon col base hf (b + 1) q.1 :: clonesOf recon col base hf (b + 1) qs := rfl

theorem splitsOf_cons (aid : Nat) (col : String) (b : Nat) (q : String × List (Option String))
    (qs : List (String × List (Option String))) :
    splitsOf aid col b (q :: qs) = ⟨aid, b + 1, col, q.1⟩ :: splitsOf aid col (b + 1) qs := rfl

theorem rowRepoint_cons (aid b : Nat) (q : String × List (Option String))
    (qs : List (String × List (Option String))) (rr : RelRow) :
    rowRepoint aid b (q :: qs) rr =
      rowRepoint aid (b + 1) qs (repointStep aid (b + 1) (q.2.filterMap id) rr) := rfl

theorem rowRepoint_cons_fun (aid b : Nat) (q : String × List (Option String))
    (qs : List (String × List (Option String))) :
    rowRepoint aid b (q :: qs) =
      fun rr => rowRepoint aid (b + 1) qs (repointStep aid (b + 1) (q.2.filterMap id) rr) := rfl

theorem hasFullAddress_append (fa xs : List Row) (h : fa ≠ []) :
    hasFullAddress (fa ++ xs) = hasFullAddress fa := by
  cases fa with
  | nil => exact absurd rfl h
  | cons r rs => rfl

theorem rowRepoint_fields (aid : Nat) (b : Nat) (ms : List (String × List (Option String)))
    (rr : RelRow) :
    (rowRepoint aid b ms rr).eid = rr.eid ∧ (rowRepoint aid b ms rr).relType = rr.relType ∧
      (rowRepoint aid b ms rr).number = rr.number := by
  induction ms generalizing b rr with
  | nil => exact ⟨rfl, rfl, rfl⟩
  | cons q qs ih =>
      have h := ih (b + 1) (repointStep aid (b + 1) (q.2.filterMap id) rr)
      have hstep : (repointStep aid (b + 1) (q.2.filterMap id) rr).eid = rr.eid ∧
          (repointStep aid (b + 1) (q.2.filterMap id) rr).relType = rr.relType ∧
          (repointStep aid (b + 1) (q.2.filterMap id) rr).number = rr.number := by
        unfold repointStep
        by_cases hc : (rr.aid == aid && (q.2.filterMap id).contains rr.eid) = true
        · rw [if_pos hc]; exact ⟨rfl, rfl, rfl⟩
        · rw [if_neg hc]; exact ⟨rfl, rfl, rfl⟩
      refine ⟨?_, ?_, ?_⟩
      · rw [rowRepoint]; rw [h.1, hstep.1]
      · rw [rowRepoint]; rw [h.2.1, hstep.2.1]
      · rw [rowRepoint]; rw [h.2.2, hstep.2.2]

theorem processMinorities_closed (recon : Row → String) (aid : Nat) (col : String)
    (i : Nat) (mj : String) (l : List (String × List (Option String))) :
    ∀ s : RState, i < s.fa.length →
    processMinorities recon aid col i mj s l =
      { fa := s.fa ++ clonesOf recon col (s.fa.getD i ⟨0, []⟩) (hasFullAddress s.fa) s.maxAid
                (l.filter (fun q => !(q.1 == mj))),
        rel := s.rel.map (rowRepoint aid s.maxAid (l.filter (fun q => !(q.1 == mj)))),
        maxAid := s.maxAid + (l.filter (fun q => !(q.1 == mj))).length,
        splits := s.splits ++ splitsOf aid col s.maxAid (l.filter (fun q => !(q.1 == mj))) } := by
  induction l with
  | nil =>
      intro s hi
      simp only [processMinorities, List.filter_nil, clonesOf, splitsOf, List.append_nil,
        List.length_nil, Nat.add_zero]
      cases s
      simp [rowRepoint, List.map_id']
  | cons q qs ih =>
      intro s hi
      by_cases hq : (q.1 == mj) = true
      · rw [processMinorities]
        simp only [hq, if_pos]
        rw [ih s hi]
        simp [List.filter_cons, hq]
      · rw [processMinorities]
        simp only [hq, if_neg, not_false_iff, Bool.false_eq_true]
        have hne : s.fa ≠ [] := by
          intro h0
          rw [h0] at hi
          simp at hi
        have hlen : i < (mintSplit recon aid col i s q).fa.length := by
          unfold mintSplit
          simp only [List.length_append]
          omega
        rw [ih _ hlen]
        have hfa : (mintSplit recon aid col i s q).fa =
            s.fa ++ [cloneOf recon col (s.fa.getD i ⟨0, []⟩) (hasFullAddress s.fa) (s.maxAid + 1) q.1] := by
          unfold mintSplit cloneOf
          simp
        have hgd : (mintSplit recon aid col i s q).fa.getD i ⟨0, []⟩ = s.fa.getD i ⟨0, []⟩ := by
          rw [hfa]
          exact List.getD_append _ _ _ _ hi
        have hhf : hasFullAddress (mintSplit recon aid col i s q).fa = hasFullAddress s.fa := by
          rw [hfa]
          exact hasFullAddress_append _ _ hne
        have hmax : (mintSplit recon aid col i s q).maxAid = s.maxAid + 1 := rfl
        have hsplits : (mintSplit recon aid col i s q).splits =
            s.splits ++ [(⟨aid, s.maxAid + 1, col, q.1⟩ : SplitEvent)] := rfl
        have hrel : (mintSplit recon aid col i s q).rel =
            s.rel.map (fun rr => repointStep aid (s.maxAid + 1) (q.2.filterMap id) rr) := by
          unfold mintSplit repointStep
          rfl
        rw [hgd, hhf, hmax, hsplits, hrel, hfa]
        have hq' : (q.1 == mj) = false := by
          simpa using hq
        simp only [List.filter_cons, hq', Bool.not_false, if_pos]
        rw [clonesOf_cons, splitsOf_cons, rowRepoint_cons_fun, List.map_map]
        simp only [List.append_assoc, List.singleton_append, List.length_cons]
        congr 1
        all_goals first
          | rfl
          | omega

theorem length_splitsOf (aid : Nat) (col : String) (b : Nat)
    (ms : List (String × List (Option String))) :
    (splitsOf aid col b ms).length = ms.length := by
  induction ms generalizing b with
  | nil => rfl
  | cons q qs ih => simp [splitsOf_cons, ih]

theorem getElem?_splitsOf (aid : Nat) (col : String) (b : Nat)
    (ms : List (String × List (Option String))) (j : Nat) :
    (splitsOf aid col b ms)[j]? =
      (ms[j]?).map (fun q => (⟨aid, b + j + 1, col, q.1⟩ : SplitEvent)) := by
  induction ms generalizing b j with
  | nil => simp [splitsOf]
  | cons q qs ih =>
      cases j with
      | zero => simp [splitsOf_cons]
      | succ j =>
          rw [splitsOf_cons]
          simp only [List.getElem?_cons_succ]
          rw [ih]
          congr 1
          funext q'
          congr 2
          omega

theorem length_clonesOf (recon : Row → String) (col : String) (base : Row) (hf : Bool)
    (b : Nat) (ms : List (String × List (Option String))) :
    (clonesOf recon col base hf b ms).length = ms.length := by
  induction ms generalizing b with
  | nil => rfl
  | cons q qs ih => simp [clonesOf_cons, ih]

theorem getElem?_clonesOf (recon : Row → String) (col : String) (base : Row) (hf : Bool)
    (b : Nat) (ms : List (String × List (Option String))) (j : Nat) :
    (clonesOf recon col base hf b ms)[j]? =
      (ms[j]?).map (fun q => cloneOf recon col base hf (b + j + 1) q.1) := by
  induction ms generalizing b j with
  | nil => simp [clonesOf]
  | cons q qs ih =>
      cases j with
      | zero => simp [clonesOf_cons]
      | succ j =>
          rw [clonesOf_cons]
          simp only [List.getElem?_cons_succ]
          rw [ih]
          congr 1
          funext q'
          congr 2
          omega

/-! ### Branch equations for processBucket -/

theorem processBucket_stale (recon : Row → String) (st : RState) (aid : Nat) (col : String)
    (items : List ProposedChange)
    (h : st.fa.findIdx? (fun row => row.aid == aid) = none) :
    processBucket recon st aid col items = st := by
  unfold processBucket
  rw [h]

theorem processBucket_single_eq (recon : Row → String) (st : RState) (aid : Nat) (col : String)
    (items : List ProposedChange) (i : Nat) (v : String) (es : List (Option String))
    (hfind : st.fa.findIdx? (fun row => row.aid == aid) = some i)
    (hv : val2eids items = [(v, es)]) :
    processBucket recon st aid col items =
      if (pyIsNa (getCell (st.fa.getD i ⟨0, []⟩) col) && pyIsNa (some v)) ||
          pyEqC (getCell (st.fa.getD i ⟨0, []⟩) col) (some v) then st
      else
        { st with fa := (st.fa.set i
            (if hasFullAddress st.fa then
              setCell (setCell (st.fa.getD i ⟨0, []⟩) col (some v)) "fullAddress_c"
                (some (recon (setCell (st.fa.getD i ⟨0, []⟩) col (some v))))
            else setCell (st.fa.getD i ⟨0, []⟩) col (some v))) } := by
  unfold processBucket
  rw [hv, hfind]

theorem processBucket_conflict_eq (recon : Row → String) (st : RState) (aid : Nat) (col : String)
    (items : List ProposedChange) (i : Nat) (x y : String × List (Option String))
    (tl : List (String × List (Option String)))
    (hfind : st.fa.findIdx? (fun row => row.aid == aid) = some i)
    (hv : val2eids items = x :: y :: tl) :
    processBucket recon st aid col items =
      processMinorities recon aid col i ((pyMax entryKey x (y :: tl)).1)
        { st with fa :=
            if pyEqC (getCell (st.fa.getD i ⟨0, []⟩) col) (some ((pyMax entryKey x (y :: tl)).1)) then st.fa
            else (st.fa.set i
              (if hasFullAddress st.fa then
                setCell (setCell (st.fa.getD i ⟨0, []⟩) col (some ((pyMax entryKey x (y :: tl)).1)))
                  "fullAddress_c"
                  (some (recon (setCell (st.fa.getD i ⟨0, []⟩) col (some ((pyMax entryKey x (y :: tl)).1)))))
              else setCell (st.fa.getD i ⟨0, []⟩) col (some ((pyMax entryKey x (y :: tl)).1)))) }
        (x :: y :: tl) := by
  unfold processBucket
  rw [hv, hfind]

/-! ### The Python max and the majority characterization -/

theorem pyCharsLt_iff (l1 l2 : List Char) :
    pyCharsLt l1 l2 = true ↔ List.Lex (fun c d => c < d) l1 l2 := by
  induction l1 generalizing l2 with
  | nil =>
      cases l2 with
      | nil =>
          simp only [pyCharsLt]
          constructor
          · intro h; exact absurd h (by simp)
          · intro h; cases h
      | cons d ds =>
          simp only [pyCharsLt]
          exact ⟨fun _ => List.Lex.nil, fun _ => trivial⟩
  | cons c cs ih =>
      cases l2 with
      | nil =>
          simp only [pyCharsLt]
          constructor
          · intro h; exact absurd h (by simp)
          · intro h; cases h
      | cons d ds =>
          simp only [pyCharsLt]
          by_cases h1 : c < d
          · rw [if_pos h1]
            exact ⟨fun _ => List.Lex.rel h1, fun _ => rfl⟩
          · rw [if_neg h1]
            by_cases h2 : d < c
            · rw [if_pos h2]
              constructor
              · intro h; exact absurd h (by simp)
              · intro h
                cases h with
                | rel hr => exact absurd hr h1
                | cons ht => exact absurd h2 (lt_irrefl _)
            · rw [if_neg h2]
              have hcd : c = d := le_antisymm (le_of_not_lt h2) (le_of_not_lt h1)
              subst hcd
              rw [ih ds]
              constructor
              · intro h; exact List.Lex.cons h
              · intro h
                cases h with
                | rel hr => exact absurd hr (lt_irrefl _)
                | cons ht => exact ht

theorem pyStrLtB_iff (a b : String) : pyStrLtB a b = true ↔ a < b := by
  rw [String.lt_iff_toList_lt]
  exact pyCharsLt_iff a.toList b.toList

theorem pyKeyLt_iff (a b : Nat × String) : pyKeyLt a b = true ↔ toLex a < toLex b := by
  rw [Prod.Lex.lt_iff]
  unfold pyKeyLt
  constructor
  · intro h
    rcases Bool.or_eq_true_iff.1 h with h | h
    · exact Or.inl (by exact_mod_cast (by simpa using h))
    · rcases Bool.and_eq_true_iff.1 h with ⟨h1, h2⟩
      exact Or.inr ⟨by simpa using h1, (pyStrLtB_iff _ _).1 h2⟩
  · intro h
    rcases h with h | ⟨h1, h2⟩
    · exact Bool.or_eq_true_iff.2 (Or.inl (by simpa using h))
    · exact Bool.or_eq_true_iff.2 (Or.inr (Bool.and_eq_true_iff.2
        ⟨by simpa using h1, (pyStrLtB_iff _ _).2 h2⟩))

theorem pyMax_cons {α : Type} (key : α → Nat × String) (x y : α) (ys : List α) :
    pyMax key x (y :: ys) = pyMax key (if pyKeyLt (key x) (key y) then y else x) ys := rfl

theorem pyMax_spec {α : Type} (key : α → Nat × String) (x : α) (xs : List α) :
    pyMax key x xs ∈ x :: xs ∧
      ∀ z ∈ x :: xs, toLex (key z) ≤ toLex (key (pyMax key x xs)) := by
  induction xs generalizing x with
  | nil =>
      refine ⟨List.mem_singleton_self x, ?_⟩
      intro z hz
      rw [List.mem_singleton] at hz
      subst hz
      exact le_refl _
  | cons y ys ih =>
      rw [pyMax_cons]
      set x' := if pyKeyLt (key x) (key y) then y else x with hx'
      obtain ⟨ihmem, ihge⟩ := ih x'
      have hx'mem : x' = x ∨ x' = y := by
        by_cases h : pyKeyLt (key x) (key y) = true
        · exact Or.inr (by rw [hx', if_pos h])
        · exact Or.inl (by rw [hx', if_neg h])
      constructor
      · rcases List.mem_cons.1 ihmem with h | h
        · rcases hx'mem with h' | h'
          · rw [h, h']; exact List.mem_cons_self _ _
          · rw [h, h']; exact List.mem_cons_of_mem _ (List.mem_cons_self _ _)
        · exact List.mem_cons_of_mem _ (List.mem_cons_of_mem _ h)
      · intro z hz
        have hxle : toLex (key x) ≤ toLex (key x') := by
          by_cases h : pyKeyLt (key x) (key y) = true
          · rw [hx', if_pos h]
            exact le_of_lt ((pyKeyLt_iff _ _).1 h)
          · rw [hx', if_neg h]
        have hyle : toLex (key y) ≤ toLex (key x') := by
          by_cases h : pyKeyLt (key x) (key y) = true
          · rw [hx', if_pos h]
          · rw [hx', if_neg h]
            have := (pyKeyLt_iff (key x) (key y)).not.1 h
            exact le_of_not_lt this
        have hx'le : toLex (key x') ≤ toLex (key (pyMax key x' ys)) :=
          ihge x' (List.mem_cons_self _ _)
        rcases List.mem_cons.1 hz with h | h
        · subst h; exact le_trans hxle hx'le
        · rcases List.mem_cons.1 h with h | h
          · subst h; exact le_trans hyle hx'le
          · exact ihge z (List.mem_cons_of_mem _ h)

/-- Number of distinct supporting contexts recorded for value `v` in a
bucket of proposals (a `None` context counts once). -/
def countOf (items : List ProposedChange) (v : String) : Nat :=
  (pyDedup ((items.filter (fun p => p.proposed_value == v)).map (·.EID_context))).length

/-- The majority value `max(val2eids.items(), key=lambda x: (len(x[1]), str(x[0])))[0]`
of a bucket, when the bucket is contested. -/
def majorityVal (items : List ProposedChange) : Option String :=
  match val2eids items with
  | x :: y :: tl => some ((pyMax entryKey x (y :: tl)).1)
  | _ => none

theorem countOf_perm {items items' : List ProposedChange} (h : items.Perm items')
    (v : String) : countOf items v = countOf items' v :=
  length_pyDedup_perm ((h.filter _).map _)

theorem val2eids_fst (items : List ProposedChange) :
    (val2eids items).map Prod.fst = pyDedup (items.map (·.proposed_value)) := by
  unfold val2eids
  generalize pyDedup (items.map (·.proposed_value)) = l
  induction l with
  | nil => rfl
  | cons a as ih => simpa using ih

theorem mem_val2eids {items : List ProposedChange} {q : String × List (Option String)}
    (h : q ∈ val2eids items) :
    q.1 ∈ items.map (·.proposed_value) ∧ q.2.length = countOf items q.1 := by
  unfold val2eids at h
  rcases List.mem_map.1 h with ⟨v, hv, hq⟩
  subst hq
  exact ⟨(mem_pyDedup _ _).1 hv, rfl⟩

theorem val2eids_entry_of_value {items : List ProposedChange} {w : String}
    (h : w ∈ items.map (·.proposed_value)) :
    (w, pyDedup ((items.filter (fun p => p.proposed_value == w)).map (·.EID_context))) ∈
      val2eids items := by
  unfold val2eids
  exact List.mem_map_of_mem _ ((mem_pyDedup _ _).2 h)

theorem entryKey_eq (items : List ProposedChange) (q : String × List (Option String))
    (h : q ∈ val2eids items) : entryKey q = (countOf items q.1, q.1) := by
  obtain ⟨-, h2⟩ := mem_val2eids h
  unfold entryKey
  rw [h2]

/-- The majority value of a contested bucket is a proposed value of the
bucket and strictly dominates every other distinct value in the order
(supporter-set size, literal value). -/
theorem majority_char {items : List ProposedChange} {x y : String × List (Option String)}
    {tl : List (String × List (Option String))}
    (hv : val2eids items = x :: y :: tl) :
    ∃ m, majorityVal items = some m ∧ m ∈ items.map (·.proposed_value) ∧
      ∀ w ∈ items.map (·.proposed_value), w ≠ m →
        toLex ((countOf items w, w) : Nat × String) < toLex ((countOf items m, m) : Nat × String) := by
  have hmj : majorityVal items = some ((pyMax entryKey x (y :: tl)).1) := by
    unfold majorityVal
    rw [hv]
  set M := pyMax entryKey x (y :: tl) with hM
  obtain ⟨hmem, hge⟩ := pyMax_spec entryKey x (y :: tl)
  rw [← hv] at hmem
  obtain ⟨hMval, hMcount⟩ := mem_val2eids hmem
  refine ⟨M.1, hmj, hMval, ?_⟩
  intro w hw hne
  have hqmem := val2eids_entry_of_value hw
  rw [hv] at hqmem
  have hle := hge _ hqmem
  rw [entryKey_eq items _ (by rw [hv]; exact hqmem)] at hle
  rw [entryKey_eq items M hmem] at hle
  refine lt_of_le_of_ne hle ?_
  intro heq
  have : ((countOf items w, w) : Nat × String) = (countOf items M.1, M.1) := by
    exact toLex.injective heq
  exact hne (congrArg Prod.snd this)

/-- The majority value of a bucket is invariant under permutation of the
bucket of proposals. -/
theorem majority_perm {items items' : List ProposedChange} (h : items.Perm items') :
    majorityVal items = majorityVal items' := by
  have hperm : (pyDedup (items.map (·.proposed_value))).Perm
      (pyDedup (items'.map (·.proposed_value))) := pyDedup_perm (h.map _)
  have hlen : (val2eids items).length = (val2eids items').length := by
    unfold val2eids
    rw [List.length_map, List.length_map]
    exact hperm.length_eq
  match h1 : val2eids items, h2 : val2eids items' with
  | [], [] =>
      unfold majorityVal
      rw [h1, h2]
  | [], b :: bs => rw [h1, h2] at hlen; simp at hlen
  | a :: as, [] => rw [h1, h2] at hlen; simp at hlen
  | [a], b :: b' :: bs => rw [h1, h2] at hlen; simp at hlen
  | a :: a' :: as, [b] => rw [h1, h2] at hlen; simp at hlen
  | [a], [b] =>
      unfold majorityVal
      rw [h1, h2]
  | a :: a' :: as, b :: b' :: bs =>
      obtain ⟨m, hm, hmval, hmdom⟩ := majority_char h1
      obtain ⟨m', hm', hmval', hmdom'⟩ := majority_char h2
      rw [hm, hm']
      by_cases hmm : m = m'
      · rw [hmm]
      · have hmval2 : m ∈ items'.map (·.proposed_value) := (h.map _).mem_iff.1 hmval
        have hmval2' : m' ∈ items.map (·.proposed_value) := (h.map _).mem_iff.2 hmval'
        have h1lt := hmdom m' hmval2' (fun hc => hmm hc.symm)
        have h2lt := hmdom' m hmval2 hmm
        have hc1 : countOf items m' = countOf items' m' := countOf_perm h m'
        have hc2 : countOf items m = countOf items' m := countOf_perm h m
        rw [hc1, hc2] at h1lt
        exact absurd h2lt (not_lt_of_gt h1lt)

/-- In a contested bucket the record under the original AID ends with the
majority value in the target column. -/
theorem processBucket_conflict_applied (recon : Row → String) (st : RState) (aid : Nat)
    (col : String) (items : List ProposedChange) (i : Nat)
    (x y : String × List (Option String)) (tl : List (String × List (Option String)))
    (hfind : st.fa.findIdx? (fun row => row.aid == aid) = some i)
    (hv : val2eids items = x :: y :: tl)
    (hcol : hasCol (st.fa.getD i ⟨0, []⟩) col = true)
    (hcolfa : col ≠ "fullAddress_c") :
    getCell ((processBucket recon st aid col items).fa.getD i ⟨0, []⟩) col =
      some ((pyMax entryKey x (y :: tl)).1) := by
  have hi : i < st.fa.length := (findIdx?_spec _ _ _ ⟨0, []⟩ hfind).1
  rw [processBucket_conflict_eq recon st aid col items i x y tl hfind hv]
  by_cases hcl : pyEqC (getCell (st.fa.getD i ⟨0, []⟩) col) (some ((pyMax entryKey x (y :: tl)).1)) = true
  · rw [if_pos hcl]
    rw [processMinorities_closed recon aid col i ((pyMax entryKey x (y :: tl)).1) (x :: y :: tl) _ hi]
    rw [List.getD_eq_getElem?_getD, List.getElem?_append_left hi, ← List.getD_eq_getElem?_getD]
    cases hc2 : getCell (st.fa.getD i ⟨0, []⟩) col with
    | none => rw [hc2] at hcl; exact absurd hcl (by simp [pyEqC])
    | some s =>
        rw [hc2] at hcl
        simp only [pyEqC, beq_iff_eq] at hcl
        exact congrArg some hcl
  · rw [if_neg hcl]
    rw [processMinorities_closed recon aid col i ((pyMax entryKey x (y :: tl)).1) (x :: y :: tl) _
      (by simpa using hi)]
    rw [List.getD_eq_getElem?_getD, List.getElem?_append_left (by simpa using hi)]
    rw [List.getElem?_set_self hi]
    simp only [Option.getD_some]
    by_cases hhf : hasFullAddress st.fa = true
    · rw [if_pos hhf, getCell_setCell_ne _ hcolfa, getCell_setCell_self _ hcol]
    · rw [if_neg hhf, getCell_setCell_self _ hcol]

/-! ### Claim C4 -/

/-- C4 as stated is false on the code: a blank (`NaN`) stored value and a
textual-empty proposed value are not treated as the same sentinel.  With the
stored ZIP blank and a single proposal of the empty string, the record is
changed (the blank is overwritten with the empty text) instead of being left
untouched. -/
theorem C4_counterexample :
    (resolve_and_apply_changes reconstruct_full_address
        [⟨5, [("zip_c", none)]⟩] [] [⟨5, some "E", "zip_c", none, "", "r"⟩] 5).fa =
      [⟨5, [("zip_c", some "")]⟩] ∧
    (resolve_and_apply_changes reconstruct_full_address
        [⟨5, [("zip_c", none)]⟩] [] [⟨5, some "E", "zip_c", none, "", "r"⟩] 5).fa ≠
      [⟨5, [("zip_c", none)]⟩] := by
  constructor
  · rfl
  · decide

/-- C4 (amended): for a single-value `(AID, column)` partition the proposal
is a no-op exactly when the proposed text equals the stored value as text;
two blank values count as equal, but a blank stored value and a textual-empty
proposed value are distinct, so the blank is overwritten. -/
theorem C4_theorem (recon : Row → String) (st : RState) (aid : Nat) (col : String)
    (items : List ProposedChange) (i : Nat) (v : String) (es : List (Option String))
    (hfind : st.fa.findIdx? (fun row => row.aid == aid) = some i)
    (hv : val2eids items = [(v, es)])
    (hcol : hasCol (st.fa.getD i ⟨0, []⟩) col = true)
    (hcolfa : col ≠ "fullAddress_c") :
    processBucket recon st aid col items = st ↔
      getCell (st.fa.getD i ⟨0, []⟩) col = some v := by
  have hi : i < st.fa.length := (findIdx?_spec _ _ _ ⟨0, []⟩ hfind).1
  rw [processBucket_single_eq recon st aid col items i v es hfind hv]
  constructor
  · intro h
    by_cases hc : ((pyIsNa (getCell (st.fa.getD i ⟨0, []⟩) col) && pyIsNa (some v)) ||
        pyEqC (getCell (st.fa.getD i ⟨0, []⟩) col) (some v)) = true
    · rcases Bool.or_eq_true_iff.1 hc with h1 | h1
      · exact absurd (Bool.and_eq_true_iff.1 h1).2 (by simp [pyIsNa])
      · cases hcur : getCell (st.fa.getD i ⟨0, []⟩) col with
        | none => rw [hcur] at h1; simp [pyEqC] at h1
        | some s =>
            rw [hcur] at h1
            simp only [pyEqC, beq_iff_eq] at h1
            rw [h1]
    · rw [if_neg hc] at h
      exfalso
      have hfa : st.fa.set i (if hasFullAddress st.fa then
          setCell (setCell (st.fa.getD i ⟨0, []⟩) col (some v)) "fullAddress_c"
            (some (recon (setCell (st.fa.getD i ⟨0, []⟩) col (some v))))
        else setCell (st.fa.getD i ⟨0, []⟩) col (some v)) = st.fa :=
        congrArg RState.fa h
      have hget : (st.fa.set i (if hasFullAddress st.fa then
          setCell (setCell (st.fa.getD i ⟨0, []⟩) col (some v)) "fullAddress_c"
            (some (recon (setCell (st.fa.getD i ⟨0, []⟩) col (some v))))
        else setCell (st.fa.getD i ⟨0, []⟩) col (some v)))[i]? = st.fa[i]? := by
        rw [hfa]
      rw [List.getElem?_set_self hi, List.getElem?_eq_getElem hi] at hget
      have hrow : (if hasFullAddress st.fa then
          setCell (setCell (st.fa.getD i ⟨0, []⟩) col (some v)) "fullAddress_c"
            (some (recon (setCell (st.fa.getD i ⟨0, []⟩) col (some v))))
        else setCell (st.fa.getD i ⟨0, []⟩) col (some v)) = st.fa[i] :=
        Option.some.inj hget
      have hgd : st.fa.getD i ⟨0, []⟩ = st.fa[i] := by
        rw [List.getD_eq_getElem?_getD, List.getElem?_eq_getElem hi]
        rfl
      have hnew : getCell (if hasFullAddress st.fa then
          setCell (setCell (st.fa.getD i ⟨0, []⟩) col (some v)) "fullAddress_c"
            (some (recon (setCell (st.fa.getD i ⟨0, []⟩) col (some v))))
        else setCell (st.fa.getD i ⟨0, []⟩) col (some v)) col = some v := by
        by_cases hhf : hasFullAddress st.fa = true
        · rw [if_pos hhf, getCell_setCell_ne _ hcolfa, getCell_setCell_self _ hcol]
        · rw [if_neg hhf, getCell_setCell_self _ hcol]
      rw [hrow] at hnew
      have hcurv : getCell (st.fa.getD i ⟨0, []⟩) col = some v := by
        rw [hgd]; exact hnew
      have : pyEqC (getCell (st.fa.getD i ⟨0, []⟩) col) (some v) = true := by
        rw [hcurv]; simp [pyEqC]
      exact hc (Bool.or_eq_true_iff.2 (Or.inr this))
  · intro h
    have hpe : pyEqC (getCell (st.fa.getD i ⟨0, []⟩) col) (some v) = true := by
      rw [h]; simp [pyEqC]
    rw [if_pos (Bool.or_eq_true_iff.2 (Or.inr hpe))]

/-- Witness for C4 (amended) on a concrete no-op input. -/
theorem C4_witness :
    (processBucket reconstruct_full_address ⟨[⟨5, [("zip_c", some "x")]⟩], [], 5, []⟩ 5 "zip_c"
        [⟨5, some "E", "zip_c", none, "x", "r"⟩] = ⟨[⟨5, [("zip_c", some "x")]⟩], [], 5, []⟩ ↔
      getCell (([⟨5, [("zip_c", some "x")]⟩] : List Row).getD 0 ⟨0, []⟩) "zip_c" = some "x") :=
  C4_theorem reconstruct_full_address ⟨[⟨5, [("zip_c", some "x")]⟩], [], 5, []⟩ 5 "zip_c"
    [⟨5, some "E", "zip_c", none, "x", "r"⟩] 0 "x" [some "E"]
    (by decide) (by decide) (by decide) (by decide)

/-! ### Claim C3 -/

/-- C3: in a contested `(AID, column)` partition the value applied in place
is the proposed value with the largest set of distinct supporting contexts
(a null context counted once), ties broken by the lexicographically greatest
literal value; the chosen value is invariant under any permutation of the
partition of proposals. -/
theorem C3_theorem (recon : Row → String) (st : RState) (aid : Nat) (col : String)
    (items items' : List ProposedChange) (i : Nat)
    (hperm : items.Perm items')
    (hfind : st.fa.findIdx? (fun row => row.aid == aid) = some i)
    (hcol : hasCol (st.fa.getD i ⟨0, []⟩) col = true)
    (hcolfa : col ≠ "fullAddress_c")
    (hk : 2 ≤ (val2eids items).length) :
    ∃ m, majorityVal items = some m ∧ majorityVal items' = some m ∧
      m ∈ items.map (·.proposed_value) ∧
      (∀ w ∈ items.map (·.proposed_value), w ≠ m →
        countOf items w < countOf items m ∨
          (countOf items w = countOf items m ∧ w < m)) ∧
      getCell ((processBucket recon st aid col items).fa.getD i ⟨0, []⟩) col = some m := by
  cases hshape : val2eids items with
  | nil => rw [hshape] at hk; simp at hk
  | cons x rest =>
    cases rest with
    | nil => rw [hshape] at hk; simp at hk
    | cons y tl =>
        obtain ⟨m, hm, hmval, hdom⟩ := majority_char hshape
        have hmeq : (pyMax entryKey x (y :: tl)).1 = m := by
          have h2 : majorityVal items = some ((pyMax entryKey x (y :: tl)).1) := by
            unfold majorityVal
            rw [hshape]
          rw [h2] at hm
          exact Option.some.inj hm
        refine ⟨m, hm, ?_, hmval, ?_, ?_⟩
        · rw [← majority_perm hperm]
          exact hm
        · intro w hw hne
          have h3 := hdom w hw hne
          rw [Prod.Lex.lt_iff] at h3
          exact h3
        · have h4 := processBucket_conflict_applied recon st aid col items i x y tl hfind
            hshape hcol hcolfa
          rw [hmeq] at h4
          exact h4

/-- Witness for C3 on the spec example: values "2020" and "2021" with equal
supporter counts resolve to "2021", for both orders of the proposals. -/
theorem C3_witness :
    (∃ m, majorityVal
        [⟨1, some "A", "year_c", none, "2020", "r"⟩, ⟨1, some "B", "year_c", none, "2021", "r"⟩] = some m ∧
      majorityVal
        [⟨1, some "B", "year_c", none, "2021", "r"⟩, ⟨1, some "A", "year_c", none, "2020", "r"⟩] = some m ∧
      m ∈ ([⟨1, some "A", "year_c", none, "2020", "r"⟩,
            ⟨1, some "B", "year_c", none, "2021", "r"⟩] : List ProposedChange).map (·.proposed_value) ∧
      (∀ w ∈ ([⟨1, some "A", "year_c", none, "2020", "r"⟩,
            ⟨1, some "B", "year_c", none, "2021", "r"⟩] : List ProposedChange).map (·.proposed_value),
          w ≠ m →
        countOf [⟨1, some "A", "year_c", none, "2020", "r"⟩, ⟨1, some "B", "year_c", none, "2021", "r"⟩] w <
            countOf [⟨1, some "A", "year_c", none, "2020", "r"⟩, ⟨1, some "B", "year_c", none, "2021", "r"⟩] m ∨
          (countOf [⟨1, some "A", "year_c", none, "2020", "r"⟩, ⟨1, some "B", "year_c", none, "2021", "r"⟩] w =
            countOf [⟨1, some "A", "year_c", none, "2020", "r"⟩, ⟨1, some "B", "year_c", none, "2021", "r"⟩] m ∧
            w < m)) ∧
      getCell ((processBucket reconstruct_full_address ⟨[⟨1, [("year_c", none)]⟩], [], 1, []⟩ 1 "year_c"
          [⟨1, some "A", "year_c", none, "2020", "r"⟩,
           ⟨1, some "B", "year_c", none, "2021", "r"⟩]).fa.getD 0 ⟨0, []⟩) "year_c" = some m) ∧
    majorityVal
      [⟨1, some "A", "year_c", none, "2020", "r"⟩, ⟨1, some "B", "year_c", none, "2021", "r"⟩] =
        some "2021" :=
  ⟨C3_theorem reconstruct_full_address ⟨[⟨1, [("year_c", none)]⟩], [], 1, []⟩ 1 "year_c"
    [⟨1, some "A", "year_c", none, "2020", "r"⟩, ⟨1, some "B", "year_c", none, "2021", "r"⟩]
    [⟨1, some "B", "year_c", none, "2021", "r"⟩, ⟨1, some "A", "year_c", none, "2020", "r"⟩]
    0 (by decide) (by decide) (by decide) (by decide) (by decide), by decide⟩

/-! ### Claim C2 -/

theorem aid_cloneOf (recon : Row → String) (col : String) (base : Row) (hf : Bool)
    (n : Nat) (v : String) : (cloneOf recon col base hf n v).aid = n := by
  unfold cloneOf
  by_cases h : hf = true
  · rw [if_pos h]; rfl
  · rw [if_neg h]; rfl

theorem getCell_cloneOf_target (recon : Row → String) (col : String) (base : Row) (hf : Bool)
    (n : Nat) (v : String) (hbc : hasCol base col = true) (hne : col ≠ "fullAddress_c") :
    getCell (cloneOf recon col base hf n v) col = some v := by
  unfold cloneOf
  have hbc2 : hasCol { base with aid := n } col = true := hbc
  by_cases h : hf = true
  · rw [if_pos h, getCell_setCell_ne _ hne, getCell_setCell_self _ hbc2]
  · rw [if_neg h, getCell_setCell_self _ hbc2]

theorem getCell_cloneOf_other (recon : Row → String) (col : String) (base : Row) (hf : Bool)
    (n : Nat) (v : String) (c : String) (hc1 : c ≠ col) (hc2 : c ≠ "fullAddress_c") :
    getCell (cloneOf recon col base hf n v) c = getCell base c := by
  unfold cloneOf
  have hbase : getCell (setCell { base with aid := n } col (some v)) c =
      getCell ({ base with aid := n } : Row) c := getCell_setCell_ne _ hc1
  have hbase2 : getCell ({ base with aid := n } : Row) c = getCell base c := rfl
  by_cases h : hf = true
  · rw [if_pos h, getCell_setCell_ne _ hc2, hbase, hbase2]
  · rw [if_neg h, hbase, hbase2]

/-- Shape of the state produced by the minority loop over an arbitrary
starting state. -/
theorem minorities_shape (recon : Row → String) (aid : Nat) (col : String) (i : Nat)
    (mj : String) (fa0 : List Row) (rel0 : List RelRow) (max0 : Nat)
    (splits0 : List SplitEvent) (l : List (String × List (Option String)))
    (hi : i < fa0.length)
    (hbasecol : hasCol (fa0.getD i ⟨0, []⟩) col = true)
    (hcolfa : col ≠ "fullAddress_c") :
    (processMinorities recon aid col i mj ⟨fa0, rel0, max0, splits0⟩ l).maxAid =
        max0 + (l.filter (fun q => !(q.1 == mj))).length ∧
    (processMinorities recon aid col i mj ⟨fa0, rel0, max0, splits0⟩ l).splits.length =
        splits0.length + (l.filter (fun q => !(q.1 == mj))).length ∧
    (∀ j, j < splits0.length →
      (processMinorities recon aid col i mj ⟨fa0, rel0, max0, splits0⟩ l).splits[j]? = splits0[j]?) ∧
    (∀ j q, (l.filter (fun q => !(q.1 == mj)))[j]? = some q →
      (processMinorities recon aid col i mj ⟨fa0, rel0, max0, splits0⟩ l).splits[splits0.length + j]? =
        some ⟨aid, max0 + j + 1, col, q.1⟩) ∧
    (processMinorities recon aid col i mj ⟨fa0, rel0, max0, splits0⟩ l).fa.length =
        fa0.length + (l.filter (fun q => !(q.1 == mj))).length ∧
    ((processMinorities recon aid col i mj ⟨fa0, rel0, max0, splits0⟩ l).fa.getD i ⟨0, []⟩ = fa0.getD i ⟨0, []⟩) ∧
    (∀ j q, (l.filter (fun q => !(q.1 == mj)))[j]? = some q → ∃ cn,
      (processMinorities recon aid col i mj ⟨fa0, rel0, max0, splits0⟩ l).fa[fa0.length + j]? = some cn ∧
      cn.aid = max0 + j + 1 ∧
      getCell cn col = some q.1 ∧
      ∀ c, c ≠ col → c ≠ "fullAddress_c" →
        getCell cn c = getCell ((processMinorities recon aid col i mj ⟨fa0, rel0, max0, splits0⟩ l).fa.getD i ⟨0, []⟩) c) := by
  rw [processMinorities_closed recon aid col i mj l ⟨fa0, rel0, max0, splits0⟩ hi]
  dsimp only
  set ms := l.filter (fun q => !(q.1 == mj)) with hmsdef
  refine ⟨rfl, ?_, ?_, ?_, ?_, ?_, ?_⟩
  · simp [List.length_append, length_splitsOf]
  · intro j hj
    exact List.getElem?_append_left hj
  · intro j q hq
    rw [List.getElem?_append_right (by omega)]
    have : splits0.length + j - splits0.length = j := by omega
    rw [this, getElem?_splitsOf, hq]
    rfl
  · simp [List.length_append, length_clonesOf]
  · rw [List.getD_eq_getElem?_getD, List.getElem?_append_left hi, ← List.getD_eq_getElem?_getD]
  · intro j q hq
    have hgd : (fa0 ++ clonesOf recon col (fa0.getD i ⟨0, []⟩) (hasFullAddress fa0)
        max0 ms).getD i ⟨0, []⟩ = fa0.getD i ⟨0, []⟩ := by
      rw [List.getD_eq_getElem?_getD, List.getElem?_append_left hi, ← List.getD_eq_getElem?_getD]
    refine ⟨cloneOf recon col (fa0.getD i ⟨0, []⟩) (hasFullAddress fa0)
      (max0 + j + 1) q.1, ?_, ?_, ?_, ?_⟩
    · rw [List.getElem?_append_right (by omega)]
      have : fa0.length + j - fa0.length = j := by omega
      rw [this, getElem?_clonesOf, hq]
      rfl
    · exact aid_cloneOf _ _ _ _ _ _
    · exact getCell_cloneOf_target _ _ _ _ _ _ hbasecol hcolfa
    · intro c hc1 hc2
      rw [getCell_cloneOf_other _ _ _ _ _ _ c hc1 hc2, hgd]

theorem hasFullAddress_set (fa : List Row) (i : Nat) (r : Row) (hi : i < fa.length)
    (hr : hasCol r "fullAddress_c" = hasCol (fa.getD i ⟨0, []⟩) "fullAddress_c") :
    hasFullAddress (fa.set i r) = hasFullAddress fa := by
  cases fa with
  | nil => simp at hi
  | cons a l =>
      cases i with
      | zero =>
          simp only [List.set_cons_zero, hasFullAddress]
          simpa using hr
      | succ n => simp [List.set_cons_succ, hasFullAddress]

theorem fa1_props (recon : Row → String) (st : RState) (i : Nat) (col : String) (mj : String)
    (hi : i < st.fa.length)
    (hcol : hasCol (st.fa.getD i ⟨0, []⟩) col = true) :
    (if pyEqC (getCell (st.fa.getD i ⟨0, []⟩) col) (some mj) then st.fa
      else st.fa.set i (if hasFullAddress st.fa then
        setCell (setCell (st.fa.getD i ⟨0, []⟩) col (some mj)) "fullAddress_c"
          (some (recon (setCell (st.fa.getD i ⟨0, []⟩) col (some mj))))
        else setCell (st.fa.getD i ⟨0, []⟩) col (some mj))).length = st.fa.length ∧
    hasCol ((if pyEqC (getCell (st.fa.getD i ⟨0, []⟩) col) (some mj) then st.fa
      else st.fa.set i (if hasFullAddress st.fa then
        setCell (setCell (st.fa.getD i ⟨0, []⟩) col (some mj)) "fullAddress_c"
          (some (recon (setCell (st.fa.getD i ⟨0, []⟩) col (some mj))))
        else setCell (st.fa.getD i ⟨0, []⟩) col (some mj))).getD i ⟨0, []⟩) col = true := by
  by_cases hcl : pyEqC (getCell (st.fa.getD i ⟨0, []⟩) col) (some mj) = true
  · refine ⟨by rw [if_pos hcl], ?_⟩
    rw [if_pos hcl]
    exact hcol
  · refine ⟨by rw [if_neg hcl]; exact List.length_set _ _ _, ?_⟩
    rw [if_neg hcl]
    rw [List.getD_eq_getElem?_getD, List.getElem?_set_self hi, Option.getD_some]
    by_cases hhf : hasFullAddress st.fa = true
    · rw [if_pos hhf, hasCol_setCell, hasCol_setCell]
      exact hcol
    · rw [if_neg hhf, hasCol_setCell]
      exact hcol

theorem nodup_map_ne_of_ne {α β : Type} {f : α → β} {l : List α} (h : (l.map f).Nodup)
    {a b : α} (ha : a ∈ l) (hb : b ∈ l) (hne : a ≠ b) : f a ≠ f b := by
  intro hfe
  exact hne (List.inj_on_of_nodup_map h ha hb hfe)

/-- C2: a single-value partition mints no split and leaves the counter, the
relationship table and the address-table row count unchanged; a contested
partition with `k` distinct values of pairwise-distinct supporter counts
applies the most-supported value to the record in place and mints exactly
`k - 1` new AIDs, one clone per minority value, each clone differing from
the record under the original AID only in the target column and the derived
full-address field, with one matching `SplitEvent` per minority value. -/
theorem C2_theorem (recon : Row → String) (st : RState) (aid : Nat) (col : String)
    (items : List ProposedChange) (i : Nat)
    (hfind : st.fa.findIdx? (fun row => row.aid == aid) = some i)
    (hcol : hasCol (st.fa.getD i ⟨0, []⟩) col = true)
    (hcolfa : col ≠ "fullAddress_c") :
    (∀ v es, val2eids items = [(v, es)] →
        (processBucket recon st aid col items).splits = st.splits ∧
        (processBucket recon st aid col items).maxAid = st.maxAid ∧
        (processBucket recon st aid col items).rel = st.rel ∧
        (processBucket recon st aid col items).fa.length = st.fa.length) ∧
    (∀ x y tl, val2eids items = x :: y :: tl →
        ((x :: y :: tl).map (fun q => q.2.length)).Nodup →
        ∃ m ms, majorityVal items = some m ∧
          ms = (x :: y :: tl).filter (fun q => !(q.1 == m)) ∧
          ms.length + 1 = (x :: y :: tl).length ∧
          (∀ q ∈ val2eids items, q.1 ≠ m → q.2.length < countOf items m) ∧
          (processBucket recon st aid col items).maxAid = st.maxAid + ms.length ∧
          (processBucket recon st aid col items).splits.length = st.splits.length + ms.length ∧
          (∀ j, j < st.splits.length →
            (processBucket recon st aid col items).splits[j]? = st.splits[j]?) ∧
          (∀ j q, ms[j]? = some q →
            (processBucket recon st aid col items).splits[st.splits.length + j]? =
              some ⟨aid, st.maxAid + j + 1, col, q.1⟩) ∧
          getCell ((processBucket recon st aid col items).fa.getD i ⟨0, []⟩) col = some m ∧
          (processBucket recon st aid col items).fa.length = st.fa.length + ms.length ∧
          (∀ j q, ms[j]? = some q → ∃ cn,
            (processBucket recon st aid col items).fa[st.fa.length + j]? = some cn ∧
            cn.aid = st.maxAid + j + 1 ∧
            getCell cn col = some q.1 ∧
            ∀ c, c ≠ col → c ≠ "fullAddress_c" →
              getCell cn c = getCell ((processBucket recon st aid col items).fa.getD i ⟨0, []⟩) c)) := by
  have hi : i < st.fa.length := (findIdx?_spec _ _ _ ⟨0, []⟩ hfind).1
  constructor
  · intro v es hv
    rw [processBucket_single_eq recon st aid col items i v es hfind hv]
    by_cases hc : ((pyIsNa (getCell (st.fa.getD i ⟨0, []⟩) col) && pyIsNa (some v)) ||
        pyEqC (getCell (st.fa.getD i ⟨0, []⟩) col) (some v)) = true
    · rw [if_pos hc]
      exact ⟨rfl, rfl, rfl, rfl⟩
    · rw [if_neg hc]
      exact ⟨rfl, rfl, rfl, List.length_set _ _ _⟩
  · intro x y tl hv hnodupc
    set mj := (pyMax entryKey x (y :: tl)).1 with hmjdef
    have hm : majorityVal items = some mj := by
      unfold majorityVal
      rw [hv]
    -- the single entry carrying the majority value
    have hMmem : pyMax entryKey x (y :: tl) ∈ x :: y :: tl := (pyMax_spec entryKey x (y :: tl)).1
    have hvalues : ((x :: y :: tl).map Prod.fst).Nodup := by
      have := val2eids_fst items
      rw [hv] at this
      rw [this]
      exact nodup_pyDedup _
    set ms := (x :: y :: tl).filter (fun q => !(q.1 == mj)) with hmsdef
    -- decompose the entry list around the majority entry
    obtain ⟨s, t, hst⟩ := List.append_of_mem hMmem
    have hsno : ∀ q ∈ s, q.1 ≠ mj := by
      intro q hq hqe
      have : (s.map Prod.fst ++ mj :: t.map Prod.fst).Nodup := by
        have h2 := hvalues
        rw [hst] at h2
        simpa using h2
      have hqmem : mj ∈ s.map Prod.fst := by
        rw [← hqe]
        exact List.mem_map_of_mem _ hq
      rw [List.nodup_append] at this
      exact this.2.2 hqmem (List.mem_cons_self _ _)
    have htno : ∀ q ∈ t, q.1 ≠ mj := by
      intro q hq hqe
      have h2 := hvalues
      rw [hst] at h2
      simp only [List.map_append, List.map_cons, List.nodup_append] at h2
      have := h2.2.1
      rw [List.nodup_cons] at this
      exact this.1 (show mj ∈ List.map Prod.fst t from hqe ▸ List.mem_map_of_mem Prod.fst hq)
    have hms_eq : ms = s ++ t := by
      rw [hmsdef, hst, List.filter_append]
      congr 1
      · rw [List.filter_eq_self]
        intro q hq
        simpa using hsno q hq
      · rw [List.filter_cons]
        have : ((pyMax entryKey x (y :: tl)).1 == mj) = true := by
          simp [hmjdef]
        simp only [this, Bool.not_true, if_neg, Bool.false_eq_true, not_false_iff]
        rw [List.filter_eq_self]
        intro q hq
        simpa using htno q hq
    have hms_len : ms.length + 1 = (x :: y :: tl).length := by
      rw [hms_eq, hst]
      simp
      omega
    refine ⟨mj, ms, hm, rfl, hms_len, ?_, ?_⟩
    · -- strict majority dominance on supporter counts
      intro q hq hqne
      rw [hv] at hq
      have hqkey := (pyMax_spec entryKey x (y :: tl)).2 q hq
      have hqne' : q ≠ pyMax entryKey x (y :: tl) := by
        intro hqe
        exact hqne (by rw [hqe])
      have hcne : q.2.length ≠ (pyMax entryKey x (y :: tl)).2.length := by
        have := nodup_map_ne_of_ne hnodupc hq hMmem hqne'
        exact this
      have hMcount : (pyMax entryKey x (y :: tl)).2.length = countOf items mj := by
        have := mem_val2eids (q := pyMax entryKey x (y :: tl)) (by rw [hv]; exact hMmem)
        exact this.2
      rw [Prod.Lex.le_iff] at hqkey
      rcases hqkey with h | ⟨h1, -⟩
      · rw [← hMcount]
        exact h
      · exact absurd h1 hcne
    · -- shape of the output state
      have hpb := processBucket_conflict_eq recon st aid col items i x y tl hfind hv
      obtain ⟨hfa1len, hfa1col⟩ := fa1_props recon st i col mj hi hcol
      have hshape := minorities_shape recon aid col i mj
        (if pyEqC (getCell (st.fa.getD i ⟨0, []⟩) col) (some mj) then st.fa
          else st.fa.set i (if hasFullAddress st.fa then
            setCell (setCell (st.fa.getD i ⟨0, []⟩) col (some mj)) "fullAddress_c"
              (some (recon (setCell (st.fa.getD i ⟨0, []⟩) col (some mj))))
            else setCell (st.fa.getD i ⟨0, []⟩) col (some mj)))
        st.rel st.maxAid st.splits (x :: y :: tl)
        (by rw [hfa1len]; exact hi) hfa1col hcolfa
      refine ⟨?_, ?_, ?_, ?_, ?_, ?_, ?_⟩
      · rw [hpb]
        exact hshape.1
      · rw [hpb]
        exact hshape.2.1
      · intro j hj
        rw [hpb]
        exact hshape.2.2.1 j hj
      · intro j q hq
        rw [hpb]
        exact hshape.2.2.2.1 j q hq
      · exact processBucket_conflict_applied recon st aid col items i x y tl hfind hv hcol hcolfa
      · rw [hpb, ← hfa1len]
        exact hshape.2.2.2.2.1
      · intro j q hq
        rw [hpb, ← hfa1len]
        exact hshape.2.2.2.2.2.2 j q hq

/-- Example conflicted state for exercising the resolver. -/
def exSt : RState := ⟨[⟨1, [("zip_c", some "_00000")]⟩], [⟨"E3", 1, none, none⟩], 1, []⟩

/-- Example contested bucket: "_11111" has supporters E1 and E2, "_22222"
has supporter E3. -/
def exItems : List ProposedChange :=
  [⟨1, some "E1", "zip_c", none, "_11111", "r"⟩,
   ⟨1, some "E2", "zip_c", none, "_11111", "r"⟩,
   ⟨1, some "E3", "zip_c", none, "_22222", "r"⟩]

/-- Witness for C2 on a two-value bucket with supporter counts 2 and 1:
exactly one new AID is minted, one split event is emitted, and the majority
value is applied in place. -/
theorem C2_witness :
    (processBucket reconstruct_full_address exSt 1 "zip_c" exItems).maxAid = 2 ∧
    (processBucket reconstruct_full_address exSt 1 "zip_c" exItems).splits.length = 1 ∧
    getCell ((processBucket reconstruct_full_address exSt 1 "zip_c" exItems).fa.getD 0 ⟨0, []⟩)
      "zip_c" = some "_11111" := by
  obtain ⟨m, ms, h1, h2, h3, h4, h5, h6, h7, h8, h9, h10, h11⟩ :=
    (C2_theorem reconstruct_full_address exSt 1 "zip_c" exItems 0
        (by decide) (by decide) (by decide)).2
      ("_11111", [some "E1", some "E2"]) ("_22222", [some "E3"]) []
      (by decide) (by decide)
  have hm : m = "_11111" := by
    have hmv : majorityVal exItems = some "_11111" := by decide
    rw [hmv] at h1
    exact (Option.some.inj h1).symm
  subst hm
  have hms : ms = [("_22222", [some "E3"])] := by
    rw [h2]
    decide
  refine ⟨?_, ?_, h9⟩
  · rw [h5, hms]
    decide
  · rw [h6, hms]
    decide

/-! ### Claim C7 -/

theorem fa1_getElem_aid (recon : Row → String) (st : RState) (i : Nat) (col : String)
    (mj : String) (hi : i < st.fa.length) (j : Nat) :
    ((if pyEqC (getCell (st.fa.getD i ⟨0, []⟩) col) (some mj) then st.fa
      else st.fa.set i (if hasFullAddress st.fa then
        setCell (setCell (st.fa.getD i ⟨0, []⟩) col (some mj)) "fullAddress_c"
          (some (recon (setCell (st.fa.getD i ⟨0, []⟩) col (some mj))))
        else setCell (st.fa.getD i ⟨0, []⟩) col (some mj)))[j]?).map Row.aid =
      (st.fa[j]?).map Row.aid := by
  by_cases hcl : pyEqC (getCell (st.fa.getD i ⟨0, []⟩) col) (some mj) = true
  · rw [if_pos hcl]
  · rw [if_neg hcl]
    by_cases hij : i = j
    · subst hij
      rw [List.getElem?_set_self hi, List.getElem?_eq_getElem hi]
      have hgd : st.fa.getD i ⟨0, []⟩ = st.fa[i] := by
        rw [List.getD_eq_getElem?_getD, List.getElem?_eq_getElem hi]
        rfl
      simp only [Option.map_some']
      congr 1
      by_cases hhf : hasFullAddress st.fa = true
      · rw [if_pos hhf, aid_setCell, aid_setCell, hgd]
      · rw [if_neg hhf, aid_setCell, hgd]
    · rw [List.getElem?_set_ne hij]

/-- One bucket step preserves the structural invariants: the counter grows
by the number of new split events, new events carry consecutive fresh AIDs,
existing splits and address rows (and their AIDs) are untouched, and
relationship rows are only ever repointed. -/
theorem processBucket_step (recon : Row → String) (st : RState) (aid : Nat) (col : String)
    (items : List ProposedChange) :
    ∃ n, (processBucket recon st aid col items).maxAid = st.maxAid + n ∧
      (processBucket recon st aid col items).splits.length = st.splits.length + n ∧
      (∀ j, j < st.splits.length →
        (processBucket recon st aid col items).splits[j]? = st.splits[j]?) ∧
      (∀ j, j < n → ∃ ev, (processBucket recon st aid col items).splits[st.splits.length + j]? =
        some ev ∧ ev.new_aid = st.maxAid + j + 1) ∧
      st.fa.length ≤ (processBucket recon st aid col items).fa.length ∧
      (∀ j, j < st.fa.length →
        ((processBucket recon st aid col items).fa[j]?).map Row.aid = (st.fa[j]?).map Row.aid) ∧
      (processBucket recon st aid col items).rel.length = st.rel.length ∧
      (∀ j : Nat, ((processBucket recon st aid col items).rel[j]?).map RelRow.eid =
          (st.rel[j]?).map RelRow.eid ∧
        ((processBucket recon st aid col items).rel[j]?).map RelRow.relType =
          (st.rel[j]?).map RelRow.relType ∧
        ((processBucket recon st aid col items).rel[j]?).map RelRow.number =
          (st.rel[j]?).map RelRow.number) := by
  cases hfind : st.fa.findIdx? (fun row => row.aid == aid) with
  | none =>
      rw [processBucket_stale recon st aid col items hfind]
      exact ⟨0, rfl, rfl, fun j hj => rfl, fun j hj => absurd hj (by omega),
        le_refl _, fun j hj => rfl, rfl, fun j => ⟨rfl, rfl, rfl⟩⟩
  | some i =>
      have hi : i < st.fa.length := (findIdx?_spec _ _ _ ⟨0, []⟩ hfind).1
      cases hv : val2eids items with
      | nil =>
          have : processBucket recon st aid col items = st := by
            unfold processBucket
            rw [hfind, hv]
          rw [this]
          exact ⟨0, rfl, rfl, fun j hj => rfl, fun j hj => absurd hj (by omega),
            le_refl _, fun j hj => rfl, rfl, fun j => ⟨rfl, rfl, rfl⟩⟩
      | cons x rest =>
        cases rest with
        | nil =>
            obtain ⟨v, es⟩ := x
            rw [processBucket_single_eq recon st aid col items i v es hfind hv]
            by_cases hc : ((pyIsNa (getCell (st.fa.getD i ⟨0, []⟩) col) && pyIsNa (some v)) ||
                pyEqC (getCell (st.fa.getD i ⟨0, []⟩) col) (some v)) = true
            · rw [if_pos hc]
              exact ⟨0, rfl, rfl, fun j hj => rfl, fun j hj => absurd hj (by omega),
                le_refl _, fun j hj => rfl, rfl, fun j => ⟨rfl, rfl, rfl⟩⟩
            · rw [if_neg hc]
              refine ⟨0, rfl, rfl, fun j hj => rfl, fun j hj => absurd hj (by omega),
                le_of_eq (List.length_set _ _ _).symm, ?_, rfl, fun j => ⟨rfl, rfl, rfl⟩⟩
              intro j hj
              by_cases hij : i = j
              · subst hij
                rw [List.getElem?_set_self hi, List.getElem?_eq_getElem hi]
                have hgd : st.fa.getD i ⟨0, []⟩ = st.fa[i] := by
                  rw [List.getD_eq_getElem?_getD, List.getElem?_eq_getElem hi]
                  rfl
                simp only [Option.map_some']
                congr 1
                by_cases hhf : hasFullAddress st.fa = true
                · rw [if_pos hhf, aid_setCell, aid_setCell, hgd]
                · rw [if_neg hhf, aid_setCell, hgd]
              · rw [List.getElem?_set_ne hij]
        | cons y tl =>
            have hpb := processBucket_conflict_eq recon st aid col items i x y tl hfind hv
            have hfa1len : (if pyEqC (getCell (st.fa.getD i ⟨0, []⟩) col)
                (some ((pyMax entryKey x (y :: tl)).1)) then st.fa
              else st.fa.set i (if hasFullAddress st.fa then
                setCell (setCell (st.fa.getD i ⟨0, []⟩) col (some ((pyMax entryKey x (y :: tl)).1)))
                  "fullAddress_c"
                  (some (recon (setCell (st.fa.getD i ⟨0, []⟩) col
                    (some ((pyMax entryKey x (y :: tl)).1)))))
                else setCell (st.fa.getD i ⟨0, []⟩) col
                  (some ((pyMax entryKey x (y :: tl)).1)))).length = st.fa.length := by
              by_cases hcl : pyEqC (getCell (st.fa.getD i ⟨0, []⟩) col)
                  (some ((pyMax entryKey x (y :: tl)).1)) = true
              · rw [if_pos hcl]
              · rw [if_neg hcl]
                exact List.length_set _ _ _
            rw [hpb, processMinorities_closed recon aid col i ((pyMax entryKey x (y :: tl)).1)
              (x :: y :: tl) _ (by rw [hfa1len] at *; exact hi)]
            dsimp only
            refine ⟨((x :: y :: tl).filter
                (fun q => !(q.1 == (pyMax entryKey x (y :: tl)).1))).length,
              rfl, ?_, ?_, ?_, ?_, ?_, ?_, ?_⟩
            · simp [List.length_append, length_splitsOf]
            · intro j hj
              exact List.getElem?_append_left hj
            · intro j hj
              rw [List.getElem?_append_right (by omega)]
              have harith : st.splits.length + j - st.splits.length = j := by omega
              rw [harith, getElem?_splitsOf]
              rw [List.getElem?_eq_getElem (by exact hj)]
              exact ⟨_, rfl, rfl⟩
            · rw [List.length_append, hfa1len]
              exact Nat.le_add_right _ _
            · intro j hj
              rw [List.getElem?_append_left (by rw [hfa1len]; exact hj)]
              exact fa1_getElem_aid recon st i col ((pyMax entryKey x (y :: tl)).1) hi j
            · exact List.length_map _ _
            · intro j
              rw [List.getElem?_map]
              cases st.rel[j]? with
              | none => exact ⟨rfl, rfl, rfl⟩
              | some rr =>
                  obtain ⟨h1, h2, h3⟩ := rowRepoint_fields aid st.maxAid
                    ((x :: y :: tl).filter (fun q => !(q.1 == (pyMax entryKey x (y :: tl)).1))) rr
                  simp only [Option.map_some']
                  exact ⟨congrArg some h1, congrArg some h2, congrArg some h3⟩

/-- C7: across a whole resolver run, new AIDs are issued exactly once and
strictly increasing in split-emission order (the event at position `j`
carries new AID `input maximum + j + 1`), the returned maximum equals the
input maximum plus the number of emitted events, every input address row
survives at its position with its AID unchanged, and relationship rows are
never deleted and change at most their AID pointer. -/
theorem C7_theorem (recon : Row → String) (fa : List Row) (rel : List RelRow)
    (proposals : List ProposedChange) (maxAid : Nat) :
    (resolve_and_apply_changes recon fa rel proposals maxAid).maxAid =
      maxAid + (resolve_and_apply_changes recon fa rel proposals maxAid).splits.length ∧
    (∀ j ev, (resolve_and_apply_changes recon fa rel proposals maxAid).splits[j]? = some ev →
      ev.new_aid = maxAid + j + 1) ∧
    fa.length ≤ (resolve_and_apply_changes recon fa rel proposals maxAid).fa.length ∧
    (∀ j, j < fa.length →
      ((resolve_and_apply_changes recon fa rel proposals maxAid).fa[j]?).map Row.aid =
        (fa[j]?).map Row.aid) ∧
    (resolve_and_apply_changes recon fa rel proposals maxAid).rel.length = rel.length ∧
    (∀ j : Nat,
      ((resolve_and_apply_changes recon fa rel proposals maxAid).rel[j]?).map RelRow.eid =
        (rel[j]?).map RelRow.eid ∧
      ((resolve_and_apply_changes recon fa rel proposals maxAid).rel[j]?).map RelRow.relType =
        (rel[j]?).map RelRow.relType ∧
      ((resolve_and_apply_changes recon fa rel proposals maxAid).rel[j]?).map RelRow.number =
        (rel[j]?).map RelRow.number) := by
  have main : ∀ (keys : List (Nat × String)) (st : RState),
      (st.maxAid = maxAid + st.splits.length ∧
        (∀ j ev, st.splits[j]? = some ev → ev.new_aid = maxAid + j + 1) ∧
        fa.length ≤ st.fa.length ∧
        (∀ j, j < fa.length → (st.fa[j]?).map Row.aid = (fa[j]?).map Row.aid) ∧
        st.rel.length = rel.length ∧
        (∀ j : Nat, (st.rel[j]?).map RelRow.eid = (rel[j]?).map RelRow.eid ∧
          (st.rel[j]?).map RelRow.relType = (rel[j]?).map RelRow.relType ∧
          (st.rel[j]?).map RelRow.number = (rel[j]?).map RelRow.number)) →
      (let out := keys.foldl (fun st k =>
          processBucket recon st k.1 k.2
            (proposals.filter (fun p => p.original_AID == k.1 && p.column_to_change == k.2))) st
       out.maxAid = maxAid + out.splits.length ∧
        (∀ j ev, out.splits[j]? = some ev → ev.new_aid = maxAid + j + 1) ∧
        fa.length ≤ out.fa.length ∧
        (∀ j, j < fa.length → (out.fa[j]?).map Row.aid = (fa[j]?).map Row.aid) ∧
        out.rel.length = rel.length ∧
        (∀ j : Nat, (out.rel[j]?).map RelRow.eid = (rel[j]?).map RelRow.eid ∧
          (out.rel[j]?).map RelRow.relType = (rel[j]?).map RelRow.relType ∧
          (out.rel[j]?).map RelRow.number = (rel[j]?).map RelRow.number)) := by
    intro keys
    induction keys with
    | nil => intro st h; exact h
    | cons k ks ih =>
        intro st h
        obtain ⟨h1, h2, h3, h4, h5, h6⟩ := h
        rw [List.foldl_cons]
        refine ih _ ?_
        obtain ⟨n, g1, g2, g3, g4, g5, g6, g7, g8⟩ := processBucket_step recon st k.1 k.2
          (proposals.filter (fun p => p.original_AID == k.1 && p.column_to_change == k.2))
        refine ⟨?_, ?_, le_trans h3 g5, ?_, g7.trans h5, ?_⟩
        · rw [g1, g2, h1]
          omega
        · intro j ev hev
          have hjlt : j < (processBucket recon st k.1 k.2
              (proposals.filter (fun p => p.original_AID == k.1 && p.column_to_change == k.2))).splits.length := by
            by_contra hge
            rw [List.getElem?_eq_none (by omega)] at hev
            exact Option.noConfusion hev
          by_cases hj : j < st.splits.length
          · exact h2 j ev (by rw [← g3 j hj]; exact hev)
          · have hj2 : j - st.splits.length < n := by
              rw [g2] at hjlt
              omega
            obtain ⟨ev2, hev2, haid2⟩ := g4 (j - st.splits.length) hj2
            have harith : st.splits.length + (j - st.splits.length) = j := by omega
            rw [harith] at hev2
            rw [hev] at hev2
            have hevv : ev = ev2 := Option.some.inj hev2
            rw [hevv, haid2, h1]
            omega
        · intro j hj
          rw [g6 j (lt_of_lt_of_le hj h3)]
          exact h4 j hj
        · intro j
          obtain ⟨e1, e2, e3⟩ := g8 j
          obtain ⟨f1, f2, f3⟩ := h6 j
          exact ⟨e1.trans f1, e2.trans f2, e3.trans f3⟩
  exact main (pyDedup (proposals.map (fun p => (p.original_AID, p.column_to_change))))
    ⟨fa, rel, maxAid, []⟩
    ⟨rfl, fun j ev hev => by simp at hev, le_refl _, fun j hj => rfl, rfl,
      fun j => ⟨rfl, rfl, rfl⟩⟩

/-- Witness for C7 on a run that mints one split: the counter advances by
the number of emitted events and the first event carries new AID
`input maximum + 1`. -/
theorem C7_witness :
    (resolve_and_apply_changes reconstruct_full_address [⟨100, [("year_c", none)]⟩]
        [⟨"A", 100, none, none⟩, ⟨"B", 100, none, none⟩]
        [⟨100, some "A", "year_c", none, "2020", "r"⟩,
         ⟨100, some "B", "year_c", none, "2021", "r"⟩] 100).maxAid =
      100 + (resolve_and_apply_changes reconstruct_full_address [⟨100, [("year_c", none)]⟩]
        [⟨"A", 100, none, none⟩, ⟨"B", 100, none, none⟩]
        [⟨100, some "A", "year_c", none, "2020", "r"⟩,
         ⟨100, some "B", "year_c", none, "2021", "r"⟩] 100).splits.length ∧
    ∃ ev, (resolve_and_apply_changes reconstruct_full_address [⟨100, [("year_c", none)]⟩]
        [⟨"A", 100, none, none⟩, ⟨"B", 100, none, none⟩]
        [⟨100, some "A", "year_c", none, "2020", "r"⟩,
         ⟨100, some "B", "year_c", none, "2021", "r"⟩] 100).splits[0]? = some ev ∧
      ev.new_aid = 100 + 0 + 1 := by
  have h := C7_theorem reconstruct_full_address [⟨100, [("year_c", none)]⟩]
    [⟨"A", 100, none, none⟩, ⟨"B", 100, none, none⟩]
    [⟨100, some "A", "year_c", none, "2020", "r"⟩,
     ⟨100, some "B", "year_c", none, "2021", "r"⟩] 100
  refine ⟨h.1, ?_⟩
  have hsp : (resolve_and_apply_changes reconstruct_full_address [⟨100, [("year_c", none)]⟩]
      [⟨"A", 100, none, none⟩, ⟨"B", 100, none, none⟩]
      [⟨100, some "A", "year_c", none, "2020", "r"⟩,
       ⟨100, some "B", "year_c", none, "2021", "r"⟩] 100).splits[0]? =
      some ⟨100, 101, "year_c", "2020"⟩ := by decide
  exact ⟨_, hsp, h.2.1 0 _ hsp⟩

/-! ### AddressSignatureSplitter (`split_conflicting_addresses` in `main.py`) -/

/-- The fixed ordered signature-bearing columns. -/
def sigCols : List String :=
  ["num1_c", "streetName_c", "streetSuffix_c", "unit_c", "zip_c", "city_c", "state_c"]

/-- Entity-aware signature of a relationship row: the EID concatenated with
the textual form of the signature columns of the joined address record
(absent address record or cell renders as the text "nan"), delimited by
"|". -/
def rowSig (fa : List Row) (rr : RelRow) : String :=
  String.intercalate "|" (rr.eid :: sigCols.map (fun c =>
    pyStr (match fa.find? (fun row => row.aid == rr.aid) with
           | some row => getCell row c
           | none => none)))

/-- Maximum AID of the address table (`df_fa["AID"].max()`). -/
def maxAidOf (fa : List Row) : Nat :=
  (fa.map (·.aid)).foldl max 0

/-- Distinct signatures associated with one AID across the relationship
rows, in first-occurrence order (`unique()`). -/
def sigsOf (fa : List Row) (r : List RelRow) (a : Nat) : List String :=
  pyDedup ((r.filter (fun rr => rr.aid == a)).map (rowSig fa))

/-- Insertion of a number into a sorted list, modelling the ascending key
order of a pandas groupby. -/
def insertSorted (a : Nat) : List Nat → List Nat
  | [] => [a]
  | b :: bs => if a ≤ b then a :: b :: bs else b :: insertSorted a bs

/-- Ascending sort, modelling the ascending key order of a pandas groupby. -/
def sortNat (l : List Nat) : List Nat :=
  l.foldr insertSorted []

/-- AIDs mapping to more than one distinct signature, in ascending order as
the groupby iterates them. -/
def badAids (fa : List Row) (r : List RelRow) : List Nat :=
  (sortNat (pyDedup (r.map (·.aid)))).filter (fun a => 1 < (sigsOf fa r a).length)

/-- Assign consecutive fresh AIDs to the distinct signatures of one
conflicted AID. -/
def assignSigs (a : Nat) : Nat → List String → List ((Nat × String) × Nat)
  | _, [] => []
  | n, s :: ss => ((a, s), n) :: assignSigs a (n + 1) ss

/-- The `remap` dictionary of `split_conflicting_addresses`, in insertion
order: conflicted AIDs ascending, signatures in first-occurrence order,
fresh AIDs consecutive from the starting counter. -/
def buildRemap (fa : List Row) (r : List RelRow) : Nat → List Nat → List ((Nat × String) × Nat)
  | _, [] => []
  | n, a :: as =>
      assignSigs a n (sigsOf fa r a) ++ buildRemap fa r (n + (sigsOf fa r a).length) as

/-- The `split_conflicting_addresses` pre-pass of `main.py`.  `none` models
the `IndexError` raised when a conflicted AID has no address row to clone. -/
def split_conflicting_addresses (fa : List Row) (r : List RelRow) :
    Option (List Row × List RelRow) :=
  let bad := badAids fa r
  if bad.isEmpty then some (fa, r)
  else
    let remap := buildRemap fa r (maxAidOf fa + 1) bad
    let r2 := r.map (fun rr =>
      match remap.lookup (rr.aid, rowSig fa rr) with
      | some n => { rr with aid := n }
      | none => rr)
    match remap.mapM (fun q =>
        (fa.find? (fun row => row.aid == q.1.1)).map (fun row => { row with aid := q.2 })) with
    | none => none
    | some clones => some (fa ++ clones, r2)

/-! ### Claim C1 -/

/-- C1 as stated is false on the code: with AID 100 linked to entities E1
and E2 (two distinct signatures), the first-encountered signature does not
keep the original AID.  The splitter mints a fresh AID for every distinct
signature: E1 moves to 101 and E2 to 102, and AID 100 retains no
relationship rows. -/
theorem C1_counterexample :
    (split_conflicting_addresses
        [⟨100, [("num1_c", some "12"), ("streetName_c", some "Main St"),
          ("streetSuffix_c", none), ("unit_c", none), ("zip_c", some "_12345"),
          ("city_c", none), ("state_c", none)]⟩]
        [⟨"E1", 100, none, none⟩, ⟨"E2", 100, none, none⟩]).map
      (fun p => p.2.map RelRow.aid) = some [101, 102] ∧
    (split_conflicting_addresses
        [⟨100, [("num1_c", some "12"), ("streetName_c", some "Main St"),
          ("streetSuffix_c", none), ("unit_c", none), ("zip_c", some "_12345"),
          ("city_c", none), ("state_c", none)]⟩]
        [⟨"E1", 100, none, none⟩, ⟨"E2", 100, none, none⟩]).map
      (fun p => p.1.map Row.aid) = some [100, 101, 102] := by
  constructor
  · decide
  · decide

theorem mem_insertSorted (a x : Nat) (l : List Nat) :
    x ∈ insertSorted a l ↔ x = a ∨ x ∈ l := by
  induction l with
  | nil => simp [insertSorted]
  | cons b bs ih =>
      unfold insertSorted
      by_cases h : a ≤ b
      · rw [if_pos h]
        simp
      · rw [if_neg h]
        simp only [List.mem_cons, ih]
        tauto

theorem mem_sortNat (x : Nat) (l : List Nat) : x ∈ sortNat l ↔ x ∈ l := by
  unfold sortNat
  induction l with
  | nil => simp
  | cons b bs ih =>
      simp only [List.foldr_cons, mem_insertSorted, List.mem_cons, ih]

theorem nodup_insertSorted (a : Nat) (l : List Nat) (ha : a ∉ l) (hl : l.Nodup) :
    (insertSorted a l).Nodup := by
  induction l with
  | nil => simp [insertSorted]
  | cons b bs ih =>
      unfold insertSorted
      rw [List.nodup_cons] at hl
      by_cases h : a ≤ b
      · rw [if_pos h, List.nodup_cons, List.nodup_cons]
        exact ⟨by simpa using ha, hl⟩
      · rw [if_neg h, List.nodup_cons]
        constructor
        · rw [mem_insertSorted]
          push_neg
          exact ⟨fun hba => ha (by rw [hba]; exact List.mem_cons_self _ _), hl.1⟩
        · exact ih (fun hm => ha (List.mem_cons_of_mem _ hm)) hl.2

theorem nodup_sortNat (l : List Nat) (h : l.Nodup) : (sortNat l).Nodup := by
  unfold sortNat
  induction l with
  | nil => simp
  | cons b bs ih =>
      rw [List.nodup_cons] at h
      rw [List.foldr_cons]
      refine nodup_insertSorted _ _ ?_ (ih h.2)
      rw [show List.foldr insertSorted [] bs = sortNat bs from rfl, mem_sortNat]
      exact h.1

theorem foldl_max_init_le (l : List Nat) (n : Nat) : n ≤ l.foldl max n := by
  induction l generalizing n with
  | nil => exact le_refl n
  | cons b bs ih => exact le_trans (Nat.le_max_left n b) (ih (max n b))

theorem foldl_max_mem_le (l : List Nat) (n : Nat) (x : Nat) (hx : x ∈ l) :
    x ≤ l.foldl max n := by
  induction l generalizing n with
  | nil => simp at hx
  | cons b bs ih =>
      rcases List.mem_cons.1 hx with h | h
      · subst h
        exact le_trans (Nat.le_max_right n x) (foldl_max_init_le bs (max n x))
      · exact ih (max n b) h

theorem maxAidOf_ge (fa : List Row) (row : Row) (h : row ∈ fa) : row.aid ≤ maxAidOf fa :=
  foldl_max_mem_le _ 0 _ (List.mem_map_of_mem _ h)

theorem find?_of_mem_aid (fa : List Row) (a : Nat) (h : a ∈ fa.map Row.aid) :
    ∃ row, fa.find? (fun row => row.aid == a) = some row ∧ row.aid = a ∧ row ∈ fa := by
  induction fa with
  | nil => simp at h
  | cons x xs ih =>
      by_cases hx : x.aid = a
      · refine ⟨x, ?_, hx, List.mem_cons_self _ _⟩
        rw [List.find?_cons]
        simp [hx]
      · simp only [List.map_cons, List.mem_cons] at h
        rcases h with h | h
        · exact absurd h.symm hx
        · obtain ⟨row, h1, h2, h3⟩ := ih h
          refine ⟨row, ?_, h2, List.mem_cons_of_mem _ h3⟩
          rw [List.find?_cons]
          have : (x.aid == a) = false := by simp [hx]
          simp only [this]
          exact h1

theorem find?_aid_none (fa : List Row) (a : Nat) (h : a ∉ fa.map Row.aid) :
    fa.find? (fun row => row.aid == a) = none := by
  rw [List.find?_eq_none]
  intro row hrow
  simp only [beq_iff_eq]
  intro he
  exact h (he ▸ List.mem_map_of_mem _ hrow)

theorem lookup_mem_key {β : Type} (l : List ((Nat × String) × β)) (k : Nat × String) (v : β)
    (h : l.lookup k = some v) : (k, v) ∈ l := by
  induction l with
  | nil => simp [List.lookup] at h
  | cons q qs ih =>
      obtain ⟨k', b⟩ := q
      rw [List.lookup_cons] at h
      by_cases hk : (k == k') = true
      · simp only [hk] at h
        have hke : k = k' := by
          obtain ⟨k1, k2⟩ := k
          obtain ⟨k1', k2'⟩ := k'
          have : (k1 == k1' && k2 == k2') = true := hk
          rw [Bool.and_eq_true_iff] at this
          exact Prod.ext (by simpa using this.1) (by simpa using this.2)
        cases h
        rw [hke]
        exact List.mem_cons_self _ _
      · simp only [hk] at h
        exact List.mem_cons_of_mem _ (ih h)

theorem lookup_none_of_not_mem_key {β : Type} (l : List ((Nat × String) × β)) (k : Nat × String)
    (h : ∀ q ∈ l, q.1 ≠ k) : l.lookup k = none := by
  induction l with
  | nil => rfl
  | cons q qs ih =>
      obtain ⟨k', b⟩ := q
      rw [List.lookup_cons]
      have hk : (k == k') = false := by
        have := h (k', b) (List.mem_cons_self _ _)
        simp only [ne_eq] at this
        obtain ⟨k1, k2⟩ := k
        obtain ⟨k1', k2'⟩ := k'
        show (k1 == k1' && k2 == k2') = false
        by_contra hc
        rw [Bool.not_eq_false, Bool.and_eq_true_iff] at hc
        exact this (by
          have h1 : k1' = k1 := by simpa using (beq_iff_eq.1 hc.1).symm
          have h2 : k2' = k2 := by simpa using (beq_iff_eq.1 hc.2).symm
          rw [h1, h2])
      simp only [hk]
      exact ih (fun q hq => h q (List.mem_cons_of_mem _ hq))

theorem lookup_append {β : Type} (l1 l2 : List ((Nat × String) × β)) (k : Nat × String) :
    (l1 ++ l2).lookup k = ((l1.lookup k).or (l2.lookup k)) := by
  induction l1 with
  | nil => simp [List.lookup]
  | cons q qs ih =>
      obtain ⟨k', b⟩ := q
      rw [List.cons_append, List.lookup_cons, List.lookup_cons]
      by_cases hk : (k == k') = true
      · simp [hk]
      · simp only [hk]
        exact ih

theorem assignSigs_bounds (a : Nat) (n : Nat) (ss : List String) :
    ∀ q ∈ assignSigs a n ss, n ≤ q.2 ∧ q.2 < n + ss.length ∧ q.1.1 = a ∧ q.1.2 ∈ ss := by
  induction ss generalizing n with
  | nil => simp [assignSigs]
  | cons s ss ih =>
      intro q hq
      rw [assignSigs] at hq
      rcases List.mem_cons.1 hq with h | h
      · subst h
        exact ⟨le_refl _, by simp only [List.length_cons]; omega, rfl, List.mem_cons_self _ _⟩
      · obtain ⟨h1, h2, h3, h4⟩ := ih (n + 1) q h
        exact ⟨by omega, by simp only [List.length_cons]; omega, h3, List.mem_cons_of_mem _ h4⟩

theorem assignSigs_lookup (a : Nat) (n : Nat) (ss : List String) (s : String) (hs : s ∈ ss) :
    ∃ v, (assignSigs a n ss).lookup (a, s) = some v ∧ n ≤ v := by
  induction ss generalizing n with
  | nil => simp at hs
  | cons s' ss ih =>
      rw [assignSigs, List.lookup_cons]
      by_cases he : s = s'
      · subst he
        have : (((a, s) : Nat × String) == (a, s)) = true := by
          show (a == a && s == s) = true
          simp
        simp only [this]
        exact ⟨n, rfl, le_refl n⟩
      · rcases List.mem_cons.1 hs with h | h
        · exact absurd h he
        · have hne : (((a, s) : Nat × String) == (a, s')) = false := by
            show (a == a && s == s') = false
            simp [he]
          simp only [hne]
          obtain ⟨v, hv, hnv⟩ := ih (n + 1) h
          exact ⟨v, hv, by omega⟩

theorem buildRemap_keys (fa : List Row) (r : List RelRow) (bad : List Nat) :
    ∀ n, ∀ q ∈ buildRemap fa r n bad,
      q.1.1 ∈ bad ∧ q.1.2 ∈ sigsOf fa r q.1.1 ∧ n ≤ q.2 := by
  induction bad with
  | nil => intro n q hq; simp [buildRemap] at hq
  | cons b bs ih =>
      intro n q hq
      rw [buildRemap] at hq
      rcases List.mem_append.1 hq with h | h
      · obtain ⟨h1, h2, h3, h4⟩ := assignSigs_bounds b n (sigsOf fa r b) q h
        exact ⟨by rw [h3]; exact List.mem_cons_self _ _, by rw [h3]; exact h4, h1⟩
      · obtain ⟨h1, h2, h3⟩ := ih (n + (sigsOf fa r b).length) q h
        exact ⟨List.mem_cons_of_mem _ h1, h2, by omega⟩

theorem buildRemap_lookup_some (fa : List Row) (r : List RelRow) (bad : List Nat)
    (hnodup : bad.Nodup) (a : Nat) (ha : a ∈ bad) (s : String) (hs : s ∈ sigsOf fa r a) :
    ∀ n, ∃ v, (buildRemap fa r n bad).lookup (a, s) = some v ∧ n ≤ v := by
  induction bad with
  | nil => simp at ha
  | cons b bs ih =>
      intro n
      rw [buildRemap, lookup_append]
      rcases List.mem_cons.1 ha with h | h
      · subst h
        obtain ⟨v, hv, hnv⟩ := assignSigs_lookup a n (sigsOf fa r a) s hs
        rw [hv]
        exact ⟨v, rfl, hnv⟩
      · have hne : a ≠ b := by
          rw [List.nodup_cons] at hnodup
          intro he
          exact hnodup.1 (he ▸ h)
        have hnone : (assignSigs b n (sigsOf fa r b)).lookup (a, s) = none := by
          refine lookup_none_of_not_mem_key _ _ ?_
          intro q hq hkey
          obtain ⟨-, -, h3, -⟩ := assignSigs_bounds b n (sigsOf fa r b) q hq
          rw [hkey] at h3
          exact hne h3
        rw [hnone, Option.none_or]
        obtain ⟨v, hv, hnv⟩ := ih (by rw [List.nodup_cons] at hnodup; exact hnodup.2) h
          (n + (sigsOf fa r b).length)
        exact ⟨v, hv, by omega⟩

theorem buildRemap_lookup_none (fa : List Row) (r : List RelRow) (bad : List Nat)
    (n : Nat) (a : Nat) (ha : a ∉ bad) (s : String) :
    (buildRemap fa r n bad).lookup (a, s) = none := by
  refine lookup_none_of_not_mem_key _ _ ?_
  intro q hq hkey
  obtain ⟨h1, -, -⟩ := buildRemap_keys fa r bad n q hq
  rw [hkey] at h1
  exact ha h1

theorem assignSigs_snd_nodup (a : Nat) (ss : List String) :
    ∀ n, ((assignSigs a n ss).map (·.2)).Nodup := by
  induction ss with
  | nil => intro n; simp [assignSigs]
  | cons s ss ih =>
      intro n
      rw [assignSigs, List.map_cons, List.nodup_cons]
      refine ⟨?_, ih (n + 1)⟩
      intro hmem
      rcases List.mem_map.1 hmem with ⟨q, hq, hqv⟩
      obtain ⟨h1, -, -, -⟩ := assignSigs_bounds a (n + 1) ss q hq
      omega

theorem buildRemap_snd_nodup (fa : List Row) (r : List RelRow) (bad : List Nat) :
    ∀ n, ((buildRemap fa r n bad).map (·.2)).Nodup := by
  induction bad with
  | nil => intro n; simp [buildRemap]
  | cons b bs ih =>
      intro n
      rw [buildRemap, List.map_append, List.nodup_append]
      refine ⟨assignSigs_snd_nodup b _ n, ih _, ?_⟩
      intro v hv1 hv2
      rcases List.mem_map.1 hv1 with ⟨q1, hq1, hv⟩
      rcases List.mem_map.1 hv2 with ⟨q2, hq2, hv'⟩
      obtain ⟨-, hlt, -, -⟩ := assignSigs_bounds b n (sigsOf fa r b) q1 hq1
      obtain ⟨-, -, hge⟩ := buildRemap_keys fa r bs (n + (sigsOf fa r b).length) q2 hq2
      omega

theorem buildRemap_inj (fa : List Row) (r : List RelRow) (bad : List Nat) (n : Nat)
    (k1 k2 : Nat × String) (v : Nat)
    (h1 : (buildRemap fa r n bad).lookup k1 = some v)
    (h2 : (buildRemap fa r n bad).lookup k2 = some v) : k1 = k2 := by
  have hm1 := lookup_mem_key _ _ _ h1
  have hm2 := lookup_mem_key _ _ _ h2
  have := List.inj_on_of_nodup_map (buildRemap_snd_nodup fa r bad n) hm1 hm2 rfl
  exact congrArg Prod.fst this

theorem mapM_option_spec {α β : Type} (f : α → Option β) (l : List α)
    (h : ∀ q ∈ l, (f q).isSome = true) :
    ∃ bs : List β, l.mapM f = some bs ∧ bs.length = l.length ∧
      ∀ (j : Nat) (q : α), l[j]? = some q → ∃ b : β, bs[j]? = some b ∧ f q = some b := by
  induction l with
  | nil => exact ⟨[], rfl, rfl, fun j q hq => by simp at hq⟩
  | cons a as ih =>
      obtain ⟨b, hb⟩ := Option.isSome_iff_exists.1 (h a (List.mem_cons_self _ _))
      obtain ⟨bs, hbs, hlen, hspec⟩ := ih (fun q hq => h q (List.mem_cons_of_mem _ hq))
      refine ⟨b :: bs, ?_, by simp [hlen], ?_⟩
      · rw [List.mapM_cons, hb, hbs]
        rfl
      · intro j q hq
        cases j with
        | zero =>
            simp only [List.getElem?_cons_zero] at hq
            cases hq
            exact ⟨b, by simp, hb⟩
        | succ j =>
            simp only [List.getElem?_cons_succ] at hq ⊢
            exact hspec j q hq

theorem badAids_nodup (fa : List Row) (r : List RelRow) : (badAids fa r).Nodup :=
  (nodup_sortNat _ (nodup_pyDedup _)).filter _

theorem mem_badAids_iff (fa : List Row) (r : List RelRow) (a : Nat) :
    a ∈ badAids fa r ↔ a ∈ r.map RelRow.aid ∧ 1 < (sigsOf fa r a).length := by
  unfold badAids
  rw [List.mem_filter, mem_sortNat, mem_pyDedup]
  simp

theorem rowSig_mem_sigsOf (fa : List Row) (r : List RelRow) (rr : RelRow) (h : rr ∈ r) :
    rowSig fa rr ∈ sigsOf fa r rr.aid := by
  unfold sigsOf
  rw [mem_pyDedup]
  exact List.mem_map_of_mem _ (List.mem_filter.2 ⟨h, by simp⟩)

/-- C1 (amended): for every AID carrying more than one distinct signature,
the splitter mints a newly minted AID for every distinct signature — the
first-encountered signature does not keep the original AID — and repoints
each relationship row of the conflicted AID to the fresh AID of its
signature (same signature, same fresh AID; distinct signatures, distinct
fresh AIDs); rows of unconflicted AIDs are untouched, the original address
rows survive in place, and only clones of original records (under fresh
AIDs) are appended. -/
theorem C1_theorem (fa : List Row) (r : List RelRow)
    (hsub : ∀ rr ∈ r, rr.aid ∈ fa.map Row.aid) :
    ∃ (fa2 : List Row) (r2 : List RelRow), split_conflicting_addresses fa r = some (fa2, r2) ∧
      fa2.take fa.length = fa ∧
      r2.length = r.length ∧
      (∀ (j : Nat) (rr : RelRow), r[j]? = some rr → ∃ rr2 : RelRow, r2[j]? = some rr2 ∧
        rr2.eid = rr.eid ∧ rr2.relType = rr.relType ∧ rr2.number = rr.number ∧
        (1 < (sigsOf fa r rr.aid).length → maxAidOf fa < rr2.aid) ∧
        (¬ 1 < (sigsOf fa r rr.aid).length → rr2.aid = rr.aid)) ∧
      (∀ (j k : Nat) (rr rrk rr2 rrk2 : RelRow), r[j]? = some rr → r[k]? = some rrk →
        r2[j]? = some rr2 → r2[k]? = some rrk2 →
        rr.aid = rrk.aid → 1 < (sigsOf fa r rr.aid).length →
        (rr2.aid = rrk2.aid ↔ rowSig fa rr = rowSig fa rrk)) ∧
      (∀ (j : Nat) (cn : Row), fa2[fa.length + j]? = some cn →
        maxAidOf fa < cn.aid ∧ ∃ row ∈ fa, cn.cells = row.cells) := by
  unfold split_conflicting_addresses
  dsimp only
  by_cases hbad : (badAids fa r).isEmpty = true
  · rw [if_pos hbad]
    have hnoconf : ∀ a, a ∈ r.map RelRow.aid → ¬ 1 < (sigsOf fa r a).length := by
      intro a ha hlt
      have : a ∈ badAids fa r := (mem_badAids_iff fa r a).2 ⟨ha, hlt⟩
      rw [List.isEmpty_iff] at hbad
      rw [hbad] at this
      simp at this
    refine ⟨fa, r, rfl, List.take_length fa, rfl, ?_, ?_, ?_⟩
    · intro j rr hj
      have hmem : rr ∈ r := List.getElem?_mem hj
      refine ⟨rr, hj, rfl, rfl, rfl, ?_, fun h => rfl⟩
      intro hconf
      exact absurd hconf (hnoconf rr.aid (List.mem_map_of_mem _ hmem))
    · intro j k rr rrk rr2 rrk2 hj hk hj2 hk2 he hconf
      have hmem : rr ∈ r := List.getElem?_mem hj
      exact absurd hconf (hnoconf rr.aid (List.mem_map_of_mem _ hmem))
    · intro j cn hcn
      rw [List.getElem?_eq_none (by omega)] at hcn
      exact Option.noConfusion hcn
  · rw [if_neg hbad]
    have hfindable : ∀ q ∈ buildRemap fa r (maxAidOf fa + 1) (badAids fa r),
        ((fa.find? (fun row => row.aid == q.1.1)).map (fun row => { row with aid := q.2 })).isSome = true := by
      intro q hq
      obtain ⟨h1, -, -⟩ := buildRemap_keys fa r (badAids fa r) _ q hq
      obtain ⟨ha, -⟩ := (mem_badAids_iff fa r q.1.1).1 h1
      rcases List.mem_map.1 ha with ⟨rr, hrr, hrra⟩
      obtain ⟨row, hrow, -, -⟩ := find?_of_mem_aid fa q.1.1 (hrra ▸ hsub rr hrr)
      rw [hrow]
      rfl
    obtain ⟨clones, hclones, hcloneslen, hclonesspec⟩ :=
      mapM_option_spec _ _ hfindable
    rw [hclones]
    refine ⟨fa ++ clones, _, rfl, List.take_left fa clones, List.length_map _ _, ?_, ?_, ?_⟩
    · intro j rr hj
      have hmem : rr ∈ r := List.getElem?_mem hj
      rw [List.getElem?_map, hj, Option.map_some']
      by_cases hconf : 1 < (sigsOf fa r rr.aid).length
      · have hinbad : rr.aid ∈ badAids fa r :=
          (mem_badAids_iff fa r rr.aid).2 ⟨List.mem_map_of_mem _ hmem, hconf⟩
        obtain ⟨v, hv, hnv⟩ := buildRemap_lookup_some fa r (badAids fa r)
          (badAids_nodup fa r) rr.aid hinbad (rowSig fa rr) (rowSig_mem_sigsOf fa r rr hmem)
          (maxAidOf fa + 1)
        refine ⟨{ rr with aid := v }, by rw [hv], rfl, rfl, rfl, fun _ => ?_, fun h => absurd hconf h⟩
        show maxAidOf fa < v
        omega
      · have hnotbad : rr.aid ∉ badAids fa r := by
          intro hin
          exact hconf ((mem_badAids_iff fa r rr.aid).1 hin).2
        rw [buildRemap_lookup_none fa r (badAids fa r) _ rr.aid hnotbad (rowSig fa rr)]
        exact ⟨rr, rfl, rfl, rfl, rfl, fun h => absurd h hconf, fun _ => rfl⟩
    · intro j k rr rrk rr2 rrk2 hj hk hj2 hk2 he hconf
      have hmem : rr ∈ r := List.getElem?_mem hj
      have hmemk : rrk ∈ r := List.getElem?_mem hk
      have hinbad : rr.aid ∈ badAids fa r :=
        (mem_badAids_iff fa r rr.aid).2 ⟨List.mem_map_of_mem _ hmem, hconf⟩
      obtain ⟨v, hv, hnv⟩ := buildRemap_lookup_some fa r (badAids fa r)
        (badAids_nodup fa r) rr.aid hinbad (rowSig fa rr) (rowSig_mem_sigsOf fa r rr hmem)
        (maxAidOf fa + 1)
      obtain ⟨vk, hvk, hnvk⟩ := buildRemap_lookup_some fa r (badAids fa r)
        (badAids_nodup fa r) rrk.aid (he ▸ hinbad) (rowSig fa rrk)
        (rowSig_mem_sigsOf fa r rrk hmemk) (maxAidOf fa + 1)
      rw [List.getElem?_map, hj, Option.map_some', hv] at hj2
      rw [List.getElem?_map, hk, Option.map_some', hvk] at hk2
      have hrr2 : rr2 = { rr with aid := v } := (Option.some.inj hj2).symm
      have hrrk2 : rrk2 = { rrk with aid := vk } := (Option.some.inj hk2).symm
      rw [hrr2, hrrk2]
      constructor
      · intro hvv
        have : ((rr.aid, rowSig fa rr) : Nat × String) = (rrk.aid, rowSig fa rrk) := by
          refine buildRemap_inj fa r (badAids fa r) (maxAidOf fa + 1) _ _ v hv ?_
          have hveq : v = vk := hvv
          rw [hveq]
          exact hvk
        exact congrArg Prod.snd this
      · intro hsig
        show v = vk
        rw [← he, ← hsig] at hvk
        rw [hv] at hvk
        exact Option.some.inj hvk
    · intro j cn hcn
      rw [List.getElem?_append_right (Nat.le_add_right _ _)] at hcn
      have harith : fa.length + j - fa.length = j := by omega
      rw [harith] at hcn
      have hjlt : j < (buildRemap fa r (maxAidOf fa + 1) (badAids fa r)).length := by
        by_contra hge
        rw [List.getElem?_eq_none (by omega)] at hcn
        exact Option.noConfusion hcn
      obtain ⟨b, hb, hfb⟩ := hclonesspec j _ (List.getElem?_eq_getElem hjlt)
      rw [hcn] at hb
      have hbcn : b = cn := Option.some.inj hb.symm
      subst hbcn
      rcases Option.map_eq_some'.1 hfb with ⟨row, hrow, hrowb⟩
      have hrowmem : row ∈ fa := List.mem_of_find?_eq_some hrow
      obtain ⟨-, -, hge⟩ := buildRemap_keys fa r (badAids fa r) (maxAidOf fa + 1) _
        (List.getElem_mem hjlt)
      constructor
      · rw [← hrowb]
        simpa using hge
      · exact ⟨row, hrowmem, by rw [← hrowb]⟩

/-- Concrete address table for the splitter example: one record, AID 100. -/
def faEx : List Row :=
  [⟨100, [("num1_c", some "12"), ("streetName_c", some "Main St"),
    ("streetSuffix_c", none), ("unit_c", none), ("zip_c", some "_12345"),
    ("city_c", none), ("state_c", none)]⟩]

/-- Concrete relationship table: AID 100 linked to E1 and E2. -/
def rEx : List RelRow := [⟨"E1", 100, none, none⟩, ⟨"E2", 100, none, none⟩]

/-- Witness for C1 (amended) on the two-entity example. -/
theorem C1_witness :
    ∃ (fa2 : List Row) (r2 : List RelRow), split_conflicting_addresses faEx rEx = some (fa2, r2) ∧
      fa2.take faEx.length = faEx ∧
      r2.length = rEx.length ∧
      (∀ (j : Nat) (rr : RelRow), rEx[j]? = some rr → ∃ rr2 : RelRow, r2[j]? = some rr2 ∧
        rr2.eid = rr.eid ∧ rr2.relType = rr.relType ∧ rr2.number = rr.number ∧
        (1 < (sigsOf faEx rEx rr.aid).length → maxAidOf faEx < rr2.aid) ∧
        (¬ 1 < (sigsOf faEx rEx rr.aid).length → rr2.aid = rr.aid)) ∧
      (∀ (j k : Nat) (rr rrk rr2 rrk2 : RelRow), rEx[j]? = some rr → rEx[k]? = some rrk →
        r2[j]? = some rr2 → r2[k]? = some rrk2 →
        rr.aid = rrk.aid → 1 < (sigsOf faEx rEx rr.aid).length →
        (rr2.aid = rrk2.aid ↔ rowSig faEx rr = rowSig faEx rrk)) ∧
      (∀ (j : Nat) (cn : Row), fa2[faEx.length + j]? = some cn →
        maxAidOf faEx < cn.aid ∧ ∃ row ∈ faEx, cn.cells = row.cells) :=
  C1_theorem faEx rEx (by decide)

/-! ### Claim C8 -/

theorem pyDedup_length_le_one {α : Type} [DecidableEq α] (l : List α)
    (h : ∀ x ∈ l, ∀ y ∈ l, x = y) : (pyDedup l).length ≤ 1 := by
  cases hd : pyDedup l with
  | nil => simp
  | cons x xs =>
      cases hx : xs with
      | nil => simp
      | cons y ys =>
          exfalso
          have hnd := nodup_pyDedup l
          rw [hd, hx] at hnd
          have hxm : x ∈ l := (mem_pyDedup l x).1 (by rw [hd]; exact List.mem_cons_self _ _)
          have hym : y ∈ l := (mem_pyDedup l y).1 (by
            rw [hd, hx]
            exact List.mem_cons_of_mem _ (List.mem_cons_self _ _))
          have hxy : x = y := h x hxm y hym
          rw [List.nodup_cons] at hnd
          exact hnd.1 (by rw [hxy]; exact List.mem_cons_self _ _)

theorem length_le_one_all_eq {α : Type} (l : List α) (h : l.length ≤ 1)
    {x y : α} (hx : x ∈ l) (hy : y ∈ l) : x = y := by
  cases l with
  | nil => simp at hx
  | cons a as =>
      cases as with
      | nil =>
          rw [List.mem_singleton] at hx hy
          rw [hx, hy]
      | cons b bs => simp at h

theorem find?_append_some {α : Type} (p : α → Bool) (l1 l2 : List α) (x : α)
    (h : l1.find? p = some x) : (l1 ++ l2).find? p = some x := by
  induction l1 with
  | nil => simp [List.find?] at h
  | cons a as ih =>
      rw [List.find?_cons] at h
      rw [List.cons_append, List.find?_cons]
      by_cases hp : p a
      · simp only [hp, if_pos] at h ⊢
        exact h
      · simp only [hp] at h ⊢
        exact ih h

theorem find?_append_none {α : Type} (p : α → Bool) (l1 l2 : List α)
    (h : l1.find? p = none) : (l1 ++ l2).find? p = l2.find? p := by
  induction l1 with
  | nil => rfl
  | cons a as ih =>
      rw [List.find?_cons] at h
      by_cases hp : p a
      · simp [hp] at h
      · rw [List.cons_append, List.find?_cons]
        simp only [hp] at h ⊢
        exact ih h

theorem find?_aid_of_mem_nodup (l : List Row) (v : Nat) (cn : Row)
    (hnd : (l.map Row.aid).Nodup) (hmem : cn ∈ l) (haid : cn.aid = v) :
    l.find? (fun row => row.aid == v) = some cn := by
  induction l with
  | nil => simp at hmem
  | cons a as ih =>
      rw [List.find?_cons]
      rw [List.map_cons, List.nodup_cons] at hnd
      by_cases hp : a.aid = v
      · simp only [hp, beq_self_eq_true, if_pos]
        rcases List.mem_cons.1 hmem with h | h
        · rw [h]
        · exfalso
          exact hnd.1 (by rw [hp, ← haid]; exact List.mem_map_of_mem _ h)
      · have : (a.aid == v) = false := by simp [hp]
        simp only [this]
        rcases List.mem_cons.1 hmem with h | h
        · exact absurd (h ▸ haid) hp
        · exact ih hnd.2 h

theorem getCell_congr_cells (a b : Row) (c : String) (h : a.cells = b.cells) :
    getCell a c = getCell b c := by
  unfold getCell
  rw [h]

/-- C8: the signature splitter is idempotent — rerunning it on its own
output performs zero further splits and returns both tables unchanged. -/
theorem C8_theorem (fa : List Row) (r : List RelRow)
    (hsub : ∀ rr ∈ r, rr.aid ∈ fa.map Row.aid)
    (fa2 : List Row) (r2 : List RelRow)
    (h : split_conflicting_addresses fa r = some (fa2, r2)) :
    split_conflicting_addresses fa2 r2 = some (fa2, r2) := by
  unfold split_conflicting_addresses at h
  dsimp only at h
  by_cases hbad : (badAids fa r).isEmpty = true
  · rw [if_pos hbad] at h
    have h' : (fa, r) = (fa2, r2) := Option.some.inj h
    have hfa2 : fa2 = fa := (congrArg Prod.fst h').symm
    have hr2 : r2 = r := (congrArg Prod.snd h').symm
    rw [hfa2, hr2]
    unfold split_conflicting_addresses
    rw [if_pos hbad]
  · rw [if_neg hbad] at h
    have hfindable : ∀ q ∈ buildRemap fa r (maxAidOf fa + 1) (badAids fa r),
        ((fa.find? (fun row => row.aid == q.1.1)).map (fun row => { row with aid := q.2 })).isSome = true := by
      intro q hq
      obtain ⟨h1, -, -⟩ := buildRemap_keys fa r (badAids fa r) _ q hq
      obtain ⟨ha, -⟩ := (mem_badAids_iff fa r q.1.1).1 h1
      rcases List.mem_map.1 ha with ⟨rr, hrr, hrra⟩
      obtain ⟨row, hrow, -, -⟩ := find?_of_mem_aid fa q.1.1 (hrra ▸ hsub rr hrr)
      rw [hrow]
      rfl
    obtain ⟨clones, hclones, hcloneslen, hclonesspec⟩ := mapM_option_spec _ _ hfindable
    rw [hclones] at h
    have h' : (fa ++ clones,
        r.map (fun rr =>
          match (buildRemap fa r (maxAidOf fa + 1) (badAids fa r)).lookup (rr.aid, rowSig fa rr) with
          | some n => { rr with aid := n }
          | none => rr)) = (fa2, r2) := Option.some.inj h
    have hfa2 : fa2 = fa ++ clones := (congrArg Prod.fst h').symm
    have hr2 : r2 = r.map (fun rr =>
        match (buildRemap fa r (maxAidOf fa + 1) (badAids fa r)).lookup (rr.aid, rowSig fa rr) with
        | some n => { rr with aid := n }
        | none => rr) := (congrArg Prod.snd h').symm
    -- clone AIDs are the remap values, hence fresh and without duplicates
    have hcl_aid : clones.map Row.aid =
        (buildRemap fa r (maxAidOf fa + 1) (badAids fa r)).map Prod.snd := by
      refine List.ext_getElem? ?_
      intro i
      rw [List.getElem?_map, List.getElem?_map]
      cases hRi : (buildRemap fa r (maxAidOf fa + 1) (badAids fa r))[i]? with
      | none =>
          have hilen : (buildRemap fa r (maxAidOf fa + 1) (badAids fa r)).length ≤ i := by
            by_contra hlt
            rw [List.getElem?_eq_getElem (by omega)] at hRi
            exact Option.noConfusion hRi
          rw [List.getElem?_eq_none (by omega)]
          rfl
      | some q =>
          obtain ⟨b, hb, hfb⟩ := hclonesspec i q hRi
          rw [hb]
          rcases Option.map_eq_some'.1 hfb with ⟨row, -, hrowb⟩
          rw [← hrowb]
          rfl
    have hcl_nodup : (clones.map Row.aid).Nodup := by
      rw [hcl_aid]
      exact buildRemap_snd_nodup fa r (badAids fa r) _
    have hcl_fresh : ∀ cn ∈ clones, maxAidOf fa < cn.aid := by
      intro cn hcn
      have : cn.aid ∈ clones.map Row.aid := List.mem_map_of_mem _ hcn
      rw [hcl_aid] at this
      rcases List.mem_map.1 this with ⟨q, hq, hqaid⟩
      obtain ⟨-, -, hge⟩ := buildRemap_keys fa r (badAids fa r) _ q hq
      omega
    -- the rerun signature of every relationship row equals its original signature
    have hF2 : ∀ rr ∈ r, rowSig (fa ++ clones)
        (match (buildRemap fa r (maxAidOf fa + 1) (badAids fa r)).lookup (rr.aid, rowSig fa rr) with
         | some n => { rr with aid := n }
         | none => rr) = rowSig fa rr := by
      intro rr hrr
      obtain ⟨row, hrow, hrowaid, hrowmem⟩ := find?_of_mem_aid fa rr.aid (hsub rr hrr)
      by_cases hconf : rr.aid ∈ badAids fa r
      · obtain ⟨v, hv, hnv⟩ := buildRemap_lookup_some fa r (badAids fa r)
          (badAids_nodup fa r) rr.aid hconf (rowSig fa rr) (rowSig_mem_sigsOf fa r rr hrr)
          (maxAidOf fa + 1)
        rw [hv]
        obtain ⟨i, hRi⟩ := List.mem_iff_getElem?.1 (lookup_mem_key _ _ _ hv)
        obtain ⟨b, hbi, hfb⟩ := hclonesspec i _ hRi
        rw [hrow] at hfb
        have hbval : b = { row with aid := v } := by
          rcases Option.map_eq_some'.1 hfb with ⟨row', hrow', hrowb⟩
          cases hrow'
          rw [← hrowb]
        have hbmem : b ∈ clones := List.getElem?_mem hbi
        have hfun : (fa ++ clones).find? (fun row2 => row2.aid == v) = some b := by
          rw [find?_append_none _ _ _ (find?_aid_none fa v ?_)]
          · exact find?_aid_of_mem_nodup clones v b hcl_nodup hbmem (by rw [hbval])
          · intro hvin
            rcases List.mem_map.1 hvin with ⟨row', hrow', hrowv⟩
            have := maxAidOf_ge fa row' hrow'
            omega
        unfold rowSig
        rw [hfun, hrow]
        refine congrArg (String.intercalate "|") (congrArg₂ List.cons rfl ?_)
        refine List.map_congr_left ?_
        intro c hc
        show pyStr (getCell b c) = pyStr (getCell row c)
        rw [getCell_congr_cells b row c (by rw [hbval])]
      · rw [buildRemap_lookup_none fa r (badAids fa r) _ rr.aid hconf (rowSig fa rr)]
        unfold rowSig
        rw [find?_append_some _ _ _ _ hrow, hrow]
    -- after one run no AID carries two distinct signatures
    have hkey : ∀ a ∈ r2.map RelRow.aid, (sigsOf fa2 r2 a).length ≤ 1 := by
      intro a ha
      unfold sigsOf
      apply pyDedup_length_le_one
      intro x hx y hy
      rcases List.mem_map.1 hx with ⟨rr2, hrr2f, hxval⟩
      rcases List.mem_map.1 hy with ⟨rr2', hrr2f', hyval⟩
      have hrr2m : rr2 ∈ r2 := (List.mem_filter.1 hrr2f).1
      have hrr2a : rr2.aid = a := by
        have := (List.mem_filter.1 hrr2f).2
        simpa using this
      have hrr2m' : rr2' ∈ r2 := (List.mem_filter.1 hrr2f').1
      have hrr2a' : rr2'.aid = a := by
        have := (List.mem_filter.1 hrr2f').2
        simpa using this
      rw [hr2] at hrr2m hrr2m'
      rcases List.mem_map.1 hrr2m with ⟨rr, hrr, hfrr⟩
      rcases List.mem_map.1 hrr2m' with ⟨rr', hrr', hfrr'⟩
      subst hxval hyval
      by_cases hle : a ≤ maxAidOf fa
      · -- both source rows were untouched
        have hnb : rr.aid ∉ badAids fa r := by
          intro hin
          obtain ⟨v, hv, hnv⟩ := buildRemap_lookup_some fa r (badAids fa r)
            (badAids_nodup fa r) rr.aid hin (rowSig fa rr) (rowSig_mem_sigsOf fa r rr hrr)
            (maxAidOf fa + 1)
          rw [hv] at hfrr
          have : rr2.aid = v := by rw [← hfrr]
          omega
        have hnb' : rr'.aid ∉ badAids fa r := by
          intro hin
          obtain ⟨v, hv, hnv⟩ := buildRemap_lookup_some fa r (badAids fa r)
            (badAids_nodup fa r) rr'.aid hin (rowSig fa rr') (rowSig_mem_sigsOf fa r rr' hrr')
            (maxAidOf fa + 1)
          rw [hv] at hfrr'
          have : rr2'.aid = v := by rw [← hfrr']
          omega
        have hid : rr2 = rr := by
          rw [← hfrr, buildRemap_lookup_none fa r (badAids fa r) _ rr.aid hnb]
        have hid' : rr2' = rr' := by
          rw [← hfrr', buildRemap_lookup_none fa r (badAids fa r) _ rr'.aid hnb']
        have hra : rr.aid = a := by
          rw [← hid]
          exact hrr2a
        have hra' : rr'.aid = a := by
          rw [← hid']
          exact hrr2a'
        have hsig1 : (sigsOf fa r a).length ≤ 1 := by
          by_contra hgt
          have hmemb : a ∈ badAids fa r := (mem_badAids_iff fa r a).2
            ⟨by rw [← hra]; exact List.mem_map_of_mem _ hrr, by omega⟩
          rw [← hra] at hmemb
          exact hnb hmemb
        have hx2 : rowSig fa rr ∈ sigsOf fa r a := by
          unfold sigsOf
          rw [mem_pyDedup]
          refine List.mem_map_of_mem _ (List.mem_filter.2 ⟨hrr, ?_⟩)
          simp [hra]
        have hy2 : rowSig fa rr' ∈ sigsOf fa r a := by
          unfold sigsOf
          rw [mem_pyDedup]
          refine List.mem_map_of_mem _ (List.mem_filter.2 ⟨hrr', ?_⟩)
          simp [hra']
        have hF2r := hF2 rr hrr
        have hF2r' := hF2 rr' hrr'
        rw [hfrr] at hF2r
        rw [hfrr'] at hF2r'
        rw [hfa2, hF2r, hF2r']
        exact length_le_one_all_eq _ hsig1 hx2 hy2
      · -- both source rows were repointed to the same fresh AID
        have hgetv : ∀ (s : RelRow), s ∈ r → (match (buildRemap fa r (maxAidOf fa + 1)
            (badAids fa r)).lookup (s.aid, rowSig fa s) with
            | some n => ({ s with aid := n } : RelRow)
            | none => s).aid = a → s.aid ∈ badAids fa r ∧
            (buildRemap fa r (maxAidOf fa + 1) (badAids fa r)).lookup (s.aid, rowSig fa s) = some a := by
          intro s hs hsa
          by_cases hin : s.aid ∈ badAids fa r
          · obtain ⟨v, hv, hnv⟩ := buildRemap_lookup_some fa r (badAids fa r)
              (badAids_nodup fa r) s.aid hin (rowSig fa s) (rowSig_mem_sigsOf fa r s hs)
              (maxAidOf fa + 1)
            rw [hv] at hsa ⊢
            have : v = a := hsa
            rw [this] at hv ⊢
            exact ⟨hin, rfl⟩
          · rw [buildRemap_lookup_none fa r (badAids fa r) _ s.aid hin] at hsa
            exfalso
            have hsa2 : s.aid = a := hsa
            have : s.aid ≤ maxAidOf fa := by
              rcases List.mem_map.1 (hsub s hs) with ⟨row', hrow', hrowa⟩
              rw [← hrowa]
              exact maxAidOf_ge fa row' hrow'
            omega
        obtain ⟨hin, hveq⟩ := hgetv rr hrr (by rw [hfrr]; exact hrr2a)
        obtain ⟨hin', hveq'⟩ := hgetv rr' hrr' (by rw [hfrr']; exact hrr2a')
        have hkeys : ((rr.aid, rowSig fa rr) : Nat × String) = (rr'.aid, rowSig fa rr') :=
          buildRemap_inj fa r (badAids fa r) _ _ _ a hveq hveq'
        have hsigeq : rowSig fa rr = rowSig fa rr' := congrArg Prod.snd hkeys
        have hF2r := hF2 rr hrr
        have hF2r' := hF2 rr' hrr'
        rw [hfrr] at hF2r
        rw [hfrr'] at hF2r'
        rw [hfa2, hF2r, hF2r']
        exact hsigeq
    -- hence the rerun finds no conflicted AIDs
    have hempty : badAids fa2 r2 = [] := by
      unfold badAids
      rw [List.filter_eq_nil_iff]
      intro a hmem
      rw [mem_sortNat, mem_pyDedup] at hmem
      have := hkey a hmem
      simp only [decide_eq_true_eq]
      omega
    unfold split_conflicting_addresses
    rw [if_pos (by rw [hempty]; rfl)]

/-- Output tables of the first splitter run on the two-entity example. -/
def faEx2 : List Row :=
  faEx ++
  [⟨101, [("num1_c", some "12"), ("streetName_c", some "Main St"),
    ("streetSuffix_c", none), ("unit_c", none), ("zip_c", some "_12345"),
    ("city_c", none), ("state_c", none)]⟩,
   ⟨102, [("num1_c", some "12"), ("streetName_c", some "Main St"),
    ("streetSuffix_c", none), ("unit_c", none), ("zip_c", some "_12345"),
    ("city_c", none), ("state_c", none)]⟩]

/-- Relationship table after the first splitter run. -/
def rEx2 : List RelRow := [⟨"E1", 101, none, none⟩, ⟨"E2", 102, none, none⟩]

/-- Witness for C8: rerunning the splitter on the output of the first run
changes nothing. -/
theorem C8_witness : split_conflicting_addresses faEx2 rEx2 = some (faEx2, rEx2) :=
  C8_theorem faEx rEx (by decide) faEx2 rEx2 (by decide)

/-! ### Claim C5: rule pipeline validation (`main` plus the per-rule
`need`/`missing` checks of the rule modules) -/

/-- Required columns of Rule 1 (`propose_fill_missing_zips_keep`). -/
def need1 : List String := ["AID", "EID_1", "num1_c", "streetName_c", "zip_c"]

/-- Required columns of Rule 2 (`propose_street_name_corrections`). -/
def need2 : List String := ["AID", "EID_1", "num1_c", "streetName_c"]

/-- Required columns of Rule 3a (`propose_replace_invalid_zips`). -/
def need3a : List String := ["AID", "EID_1", "num1_c", "streetName_c", "zip_c"]

/-- Required columns of Rule 3b (`propose_fill_missing_zips_by_address`). -/
def need3b : List String := ["AID", "state_c", "city_c", "streetName_c", "num1_c", "zip_c"]

/-- Required columns of Rule 4 (`propose_correct_city_names_by_zip`). -/
def need4 : List String := ["AID", "zip_c", "city_c"]

/-- The rules in the execution order of `main`. -/
def ruleOrder : List (String × List String) :=
  [("Rule 1", need1), ("Rule 2", need2), ("Rule 3a", need3a), ("Rule 3b", need3b), ("Rule 4", need4)]

/-- The per-rule check `[c for c in need if c not in df.columns]`. -/
def missingCols (cols need : List String) : List String :=
  need.filter (fun c => !(cols.contains c))

/-- The rule stage of `main`: run the rules in order; each rule validates
its own required columns at its start and raises on failure, which aborts
the run.  The error carries the failing rule, its missing columns and the
names of the rules that had already executed; on success the executed rule
names are returned.  Each rule itself only produces proposals — no table is
written before `resolve_and_apply_changes`, which runs after all rules. -/
def runRulesFrom (cols : List String) (done : List String) :
    List (String × List String) → Except (String × List String × List String) (List String)
  | [] => Except.ok done
  | (name, need) :: rest =>
      if (missingCols cols need).isEmpty then runRulesFrom cols (done ++ [name]) rest
      else Except.error (name, missingCols cols need, done)

/-- The whole rule stage of `main` over a merged view with the given
columns. -/
def mainRuleStage (cols : List String) : Except (String × List String × List String) (List String) :=
  runRulesFrom cols [] ruleOrder

/-- C5 as stated is false on the code: with a merged view carrying only the
columns required by Rules 1, 2 and 3a, the run aborts at Rule 3b — but
Rules 1, 2 and 3a have already executed before the validation failure, so
the failure does not occur before any rule executes. -/
theorem C5_counterexample :
    mainRuleStage ["AID", "EID_1", "num1_c", "streetName_c", "zip_c"] =
      Except.error ("Rule 3b", ["state_c", "city_c"], ["Rule 1", "Rule 2", "Rule 3a"]) ∧
    (["Rule 1", "Rule 2", "Rule 3a"] : List String) ≠ [] := by
  constructor
  · rfl
  · decide

theorem runRulesFrom_error (cols : List String) :
    ∀ (rules : List (String × List String)) (done : List String)
      (name : String) (missing doneOut : List String),
      runRulesFrom cols done rules = Except.error (name, missing, doneOut) →
      ∃ pre post need, rules = pre ++ (name, need) :: post ∧
        doneOut = done ++ pre.map Prod.fst ∧
        missing = missingCols cols need ∧ missing ≠ [] ∧
        ∀ q ∈ pre, missingCols cols q.2 = [] := by
  intro rules
  induction rules with
  | nil => intro done name missing doneOut h; exact absurd h (by simp [runRulesFrom])
  | cons x rest ih =>
      intro done name missing doneOut h
      obtain ⟨n, nd⟩ := x
      rw [runRulesFrom] at h
      by_cases hm : (missingCols cols nd).isEmpty = true
      · rw [if_pos hm] at h
        obtain ⟨pre, post, need, h1, h2, h3, h4, h5⟩ := ih (done ++ [n]) name missing doneOut h
        refine ⟨(n, nd) :: pre, post, need, by rw [h1]; rfl, ?_, h3, h4, ?_⟩
        · rw [h2]
          simp
        · intro q hq
          rcases List.mem_cons.1 hq with hq | hq
          · rw [hq]
            exact List.isEmpty_iff.1 hm
          · exact h5 q hq
      · rw [if_neg hm] at h
        have h' : (n, missingCols cols nd, done) = (name, missing, doneOut) :=
          Except.error.inj h
        have hn : name = n := (congrArg Prod.fst h').symm
        have hmv : missing = missingCols cols nd := (congrArg (fun p => p.2.1) h').symm
        have hd : doneOut = done := (congrArg (fun p => p.2.2) h').symm
        refine ⟨[], rest, nd, by rw [hn]; rfl, by rw [hd]; simp, hmv, ?_, by simp⟩
        rw [hmv]
        intro he
        rw [he] at hm
        exact hm rfl

/-- C5 (amended): a missing required column aborts the run with a single
error naming the first failing rule (in execution order) and exactly its
missing columns; the rules before it have already executed — validation
happens at each rule's own start, not before any rule executes — but rules
only emit proposals, and the tables are only written after all rules
succeed, so no table is mutated before the abort and no rule is partially
applied. -/
theorem C5_theorem (cols : List String) (name : String) (missing doneOut : List String)
    (h : mainRuleStage cols = Except.error (name, missing, doneOut)) :
    ∃ pre post need, ruleOrder = pre ++ (name, need) :: post ∧
      doneOut = pre.map Prod.fst ∧
      missing = missingCols cols need ∧ missing ≠ [] ∧
      ∀ q ∈ pre, missingCols cols q.2 = [] := by
  obtain ⟨pre, post, need, h1, h2, h3, h4, h5⟩ :=
    runRulesFrom_error cols ruleOrder [] name missing doneOut h
  exact ⟨pre, post, need, h1, by rw [h2]; simp, h3, h4, h5⟩

/-- Witness for C5 (amended) on the counterexample columns. -/
theorem C5_witness :
    ∃ pre post need, ruleOrder = pre ++ ("Rule 3b", need) :: post ∧
      (["Rule 1", "Rule 2", "Rule 3a"] : List String) = pre.map Prod.fst ∧
      (["state_c", "city_c"] : List String) =
        missingCols ["AID", "EID_1", "num1_c", "streetName_c", "zip_c"] need ∧
      (["state_c", "city_c"] : List String) ≠ [] ∧
      ∀ q ∈ pre, missingCols ["AID", "EID_1", "num1_c", "streetName_c", "zip_c"] q.2 = [] :=
  C5_theorem ["AID", "EID_1", "num1_c", "streetName_c", "zip_c"] "Rule 3b"
    ["state_c", "city_c"] ["Rule 1", "Rule 2", "Rule 3a"] (by rfl)

/-! ### Claim C9: Rule 1 — fill blank ZIPs from the unique valid ZIP of a
group (`propose_fill_missing_zips_keep`) -/

/-- `fillna("")`. -/
def fillBlank (c : Cell) : String := c.getD ""

/-- Python `str.strip()` (ASCII whitespace, matching the data). -/
def pyStrip (s : String) : String :=
  String.mk (((s.data.dropWhile Char.isWhitespace).reverse.dropWhile Char.isWhitespace).reverse)

/-- Python `str.lower()` (ASCII, matching the data). -/
def pyLower (s : String) : String := String.mk (s.data.map Char.toLower)

/-- One row of the merged view restricted to Rule 1's columns
`["AID", "EID_1", "num1_c", "streetName_c", "zip_c"]`. -/
structure ZipRow where
  aid : Nat
  eid : Cell
  num1 : Cell
  streetName : Cell
  zip : Cell
deriving DecidableEq, Repr

/-- `street_norm = streetName_c.fillna("").str.strip().str.lower()`. -/
def streetNorm (r : ZipRow) : String := pyLower (pyStrip (fillBlank r.streetName))

/-- `z = zip_c.fillna("").astype(str).str.strip()`. -/
def zTrim (r : ZipRow) : String := pyStrip (fillBlank r.zip)

/-- `re.match(r"^_\d{5}$", s)`: one underscore then exactly five digits. -/
def zipMatchRe (s : String) : Bool :=
  match s.data with
  | c :: rest => c == '_' && rest.length == 5 && rest.all Char.isDigit
  | [] => false

/-- `_valid = z.str.match(r"^_\d{5}$")`. -/
def zipValid (r : ZipRow) : Bool := zipMatchRe (zTrim r)

/-- `_blank = z.eq("")`. -/
def zipBlank (r : ZipRow) : Bool := zTrim r == ""

/-- The grouping key `["EID_1", "num1_c", "street_norm"]`; pandas groupby
and merge drop rows whose `EID_1` or `num1_c` is NaN, hence `none` there. -/
def keyOf (r : ZipRow) : Option (String × String × String) :=
  match r.eid, r.num1 with
  | some e, some n => some (e, n, streetNorm r)
  | _, _ => none

/-- The `canon` frame at key `k`: the distinct raw `zip_c` values of the
valid rows of the group (`drop_duplicates` then `agg(list)`), kept only
when the list is a singleton. -/
def canonZip (view : List ZipRow) (k : String × String × String) : Option String :=
  match pyDedup ((view.filter (fun r => zipValid r && (keyOf r == some k))).map (fun r => r.zip)) with
  | [some z] => some z
  | _ => none

/-- Rule 1: for each row of the view in order, if its group carries a
canonical ZIP and its own ZIP is blank after trimming, emit a proposal
filling it (`targets = df.loc[_blank & canon_zip.notna()]`). -/
def propose_fill_missing_zips_keep (view : List ZipRow) : List ProposedChange :=
  view.filterMap (fun r =>
    (keyOf r).bind (fun k =>
      if zipBlank r then
        (canonZip view k).map (fun z =>
          ⟨r.aid, some k.1, "zip_c", r.zip, z, "Rule 1: Fill Missing ZIPs (Keep)"⟩)
      else none))

def zr1 : ZipRow := ⟨1, some "E", some "7", some "Main", some "_12345"⟩

def zr2 : ZipRow := ⟨2, some "E", some "7", some "Main", some " "⟩

/-- C9 as stated is false on the code: with the claimed trichotomy, a ZIP
cell holding the non-empty string " " is invalid, not blank, so the rule
must not touch it; but the code judges blankness on the whitespace-trimmed
value and fills that row. -/
theorem C9_counterexample :
    propose_fill_missing_zips_keep [zr1, zr2] =
      [⟨2, some "E", "zip_c", some " ", "_12345", "Rule 1: Fill Missing ZIPs (Keep)"⟩] ∧
    zr2.zip ≠ some "" ∧ zr2.zip ≠ none := by
  refine ⟨by decide, by decide, by decide⟩

theorem pyDedup_eq_singleton_iff {α : Type} [DecidableEq α] (l : List α) (x : α) :
    pyDedup l = [x] ↔ x ∈ l ∧ ∀ y ∈ l, y = x := by
  constructor
  · intro h
    have hx : x ∈ l := (mem_pyDedup l x).1 (by rw [h]; exact List.mem_singleton_self x)
    refine ⟨hx, fun y hy => ?_⟩
    have : y ∈ pyDedup l := (mem_pyDedup l y).2 hy
    rw [h] at this
    exact List.mem_singleton.1 this
  · rintro ⟨hx, hall⟩
    have hnd := nodup_pyDedup l
    have hxm : x ∈ pyDedup l := (mem_pyDedup l x).2 hx
    have hmem : ∀ y ∈ pyDedup l, y = x := fun y hy => hall y ((mem_pyDedup l y).1 hy)
    cases hd : pyDedup l with
    | nil => rw [hd] at hxm; exact absurd hxm (List.not_mem_nil x)
    | cons a as =>
        rw [hd] at hmem hnd
        have ha : a = x := hmem a (List.mem_cons_self a as)
        have has : as = [] := by
          cases has2 : as with
          | nil => rfl
          | cons b bs =>
              have hb : b = x := hmem b (by rw [has2]; exact List.mem_cons_of_mem _ (List.mem_cons_self b bs))
              have : a ∉ as := (List.nodup_cons.1 hnd).1
              rw [has2, ha, ← hb] at this
              exact absurd (List.mem_cons_self b bs) this
        rw [ha, has]

theorem canonZip_eq_some (view : List ZipRow) (k : String × String × String) (z : String) :
    canonZip view k = some z ↔
      ((∃ r ∈ view, keyOf r = some k ∧ zipValid r = true ∧ r.zip = some z) ∧
       (∀ r ∈ view, keyOf r = some k → zipValid r = true → r.zip = some z)) := by
  have key : canonZip view k = some z ↔
      pyDedup ((view.filter (fun r => zipValid r && (keyOf r == some k))).map (fun r => r.zip)) =
        [(some z : Cell)] := by
    unfold canonZip
    rcases hd : pyDedup ((view.filter (fun r => zipValid r && (keyOf r == some k))).map
        (fun r => r.zip)) with _ | ⟨_ | z0, _ | ⟨b, t⟩⟩ <;> rw [hd] <;> simp
  rw [key, pyDedup_eq_singleton_iff]
  have hL : ∀ y : Cell,
      (y ∈ (view.filter (fun r => zipValid r && (keyOf r == some k))).map (fun r => r.zip)) ↔
        ∃ r ∈ view, keyOf r = some k ∧ zipValid r = true ∧ r.zip = y := by
    intro y
    simp only [List.mem_map, List.mem_filter, Bool.and_eq_true, beq_iff_eq]
    constructor
    · rintro ⟨r, ⟨hr, hv, hk⟩, hy⟩
      exact ⟨r, hr, hk, hv, hy⟩
    · rintro ⟨r, hr, hk, hv, hy⟩
      exact ⟨r, ⟨hr, hv, hk⟩, hy⟩
  constructor
  · rintro ⟨hmem, hall⟩
    refine ⟨(hL (some z)).1 hmem, fun r hr hk hv => ?_⟩
    exact hall r.zip ((hL r.zip).2 ⟨r, hr, hk, hv, rfl⟩)
  · rintro ⟨⟨r, hr, hk, hv, hy⟩, hall⟩
    refine ⟨(hL (some z)).2 ⟨r, hr, hk, hv, hy⟩, fun y hy2 => ?_⟩
    obtain ⟨r2, hr2, hk2, hv2, hy3⟩ := (hL y).1 hy2
    rw [← hy3]
    exact hall r2 hr2 hk2 hv2

/-- C9 (amended): blankness and validity are judged on the
whitespace-trimmed ZIP (so a whitespace-only ZIP counts as blank and is
filled, and a padded valid ZIP counts as valid), and the unique valid ZIP
is unique as a raw cell value.  With that reading, the rule emits exactly
one proposal per trim-blank row of each (entity, house-number,
normalized-street) group whose trim-valid rows all carry one identical raw
ZIP, setting that row's ZIP to it; rows with an absent entity id or house
number are never touched. -/
theorem C9_theorem (view : List ZipRow) (p : ProposedChange) :
    p ∈ propose_fill_missing_zips_keep view ↔
      ∃ r ∈ view, ∃ k : String × String × String, ∃ z : String,
        keyOf r = some k ∧ zipBlank r = true ∧
        (∃ r2 ∈ view, keyOf r2 = some k ∧ zipValid r2 = true ∧ r2.zip = some z) ∧
        (∀ r2 ∈ view, keyOf r2 = some k → zipValid r2 = true → r2.zip = some z) ∧
        p = ⟨r.aid, some k.1, "zip_c", r.zip, z, "Rule 1: Fill Missing ZIPs (Keep)"⟩ := by
  unfold propose_fill_missing_zips_keep
  rw [List.mem_filterMap]
  constructor
  · rintro ⟨r, hr, hf⟩
    cases hk : keyOf r with
    | none =>
        rw [hk] at hf
        exact absurd ((rfl : (none : Option ProposedChange) = none) ▸ hf) (by simp)
    | some k =>
        rw [hk] at hf
        have hf2 : (if zipBlank r = true then
            (canonZip view k).map (fun z =>
              (⟨r.aid, some k.1, "zip_c", r.zip, z,
                "Rule 1: Fill Missing ZIPs (Keep)"⟩ : ProposedChange))
          else none) = some p := hf
        by_cases hb : zipBlank r = true
        · rw [if_pos hb] at hf2
          obtain ⟨z, hc, hfz⟩ := Option.map_eq_some'.1 hf2
          obtain ⟨hex, hall⟩ := (canonZip_eq_some view k z).1 hc
          exact ⟨r, hr, k, z, hk, hb, hex, hall, hfz.symm⟩
        · rw [if_neg hb] at hf2
          exact absurd hf2 (by simp)
  · rintro ⟨r, hr, k, z, hk, hb, hex, hall, hp⟩
    refine ⟨r, hr, ?_⟩
    have hc : canonZip view k = some z := (canonZip_eq_some view k z).2 ⟨hex, hall⟩
    rw [hk]
    show (if zipBlank r = true then
        (canonZip view k).map (fun z =>
          (⟨r.aid, some k.1, "zip_c", r.zip, z,
            "Rule 1: Fill Missing ZIPs (Keep)"⟩ : ProposedChange))
      else none) = some p
    rw [if_pos hb, hc, Option.map_some']
    rw [hp]

def zg1 : ZipRow := ⟨11, some "E9", some "3", some "Oak", some "_12345"⟩

def zg2 : ZipRow := ⟨12, some "E9", some "3", some "Oak", some "_12345"⟩

def zg3 : ZipRow := ⟨13, some "E9", some "3", some "Oak", some ""⟩

def zg4 : ZipRow := ⟨14, some "E9", some "3", some "Oak", none⟩

/-- Witness for C9 (amended) on the group with ZIPs
["_12345", "_12345", "", absent]: both blanks are filled with "_12345". -/
theorem C9_witness :
    (⟨13, some "E9", "zip_c", some "", "_12345", "Rule 1: Fill Missing ZIPs (Keep)"⟩ : ProposedChange) ∈
      propose_fill_missing_zips_keep [zg1, zg2, zg3, zg4] ∧
    (⟨14, some "E9", "zip_c", none, "_12345", "Rule 1: Fill Missing ZIPs (Keep)"⟩ : ProposedChange) ∈
      propose_fill_missing_zips_keep [zg1, zg2, zg3, zg4] :=
  ⟨(C9_theorem [zg1, zg2, zg3, zg4] _).2
    ⟨zg3, by decide, ("E9", "3", "oak"), "_12345", by decide, by decide,
      ⟨zg1, by decide, by decide, by decide, by decide⟩, by decide, by decide⟩,
   (C9_theorem [zg1, zg2, zg3, zg4] _).2
    ⟨zg4, by decide, ("E9", "3", "oak"), "_12345", by decide, by decide,
      ⟨zg1, by decide, by decide, by decide, by decide⟩, by decide, by decide⟩⟩

/-! ### Claims C6 and C10: fuzzy clustering — `UnionFind` (helpers.py) and
the pair loop of `propose_street_name_corrections` (fuzzy_search.py) -/

/-- Parent pointer read `self.par[i]`; an out-of-range read returns `i`
itself (never reached on well-formed states). -/
def pAt (p : List Nat) (i : Nat) : Nat := (p[i]?).getD i

/-- Rank read `self.rank[i]`. -/
def rkAt (r : List Nat) (i : Nat) : Nat := (r[i]?).getD 0

/-- `par[i] == i`: i is a set representative. -/
def isRootUF (p : List Nat) (i : Nat) : Prop := pAt p i = i

/-- k-fold parent iteration. -/
def itp (p : List Nat) : Nat → Nat → Nat
  | 0, i => i
  | k + 1, i => itp p k (pAt p i)

/-- The representative above `i`: `par.length` parent steps always reach
it on well-formed states. -/
def rootOf (p : List Nat) (i : Nat) : Nat := itp p p.length i

/-- The `UnionFind` state: `self.par` and `self.rank` (the string-to-index
map is kept outside, as the position in the variant list). -/
structure UF where
  par : List Nat
  rank : List Nat
deriving DecidableEq, Repr

/-- Well-formedness: ranks aligned with parents, parents in range, and
rank strictly increasing from child to parent (so there are no cycles). -/
def WFuf (u : UF) : Prop :=
  u.rank.length = u.par.length ∧
  (∀ i, i < u.par.length → pAt u.par i < u.par.length) ∧
  (∀ i, i < u.par.length → pAt u.par i ≠ i → rkAt u.rank i < rkAt u.rank (pAt u.par i))

theorem pAt_of_ge (p : List Nat) (i : Nat) (h : p.length ≤ i) : pAt p i = i := by
  simp [pAt, List.getElem?_eq_none h]

theorem isRootUF_of_ge (p : List Nat) (i : Nat) (h : p.length ≤ i) : isRootUF p i :=
  pAt_of_ge p i h

theorem itp_succ_out (p : List Nat) (k i : Nat) : itp p (k + 1) i = pAt p (itp p k i) := by
  induction k generalizing i with
  | zero => rfl
  | succ k ih =>
      show itp p (k + 1) (pAt p i) = pAt p (itp p (k + 1) i)
      rw [ih (pAt p i)]
      rfl

theorem itp_of_isRoot (p : List Nat) (i : Nat) (h : isRootUF p i) : ∀ k, itp p k i = i := by
  intro k
  induction k with
  | zero => rfl
  | succ k ih =>
      show itp p k (pAt p i) = i
      rw [h]
      exact ih

theorem itp_lt (p : List Nat) (hpar : ∀ x, x < p.length → pAt p x < p.length)
    (i : Nat) (hi : i < p.length) : ∀ k, itp p k i < p.length := by
  intro k
  induction k generalizing i with
  | zero => exact hi
  | succ k ih =>
      show itp p k (pAt p i) < p.length
      exact ih (pAt p i) (hpar i hi)

theorem itp_stable (p : List Nat) (i j : Nat) (h : isRootUF p (itp p j i)) :
    ∀ m, itp p (j + m) i = itp p j i := by
  intro m
  induction m with
  | zero => rfl
  | succ m ih =>
      rw [show j + (m + 1) = (j + m) + 1 from rfl, itp_succ_out, ih]
      exact h

theorem rk_step (p rk : List Nat)
    (hrk : ∀ x, x < p.length → pAt p x ≠ x → rkAt rk x < rkAt rk (pAt p x)) :
    ∀ x, rkAt rk x ≤ rkAt rk (pAt p x) := by
  intro x
  by_cases hx : x < p.length
  · by_cases hr : pAt p x = x
    · rw [hr]
    · exact Nat.le_of_lt (hrk x hx hr)
  · rw [pAt_of_ge p x (Nat.le_of_not_lt hx)]

theorem rk_itp_mono (p rk : List Nat)
    (hrk : ∀ x, x < p.length → pAt p x ≠ x → rkAt rk x < rkAt rk (pAt p x)) :
    ∀ k x, rkAt rk x ≤ rkAt rk (itp p k x) := by
  intro k
  induction k with
  | zero => intro x; exact Nat.le_refl _
  | succ k ih =>
      intro x
      show rkAt rk x ≤ rkAt rk (itp p k (pAt p x))
      exact Nat.le_trans (rk_step p rk hrk x) (ih (pAt p x))

theorem rk_itp_strict (p rk : List Nat)
    (hrk : ∀ x, x < p.length → pAt p x ≠ x → rkAt rk x < rkAt rk (pAt p x))
    (i : Nat) (b : Nat)
    (hnr : ∀ j, j < b → ¬ isRootUF p (itp p j i)) :
    ∀ a, a < b → rkAt rk (itp p a i) < rkAt rk (itp p b i) := by
  induction b with
  | zero => intro a ha; exact absurd ha (Nat.not_lt_zero a)
  | succ b ih =>
      intro a ha
      have hstep : rkAt rk (itp p b i) < rkAt rk (itp p (b + 1) i) := by
        have hnrb : ¬ isRootUF p (itp p b i) := hnr b (Nat.lt_succ_self b)
        have hlt : itp p b i < p.length := by
          by_contra hge
          exact hnrb (isRootUF_of_ge p _ (Nat.le_of_not_lt hge))
        rw [itp_succ_out]
        exact hrk _ hlt hnrb
      rcases Nat.lt_or_ge a b with h | h
      · exact Nat.lt_trans (ih (fun j hj => hnr j (Nat.lt_succ_of_lt hj)) a h) hstep
      · have hab : a = b := Nat.le_antisymm (Nat.lt_succ_iff.1 ha) h
        rw [hab]
        exact hstep

theorem exists_root_lt (p rk : List Nat)
    (hpar : ∀ x, x < p.length → pAt p x < p.length)
    (hrk : ∀ x, x < p.length → pAt p x ≠ x → rkAt rk x < rkAt rk (pAt p x))
    (i : Nat) (hi : i < p.length) :
    ∃ j, j < p.length ∧ isRootUF p (itp p j i) := by
  by_contra hc
  push_neg at hc
  have hinj : Set.InjOn (fun j => itp p j i) (Finset.range (p.length + 1)) := by
    intro a ha b hb hab
    by_contra hne
    simp only [Finset.coe_range, Set.mem_Iio] at ha hb
    simp only at hab
    rcases Nat.lt_or_ge a b with h | h
    · have hs := rk_itp_strict p rk hrk i b (fun j hj => hc j (by omega)) a h
      rw [hab] at hs
      exact Nat.lt_irrefl _ hs
    · have hba : b < a := by omega
      have hs := rk_itp_strict p rk hrk i a (fun j hj => hc j (by omega)) b hba
      rw [hab] at hs
      exact Nat.lt_irrefl _ hs
  have hmaps : ∀ a ∈ Finset.range (p.length + 1), (fun j => itp p j i) a ∈ Finset.range p.length := by
    intro a _
    simp only [Finset.mem_range]
    exact itp_lt p hpar i hi a
  have hcard := Finset.card_le_card_of_injOn _ hmaps hinj
  simp only [Finset.card_range] at hcard
  omega

theorem isRootUF_rootOf (p rk : List Nat)
    (hpar : ∀ x, x < p.length → pAt p x < p.length)
    (hrk : ∀ x, x < p.length → pAt p x ≠ x → rkAt rk x < rkAt rk (pAt p x))
    (i : Nat) : isRootUF p (rootOf p i) := by
  by_cases hi : i < p.length
  · obtain ⟨j, hj, hr⟩ := exists_root_lt p rk hpar hrk i hi
    have hstab := itp_stable p i j hr (p.length - j)
    rw [show j + (p.length - j) = p.length from by omega] at hstab
    rw [rootOf, hstab]
    exact hr
  · have hroot := isRootUF_of_ge p i (Nat.le_of_not_lt hi)
    rw [rootOf, itp_of_isRoot p i hroot]
    exact hroot

theorem rootOf_of_isRoot (p : List Nat) (i : Nat) (h : isRootUF p i) : rootOf p i = i :=
  itp_of_isRoot p i h p.length

theorem itp_eq_rootOf (p rk : List Nat)
    (hpar : ∀ x, x < p.length → pAt p x < p.length)
    (hrk : ∀ x, x < p.length → pAt p x ≠ x → rkAt rk x < rkAt rk (pAt p x))
    (i j : Nat) (h : isRootUF p (itp p j i)) :
    itp p j i = rootOf p i := by
  rcases Nat.le_total j p.length with hj | hj
  · rw [rootOf, show p.length = j + (p.length - j) from by omega, itp_stable p i j h]
  · have hr := isRootUF_rootOf p rk hpar hrk i
    rw [rootOf] at hr
    have hstab := itp_stable p i p.length hr (j - p.length)
    rw [show p.length + (j - p.length) = j from by omega] at hstab
    rw [rootOf, hstab]

theorem rootOf_lt (p : List Nat)
    (hpar : ∀ x, x < p.length → pAt p x < p.length)
    (i : Nat) (hi : i < p.length) : rootOf p i < p.length :=
  itp_lt p hpar i hi p.length

theorem rootOf_pAt (p rk : List Nat)
    (hpar : ∀ x, x < p.length → pAt p x < p.length)
    (hrk : ∀ x, x < p.length → pAt p x ≠ x → rkAt rk x < rkAt rk (pAt p x))
    (i : Nat) : rootOf p (pAt p i) = rootOf p i := by
  by_cases hi : i < p.length
  · have hn : p.length = (p.length - 1) + 1 := by omega
    have h1 : itp p ((p.length - 1) + 1) i = itp p (p.length - 1) (pAt p i) := rfl
    have hroot : isRootUF p (itp p (p.length - 1) (pAt p i)) := by
      rw [← h1, ← hn]
      exact isRootUF_rootOf p rk hpar hrk i
    have h2 := itp_eq_rootOf p rk hpar hrk (pAt p i) (p.length - 1) hroot
    rw [← h2, ← h1, ← hn]
    rfl
  · rw [pAt_of_ge p i (Nat.le_of_not_lt hi)]

theorem rk_le_rootOf (p rk : List Nat)
    (hrk : ∀ x, x < p.length → pAt p x ≠ x → rkAt rk x < rkAt rk (pAt p x))
    (x : Nat) : rkAt rk x ≤ rkAt rk (rootOf p x) :=
  rk_itp_mono p rk hrk p.length x

theorem rootOf_transport (p2 rk2 : List Nat) (f : Nat → Nat)
    (hpar2 : ∀ x, x < p2.length → pAt p2 x < p2.length)
    (hrk2 : ∀ x, x < p2.length → pAt p2 x ≠ x → rkAt rk2 x < rkAt rk2 (pAt p2 x))
    (hstep : ∀ x, f (pAt p2 x) = f x)
    (hroot : ∀ x, isRootUF p2 x → f x = x) :
    ∀ w, rootOf p2 w = f w := by
  have hiter : ∀ k x, f (itp p2 k x) = f x := by
    intro k
    induction k with
    | zero => intro x; rfl
    | succ k ih =>
        intro x
        show f (itp p2 k (pAt p2 x)) = f x
        rw [ih (pAt p2 x), hstep]
  intro w
  have hr : isRootUF p2 (rootOf p2 w) := isRootUF_rootOf p2 rk2 hpar2 hrk2 w
  have h1 : f (rootOf p2 w) = f w := hiter p2.length w
  rw [← h1, hroot _ hr]

theorem pAt_set_self (p : List Nat) (v r : Nat) (hv : v < p.length) :
    pAt (p.set v r) v = r := by
  simp [pAt, List.getElem?_set_self, hv]

theorem pAt_set_ne (p : List Nat) (v r x : Nat) (h : v ≠ x) :
    pAt (p.set v r) x = pAt p x := by
  simp [pAt, List.getElem?_set_ne h]

theorem set_parent_spec (p rk rk2 : List Nat)
    (hpar : ∀ x, x < p.length → pAt p x < p.length)
    (hrk : ∀ x, x < p.length → pAt p x ≠ x → rkAt rk x < rkAt rk (pAt p x))
    (v d : Nat) (hv : v < p.length) (hdlt : d < p.length)
    (hd : isRootUF p d)
    (hrkv : rkAt rk2 v < rkAt rk2 d)
    (hmono : ∀ x, rkAt rk x ≤ rkAt rk2 x)
    (hother : ∀ x, x ≠ d → rkAt rk2 x = rkAt rk x)
    (hne : v ≠ d)
    (hvd : rootOf p v = v ∨ d = rootOf p v) :
    (∀ x, x < (p.set v d).length → pAt (p.set v d) x < (p.set v d).length) ∧
    (∀ x, x < (p.set v d).length → pAt (p.set v d) x ≠ x →
      rkAt rk2 x < rkAt rk2 (pAt (p.set v d) x)) ∧
    (∀ w, rootOf (p.set v d) w = if rootOf p w = rootOf p v then d else rootOf p w) := by
  have hlen : (p.set v d).length = p.length := List.length_set p v d
  have hpar2 : ∀ x, x < (p.set v d).length → pAt (p.set v d) x < (p.set v d).length := by
    intro x hx
    rw [hlen] at hx ⊢
    by_cases hxv : v = x
    · rw [← hxv, pAt_set_self p v d hv]
      exact hdlt
    · rw [pAt_set_ne p v d x hxv]
      exact hpar x hx
  have hrk2inv : ∀ x, x < (p.set v d).length → pAt (p.set v d) x ≠ x →
      rkAt rk2 x < rkAt rk2 (pAt (p.set v d) x) := by
    intro x hx hne2
    rw [hlen] at hx
    by_cases hxv : v = x
    · rw [← hxv] at hne2 ⊢
      rw [pAt_set_self p v d hv] at hne2 ⊢
      exact hrkv
    · rw [pAt_set_ne p v d x hxv] at hne2 ⊢
      by_cases hxd : x = d
      · rw [hxd] at hne2
        exact absurd hd hne2
      · rw [hother x hxd]
        exact Nat.lt_of_lt_of_le (hrk x hx hne2) (hmono (pAt p x))
  have hstep : ∀ x, (if rootOf p (pAt (p.set v d) x) = rootOf p v then d
        else rootOf p (pAt (p.set v d) x)) =
      (if rootOf p x = rootOf p v then d else rootOf p x) := by
    intro x
    by_cases hxv : v = x
    · rw [← hxv, pAt_set_self p v d hv]
      have hdd : rootOf p d = d := rootOf_of_isRoot p d hd
      rw [hdd]
      by_cases h2 : d = rootOf p v <;> simp [h2]
    · rw [pAt_set_ne p v d x hxv, rootOf_pAt p rk hpar hrk x]
  have hroot : ∀ R, isRootUF (p.set v d) R →
      (if rootOf p R = rootOf p v then d else rootOf p R) = R := by
    intro R hR
    by_cases hRv : v = R
    · exfalso
      rw [← hRv] at hR
      rw [isRootUF, pAt_set_self p v d hv] at hR
      exact hne hR.symm
    · have hpR : pAt p R = R := by
        rw [← pAt_set_ne p v d R hRv]
        exact hR
      have hRR : rootOf p R = R := rootOf_of_isRoot p R hpR
      rw [hRR]
      by_cases hReq : R = rootOf p v
      · rcases hvd with hvd2 | hvd2
        · exact absurd (hReq.trans hvd2) (fun h => hRv h.symm)
        · rw [if_pos hReq, hvd2]
          exact hReq.symm
      · rw [if_neg hReq]
  refine ⟨hpar2, hrk2inv, ?_⟩
  exact rootOf_transport (p.set v d) rk2
    (fun w => if rootOf p w = rootOf p v then d else rootOf p w) hpar2 hrk2inv hstep hroot

/-- `_find` with path compression: `if par[i] != i: par[i] = _find(par[i]);
return par[i]`.  Functional rendering: the recursive call compresses the
rest of the chain, then `par[i]` is set to the returned representative.
Fuel `par.length` always suffices on well-formed states. -/
def findF : Nat → List Nat → Nat → List Nat × Nat
  | 0, p, i => (p, i)
  | f + 1, p, i =>
      if pAt p i = i then (p, i)
      else ((findF f p (pAt p i)).1.set i (findF f p (pAt p i)).2, (findF f p (pAt p i)).2)

theorem findF_spec (f : Nat) : ∀ (p rk : List Nat) (i : Nat),
    (∀ x, x < p.length → pAt p x < p.length) →
    (∀ x, x < p.length → pAt p x ≠ x → rkAt rk x < rkAt rk (pAt p x)) →
    (∃ j, j < f ∧ isRootUF p (itp p j i)) →
    (findF f p i).1.length = p.length ∧
    (findF f p i).2 = rootOf p i ∧
    (∀ x, x < (findF f p i).1.length → pAt (findF f p i).1 x < (findF f p i).1.length) ∧
    (∀ x, x < (findF f p i).1.length → pAt (findF f p i).1 x ≠ x →
      rkAt rk x < rkAt rk (pAt (findF f p i).1 x)) ∧
    (∀ w, rootOf (findF f p i).1 w = rootOf p w) := by
  induction f with
  | zero =>
      intro p rk i hpar hrk hroot
      obtain ⟨j, hj, _⟩ := hroot
      omega
  | succ f ih =>
      intro p rk i hpar hrk hroot
      by_cases hri : pAt p i = i
      · have hq : findF (f + 1) p i = (p, i) := by
          rw [findF, if_pos hri]
        rw [hq]
        exact ⟨rfl, itp_eq_rootOf p rk hpar hrk i 0 hri, hpar, hrk, fun w => rfl⟩
      · have hi : i < p.length := by
          by_contra hge
          exact hri (pAt_of_ge p i (Nat.le_of_not_lt hge))
        obtain ⟨j, hj, hjr⟩ := hroot
        have hj0 : j ≠ 0 := by
          rintro rfl
          exact hri hjr
        obtain ⟨j2, rfl⟩ : ∃ j2, j = j2 + 1 := ⟨j - 1, by omega⟩
        have hroot2 : ∃ j3, j3 < f ∧ isRootUF p (itp p j3 (pAt p i)) :=
          ⟨j2, by omega, hjr⟩
        obtain ⟨hlen, hq2, hpar2, hrk2, hroots⟩ := ih p rk (pAt p i) hpar hrk hroot2
        have hq : findF (f + 1) p i =
            ((findF f p (pAt p i)).1.set i (findF f p (pAt p i)).2, (findF f p (pAt p i)).2) := by
          rw [findF, if_neg hri]
        have hr2 : (findF f p (pAt p i)).2 = rootOf p i := by
          rw [hq2, rootOf_pAt p rk hpar hrk i]
        have hrootp : isRootUF p (rootOf p i) := isRootUF_rootOf p rk hpar hrk i
        have hrlt : rootOf p i < p.length := rootOf_lt p hpar i hi
        have hrne : i ≠ rootOf p i := by
          intro h
          rw [← h] at hrootp
          exact hri hrootp
        have hrkstrict : rkAt rk i < rkAt rk (rootOf p i) := by
          have h1 : rkAt rk i < rkAt rk (pAt p i) := hrk i hi hri
          have h2 : rkAt rk (pAt p i) ≤ rkAt rk (rootOf p (pAt p i)) :=
            rk_le_rootOf p rk hrk (pAt p i)
          rw [rootOf_pAt p rk hpar hrk i] at h2
          omega
        have hrootq : isRootUF (findF f p (pAt p i)).1 ((findF f p (pAt p i)).2) := by
          rw [hr2]
          have h1 : rootOf (findF f p (pAt p i)).1 (rootOf p i) = rootOf p i := by
            rw [hroots (rootOf p i)]
            exact rootOf_of_isRoot p (rootOf p i) hrootp
          have h2 := isRootUF_rootOf (findF f p (pAt p i)).1 rk hpar2 hrk2 (rootOf p i)
          rw [h1] at h2
          exact h2
        have hsp := set_parent_spec (findF f p (pAt p i)).1 rk rk hpar2 hrk2
          i ((findF f p (pAt p i)).2)
          (by rw [hlen]; exact hi)
          (by rw [hlen, hr2]; exact hrlt)
          hrootq
          (by rw [hr2]; exact hrkstrict)
          (fun x => Nat.le_refl _)
          (fun x _ => rfl)
          (by rw [hr2]; exact hrne)
          (Or.inr (by rw [hr2, hroots i]))
        obtain ⟨hpar3, hrk3, hroots3⟩ := hsp
        rw [hq]
        refine ⟨?_, hr2, hpar3, hrk3, ?_⟩
        · simp only [List.length_set]
          exact hlen
        · intro w
          rw [hroots3 w, hroots w, hroots i]
          by_cases hcase : rootOf p w = rootOf p i
          · rw [if_pos hcase, hr2, hcase]
          · rw [if_neg hcase]

/-- The link phase of `union`: compare ranks of the two representatives,
attach the smaller-rank root to the larger, on a tie attach `rb` under
`ra` and increment `rank[ra]`. -/
def unionRoots (u : UF) (p2 : List Nat) (ra rb : Nat) : UF :=
  if ra = rb then ⟨p2, u.rank⟩
  else if rkAt u.rank ra < rkAt u.rank rb then ⟨p2.set ra rb, u.rank⟩
  else if rkAt u.rank rb < rkAt u.rank ra then ⟨p2.set rb ra, u.rank⟩
  else ⟨p2.set rb ra, u.rank.set ra (rkAt u.rank ra + 1)⟩

/-- `union(a, b)`: two finds (each compressing paths), then the link
phase. -/
def unionUF (u : UF) (a b : Nat) : UF :=
  unionRoots u
    (findF (findF u.par.length u.par a).1.length (findF u.par.length u.par a).1 b).1
    (findF u.par.length u.par a).2
    (findF (findF u.par.length u.par a).1.length (findF u.par.length u.par a).1 b).2

/-- `UnionFind.__init__`: every element its own root, all ranks zero. -/
def initUF (n : Nat) : UF := ⟨List.range n, List.replicate n 0⟩

/-- Two elements lie in the same cluster iff `_find` gives them the same
representative, i.e. they have the same root. -/
def rootEq (u : UF) (x y : Nat) : Prop := rootOf u.par x = rootOf u.par y

theorem unionRoots_spec (u : UF) (p2 : List Nat) (ra rb : Nat)
    (hrl : u.rank.length = u.par.length)
    (hlen : p2.length = u.par.length)
    (hpar2 : ∀ x, x < p2.length → pAt p2 x < p2.length)
    (hrk2 : ∀ x, x < p2.length → pAt p2 x ≠ x → rkAt u.rank x < rkAt u.rank (pAt p2 x))
    (hra : isRootUF p2 ra) (hrb : isRootUF p2 rb)
    (hralt : ra < p2.length) (hrblt : rb < p2.length) :
    WFuf (unionRoots u p2 ra rb) ∧ (unionRoots u p2 ra rb).par.length = p2.length ∧
    ∃ r0, (r0 = ra ∨ r0 = rb) ∧
      ∀ w, rootOf (unionRoots u p2 ra rb).par w =
        if rootOf p2 w = ra ∨ rootOf p2 w = rb then r0 else rootOf p2 w := by
  have hrootra : rootOf p2 ra = ra := rootOf_of_isRoot p2 ra hra
  have hrootrb : rootOf p2 rb = rb := rootOf_of_isRoot p2 rb hrb
  by_cases heq : ra = rb
  · rw [unionRoots, if_pos heq]
    refine ⟨⟨by rw [hrl, hlen], hpar2, hrk2⟩, rfl, ra, Or.inl rfl, ?_⟩
    intro w
    by_cases hc : rootOf p2 w = ra ∨ rootOf p2 w = rb
    · rw [if_pos hc]
      rcases hc with hc | hc
      · exact hc
      · rw [hc, heq]
    · rw [if_neg hc]
  · by_cases hlt : rkAt u.rank ra < rkAt u.rank rb
    · rw [unionRoots, if_neg heq, if_pos hlt]
      obtain ⟨hpar3, hrk3, hroots3⟩ := set_parent_spec p2 u.rank u.rank hpar2 hrk2
        ra rb hralt hrblt hrb hlt (fun x => Nat.le_refl _) (fun x _ => rfl) heq
        (Or.inl hrootra)
      refine ⟨⟨by simp only [List.length_set]; rw [hrl, hlen], hpar3, hrk3⟩,
        by simp only [List.length_set], rb, Or.inr rfl, ?_⟩
      intro w
      rw [hroots3 w, hrootra]
      by_cases hc1 : rootOf p2 w = ra
      · rw [if_pos hc1, if_pos (Or.inl hc1)]
      · rw [if_neg hc1]
        by_cases hc2 : rootOf p2 w = rb
        · rw [if_pos (Or.inr hc2), hc2]
        · rw [if_neg (by tauto)]
    · by_cases hgt : rkAt u.rank rb < rkAt u.rank ra
      · rw [unionRoots, if_neg heq, if_neg hlt, if_pos hgt]
        obtain ⟨hpar3, hrk3, hroots3⟩ := set_parent_spec p2 u.rank u.rank hpar2 hrk2
          rb ra hrblt hralt hra hgt (fun x => Nat.le_refl _) (fun x _ => rfl)
          (fun h => heq h.symm) (Or.inl hrootrb)
        refine ⟨⟨by simp only [List.length_set]; rw [hrl, hlen], hpar3, hrk3⟩,
          by simp only [List.length_set], ra, Or.inl rfl, ?_⟩
        intro w
        rw [hroots3 w, hrootrb]
        by_cases hc2 : rootOf p2 w = rb
        · rw [if_pos hc2, if_pos (Or.inr hc2)]
        · rw [if_neg hc2]
          by_cases hc1 : rootOf p2 w = ra
          · rw [if_pos (Or.inl hc1), hc1]
          · rw [if_neg (by tauto)]
      · rw [unionRoots, if_neg heq, if_neg hlt, if_neg hgt]
        have hra_lt_rk : ra < u.rank.length := by
          rw [hrl, ← hlen]
          exact hralt
        have hrk2at : rkAt (u.rank.set ra (rkAt u.rank ra + 1)) ra = rkAt u.rank ra + 1 := by
          simp [rkAt, List.getElem?_set_self, hra_lt_rk]
        have hrkother : ∀ x, x ≠ ra → rkAt (u.rank.set ra (rkAt u.rank ra + 1)) x = rkAt u.rank x := by
          intro x hx
          simp [rkAt, List.getElem?_set_ne (fun h => hx h.symm)]
        obtain ⟨hpar3, hrk3, hroots3⟩ := set_parent_spec p2 u.rank
          (u.rank.set ra (rkAt u.rank ra + 1)) hpar2 hrk2
          rb ra hrblt hralt hra
          (by rw [hrk2at, hrkother rb (fun h => heq h.symm)]
              omega)
          (by intro x
              by_cases hx : x = ra
              · rw [hx, hrk2at]
                omega
              · rw [hrkother x hx])
          (fun x hx => hrkother x hx)
          (fun h => heq h.symm) (Or.inl hrootrb)
        refine ⟨⟨by simp only [List.length_set]; rw [hrl, hlen], hpar3, hrk3⟩,
          by simp only [List.length_set], ra, Or.inl rfl, ?_⟩
        intro w
        rw [hroots3 w, hrootrb]
        by_cases hc2 : rootOf p2 w = rb
        · rw [if_pos hc2, if_pos (Or.inr hc2)]
        · rw [if_neg hc2]
          by_cases hc1 : rootOf p2 w = ra
          · rw [if_pos (Or.inl hc1), hc1]
          · rw [if_neg (by tauto)]

theorem initUF_spec (n : Nat) :
    WFuf (initUF n) ∧ (initUF n).par.length = n ∧ ∀ x, rootOf (initUF n).par x = x := by
  have hp : ∀ x, pAt (List.range n) x = x := by
    intro x
    rcases Nat.lt_or_ge x n with h | h
    · simp [pAt, List.getElem?_range, h]
    · exact pAt_of_ge _ x (by simpa using h)
  dsimp only [initUF, WFuf]
  refine ⟨⟨by simp, ?_, ?_⟩, by simp, ?_⟩
  · intro i hi
    rw [hp i]
    exact hi
  · intro i hi hne
    exact absurd (hp i) hne
  · intro x
    exact rootOf_of_isRoot _ x (hp x)

theorem unionUF_spec (u : UF) (a b : Nat) (hwf : WFuf u)
    (ha : a < u.par.length) (hb : b < u.par.length) :
    WFuf (unionUF u a b) ∧ (unionUF u a b).par.length = u.par.length ∧
    (∀ x y, rootEq (unionUF u a b) x y ↔
      (rootEq u x y ∨ (rootEq u x a ∧ rootEq u y b) ∨ (rootEq u x b ∧ rootEq u y a))) := by
  obtain ⟨hrl, hpar, hrk⟩ := hwf
  obtain ⟨hlen1, hra1, hpar1, hrk1, hroots1⟩ :=
    findF_spec u.par.length u.par u.rank a hpar hrk (exists_root_lt u.par u.rank hpar hrk a ha)
  obtain ⟨hlen2, hrb2, hpar2, hrk2, hroots2⟩ :=
    findF_spec (findF u.par.length u.par a).1.length (findF u.par.length u.par a).1 u.rank b
      hpar1 hrk1
      (exists_root_lt (findF u.par.length u.par a).1 u.rank hpar1 hrk1 b (by rw [hlen1]; exact hb))
  have hrb : (findF (findF u.par.length u.par a).1.length (findF u.par.length u.par a).1 b).2
      = rootOf u.par b := by
    rw [hrb2, hroots1 b]
  have hrootsb : ∀ w,
      rootOf (findF (findF u.par.length u.par a).1.length (findF u.par.length u.par a).1 b).1 w
        = rootOf u.par w := by
    intro w
    rw [hroots2 w, hroots1 w]
  have hl2 : (findF (findF u.par.length u.par a).1.length (findF u.par.length u.par a).1 b).1.length
      = u.par.length := by
    rw [hlen2, hlen1]
  have hrap : isRootUF
      (findF (findF u.par.length u.par a).1.length (findF u.par.length u.par a).1 b).1
      (rootOf u.par a) := by
    have h1 : rootOf
        (findF (findF u.par.length u.par a).1.length (findF u.par.length u.par a).1 b).1
        (rootOf u.par a) = rootOf u.par a := by
      rw [hrootsb]
      exact rootOf_of_isRoot u.par _ (isRootUF_rootOf u.par u.rank hpar hrk a)
    have h2 := isRootUF_rootOf
      (findF (findF u.par.length u.par a).1.length (findF u.par.length u.par a).1 b).1
      u.rank hpar2 hrk2 (rootOf u.par a)
    rw [h1] at h2
    exact h2
  have hrbp : isRootUF
      (findF (findF u.par.length u.par a).1.length (findF u.par.length u.par a).1 b).1
      (rootOf u.par b) := by
    have h1 : rootOf
        (findF (findF u.par.length u.par a).1.length (findF u.par.length u.par a).1 b).1
        (rootOf u.par b) = rootOf u.par b := by
      rw [hrootsb]
      exact rootOf_of_isRoot u.par _ (isRootUF_rootOf u.par u.rank hpar hrk b)
    have h2 := isRootUF_rootOf
      (findF (findF u.par.length u.par a).1.length (findF u.par.length u.par a).1 b).1
      u.rank hpar2 hrk2 (rootOf u.par b)
    rw [h1] at h2
    exact h2
  obtain ⟨hwf3, hlen3, r0, hr0, hroots3⟩ := unionRoots_spec u
    (findF (findF u.par.length u.par a).1.length (findF u.par.length u.par a).1 b).1
    (findF u.par.length u.par a).2
    (findF (findF u.par.length u.par a).1.length (findF u.par.length u.par a).1 b).2
    hrl hl2 hpar2 hrk2
    (by rw [hra1]; exact hrap)
    (by rw [hrb]; exact hrbp)
    (by rw [hra1, hl2]; exact rootOf_lt u.par hpar a ha)
    (by rw [hrb, hl2]; exact rootOf_lt u.par hpar b hb)
  rw [hra1, hrb] at hr0
  unfold unionUF
  refine ⟨hwf3, by rw [hlen3, hl2], ?_⟩
  intro x y
  unfold rootEq
  rw [hroots3 x, hroots3 y, hrootsb x, hrootsb y, hra1, hrb]
  by_cases hcx : (rootOf u.par x = rootOf u.par a ∨ rootOf u.par x = rootOf u.par b)
  · by_cases hcy : (rootOf u.par y = rootOf u.par a ∨ rootOf u.par y = rootOf u.par b)
    · rw [if_pos hcx, if_pos hcy]
      rcases hr0 with h0 | h0 <;> rcases hcx with h1 | h1 <;> rcases hcy with h2 | h2 <;> omega
    · rw [if_pos hcx, if_neg hcy]
      push_neg at hcy
      rcases hr0 with h0 | h0 <;> rcases hcx with h1 | h1 <;> omega
  · by_cases hcy : (rootOf u.par y = rootOf u.par a ∨ rootOf u.par y = rootOf u.par b)
    · rw [if_neg hcx, if_pos hcy]
      push_neg at hcx
      rcases hr0 with h0 | h0 <;> rcases hcy with h2 | h2 <;> omega
    · rw [if_neg hcx, if_neg hcy]
      push_neg at hcx
      push_neg at hcy
      omega

/-- Folding `union` over a list of index pairs. -/
def runUF (u : UF) (es : List (Nat × Nat)) : UF :=
  es.foldl (fun v e => unionUF v e.1 e.2) u

theorem eqvGen_lift {r s : Nat → Nat → Prop}
    (h : ∀ x y, r x y → Relation.EqvGen s x y) :
    ∀ x y, Relation.EqvGen r x y → Relation.EqvGen s x y := by
  intro x y hxy
  induction hxy with
  | rel a b hab => exact h a b hab
  | refl a => exact Relation.EqvGen.refl a
  | symm a b hab ih => exact Relation.EqvGen.symm a b ih
  | trans a b c hab hbc ih1 ih2 => exact Relation.EqvGen.trans a b c ih1 ih2

theorem runUF_spec : ∀ (es : List (Nat × Nat)) (u : UF), WFuf u →
    (∀ e, e ∈ es → e.1 < u.par.length ∧ e.2 < u.par.length) →
    WFuf (runUF u es) ∧ (runUF u es).par.length = u.par.length ∧
    (∀ x y, rootEq (runUF u es) x y ↔
      Relation.EqvGen (fun c d => rootEq u c d ∨ (c, d) ∈ es) x y) := by
  intro es
  induction es with
  | nil =>
      intro u hwf hb
      refine ⟨hwf, rfl, ?_⟩
      intro x y
      constructor
      · intro h
        exact Relation.EqvGen.rel x y (Or.inl h)
      · intro h
        induction h with
        | rel a b hab =>
            rcases hab with hab | hab
            · exact hab
            · exact absurd hab (List.not_mem_nil _)
        | refl a => exact rfl
        | symm a b hab ih => exact ih.symm
        | trans a b c hab hbc ih1 ih2 => exact ih1.trans ih2
  | cons e es ih =>
      intro u hwf hb
      obtain ⟨ha, hbb⟩ := hb e (List.mem_cons_self e es)
      obtain ⟨hwf1, hlen1, hiff1⟩ := unionUF_spec u e.1 e.2 hwf ha hbb
      have hb2 : ∀ e2, e2 ∈ es →
          e2.1 < (unionUF u e.1 e.2).par.length ∧ e2.2 < (unionUF u e.1 e.2).par.length := by
        intro e2 he2
        rw [hlen1]
        exact hb e2 (List.mem_cons_of_mem e he2)
      obtain ⟨hwf2, hlen2, hiff2⟩ := ih (unionUF u e.1 e.2) hwf1 hb2
      have hrun : runUF u (e :: es) = runUF (unionUF u e.1 e.2) es := rfl
      refine ⟨by rw [hrun]; exact hwf2, by rw [hrun, hlen2, hlen1], ?_⟩
      intro x y
      rw [hrun, hiff2 x y]
      constructor
      · refine eqvGen_lift ?_ x y
        intro c d hcd
        rcases hcd with hcd | hcd
        · rw [hiff1 c d] at hcd
          rcases hcd with h | h | h
          · exact Relation.EqvGen.rel c d (Or.inl h)
          · have h1 : Relation.EqvGen (fun c d => rootEq u c d ∨ (c, d) ∈ e :: es) c e.1 :=
              Relation.EqvGen.rel _ _ (Or.inl h.1)
            have h2 : Relation.EqvGen (fun c d => rootEq u c d ∨ (c, d) ∈ e :: es) e.1 e.2 :=
              Relation.EqvGen.rel _ _ (Or.inr (by rw [Prod.mk.eta]; exact List.mem_cons_self e es))
            have h3 : Relation.EqvGen (fun c d => rootEq u c d ∨ (c, d) ∈ e :: es) e.2 d :=
              Relation.EqvGen.symm _ _ (Relation.EqvGen.rel _ _ (Or.inl h.2))
            exact Relation.EqvGen.trans _ _ _ h1 (Relation.EqvGen.trans _ _ _ h2 h3)
          · have h1 : Relation.EqvGen (fun c d => rootEq u c d ∨ (c, d) ∈ e :: es) c e.2 :=
              Relation.EqvGen.rel _ _ (Or.inl h.1)
            have h2 : Relation.EqvGen (fun c d => rootEq u c d ∨ (c, d) ∈ e :: es) e.2 e.1 :=
              Relation.EqvGen.symm _ _
                (Relation.EqvGen.rel _ _ (Or.inr (by rw [Prod.mk.eta]; exact List.mem_cons_self e es)))
            have h3 : Relation.EqvGen (fun c d => rootEq u c d ∨ (c, d) ∈ e :: es) e.1 d :=
              Relation.EqvGen.symm _ _ (Relation.EqvGen.rel _ _ (Or.inl h.2))
            exact Relation.EqvGen.trans _ _ _ h1 (Relation.EqvGen.trans _ _ _ h2 h3)
        · exact Relation.EqvGen.rel c d (Or.inr (List.mem_cons_of_mem e hcd))
      · refine eqvGen_lift ?_ x y
        intro c d hcd
        rcases hcd with hcd | hcd
        · exact Relation.EqvGen.rel c d (Or.inl ((hiff1 c d).2 (Or.inl hcd)))
        · rcases List.mem_cons.1 hcd with hcd2 | hcd2
          · have hc : c = e.1 := congrArg Prod.fst hcd2
            have hd : d = e.2 := congrArg Prod.snd hcd2
            refine Relation.EqvGen.rel c d (Or.inl ((hiff1 c d).2 (Or.inr (Or.inl ⟨?_, ?_⟩))))
            · rw [rootEq, hc]
            · rw [rootEq, hd]
          · exact Relation.EqvGen.rel c d (Or.inr hcd2)

/-- Modelled from the spec: the Levenshtein edit distance computed by the
external rapidfuzz library (`_distance`), written with explicit fuel so
that it is structurally recursive; the initial fuel `|a| + |b|` is an
upper bound on the recursion depth, so the fuel never runs out. -/
def levF : Nat → List Char → List Char → Nat
  | 0, a, b => a.length + b.length
  | _ + 1, [], ys => ys.length
  | _ + 1, _ :: xs, [] => xs.length + 1
  | f + 1, x :: xs, y :: ys =>
      if x = y then levF f xs ys
      else 1 + min (levF f xs (y :: ys)) (min (levF f (x :: xs) ys) (levF f xs ys))

/-- Modelled from the spec: Levenshtein distance between two strings. -/
def levDistance (a b : List Char) : Nat := levF (a.length + b.length) a b

theorem levF_ge_diff (f : Nat) : ∀ (a b : List Char), a.length + b.length ≤ f →
    max a.length b.length - min a.length b.length ≤ levF f a b := by
  induction f with
  | zero =>
      intro a b h
      have ha : a.length = 0 := by omega
      have hb : b.length = 0 := by omega
      simp [levF, ha, hb]
  | succ f ih =>
      intro a b h
      match a, b with
      | [], ys => simp [levF]
      | x :: xs, [] => simp [levF]
      | x :: xs, y :: ys =>
          simp only [List.length_cons] at h
          by_cases hxy : x = y
          · rw [levF, if_pos hxy]
            have h1 := ih xs ys (by omega)
            simp only [List.length_cons]
            omega
          · rw [levF, if_neg hxy]
            have h1 := ih xs (y :: ys) (by simp only [List.length_cons]; omega)
            have h2 := ih (x :: xs) ys (by simp only [List.length_cons]; omega)
            have h3 := ih xs ys (by omega)
            simp only [List.length_cons] at h1 h2 h3 ⊢
            omega

theorem levF_symm (f : Nat) : ∀ (a b : List Char), levF f a b = levF f b a := by
  induction f with
  | zero => intro a b; simp [levF]; omega
  | succ f ih =>
      intro a b
      match a, b with
      | [], [] => rfl
      | [], y :: ys => simp [levF]
      | x :: xs, [] => simp [levF]
      | x :: xs, y :: ys =>
          rw [levF, levF]
          by_cases hxy : x = y
          · rw [if_pos hxy, if_pos hxy.symm]
            exact ih xs ys
          · rw [if_neg hxy, if_neg (fun h => hxy h.symm)]
            rw [ih xs (y :: ys), ih (x :: xs) ys, ih xs ys]
            omega

/-- Levenshtein distance is at least the length difference. -/
theorem levDistance_ge_diff (a b : List Char) :
    max a.length b.length - min a.length b.length ≤ levDistance a b :=
  levF_ge_diff (a.length + b.length) a b (Nat.le_refl _)

theorem levDistance_symm (a b : List Char) : levDistance a b = levDistance b a := by
  rw [levDistance, levDistance, Nat.add_comm]
  exact levF_symm (b.length + a.length) a b

/-- `longer = max(len1, len2)`. -/
def longerLen (s1 s2 : String) : Nat := max s1.length s2.length

/-- `diff = abs(len1 - len2)`. -/
def lenDiffN (s1 s2 : String) : Nat := max s1.length s2.length - min s1.length s2.length

/-- The fast-reject guard
`if diff and diff / longer >= threshold and diff > 2: continue`
(float arithmetic modelled over the rationals). -/
def pruneTest (t : ℚ) (s1 s2 : String) : Bool :=
  decide (lenDiffN s1 s2 ≠ 0 ∧ (lenDiffN s1 s2 : ℚ) / (longerLen s1 s2 : ℚ) ≥ t ∧
    2 < lenDiffN s1 s2)

/-- The union condition `_distance(s1, s2) / longer < threshold`. -/
def edgeTest (t : ℚ) (s1 s2 : String) : Bool :=
  decide ((levDistance s1.data s2.data : ℚ) / (longerLen s1 s2 : ℚ) < t)

/-- The index pairs visited by
`for i, s1 in enumerate(norms): for s2 in norms[i+1:]`. -/
def pairIdx (n : Nat) : List (Nat × Nat) :=
  (List.range n).flatMap (fun i => (List.range' (i + 1) (n - (i + 1))).map (fun j => (i, j)))

theorem mem_pairIdx (n : Nat) (e : Nat × Nat) :
    e ∈ pairIdx n ↔ e.1 < e.2 ∧ e.2 < n := by
  obtain ⟨i, j⟩ := e
  simp only [pairIdx, List.mem_flatMap, List.mem_map, List.mem_range, List.mem_range'_1,
    Prod.mk.injEq]
  constructor
  · rintro ⟨i2, hi2, j2, ⟨hj1, hj2⟩, rfl, rfl⟩
    omega
  · rintro ⟨h1, h2⟩
    exact ⟨i, by omega, j, ⟨by omega, by omega⟩, rfl, rfl⟩

/-- One iteration of the pair loop (with the fast reject, as in the
source): skip pruned pairs, union the pair when the distance-ratio test
passes. -/
def streetStep (t : ℚ) (norms : List String) (u : UF) (e : Nat × Nat) : UF :=
  if pruneTest t (norms.getD e.1 "") (norms.getD e.2 "") then u
  else if edgeTest t (norms.getD e.1 "") (norms.getD e.2 "") then unionUF u e.1 e.2
  else u

/-- Modelled from the spec: the same iteration with the fast reject
removed — every pair goes through the distance test.  Comparison
definition for C10. -/
def streetStepNoPrune (t : ℚ) (norms : List String) (u : UF) (e : Nat × Nat) : UF :=
  if edgeTest t (norms.getD e.1 "") (norms.getD e.2 "") then unionUF u e.1 e.2
  else u

/-- `norms.sort(key=len)` — a stable sort by length (Python sort is
stable; stable insertion sort produces the same list). -/
def sortByLen (l : List String) : List String :=
  List.insertionSort (fun a b => a.length ≤ b.length) l

/-- The clustering pass of `propose_street_name_corrections` for one
group: sort the distinct variants by length, build the UnionFind over
them, run the pair loop.  Returns the final state together with the
sorted variant list indexing it. -/
def streetClusters (t : ℚ) (norms : List String) : UF × List String :=
  ((pairIdx (sortByLen norms).length).foldl (streetStep t (sortByLen norms))
      (initUF (sortByLen norms).length),
    sortByLen norms)

/-- Modelled from the spec: the same pass without the fast reject. -/
def streetClustersNoPrune (t : ℚ) (norms : List String) : UF × List String :=
  ((pairIdx (sortByLen norms).length).foldl (streetStepNoPrune t (sortByLen norms))
      (initUF (sortByLen norms).length),
    sortByLen norms)

/-- `uf.clusters()` groups variants by representative: two variants fall
in the same cluster iff their indices have the same root. -/
def sameCluster (t : ℚ) (norms : List String) (s1 s2 : String) : Prop :=
  rootEq (streetClusters t norms).1
    ((streetClusters t norms).2.indexOf s1) ((streetClusters t norms).2.indexOf s2)

theorem prune_imp_not_edge (t : ℚ) (s1 s2 : String)
    (h : pruneTest t s1 s2 = true) : edgeTest t s1 s2 = false := by
  rw [pruneTest, decide_eq_true_eq] at h
  obtain ⟨hne, hge, hgt⟩ := h
  rw [edgeTest, decide_eq_false_iff_not]
  intro hlt
  have hlong : 0 < longerLen s1 s2 := by
    rw [longerLen]
    rw [lenDiffN] at hne
    omega
  have hdle : lenDiffN s1 s2 ≤ levDistance s1.data s2.data :=
    levDistance_ge_diff s1.data s2.data
  have hq : (lenDiffN s1 s2 : ℚ) ≤ (levDistance s1.data s2.data : ℚ) := by
    exact_mod_cast hdle
  have hlongq : (0 : ℚ) < (longerLen s1 s2 : ℚ) := by exact_mod_cast hlong
  have hdiv : (lenDiffN s1 s2 : ℚ) / (longerLen s1 s2 : ℚ) ≤
      (levDistance s1.data s2.data : ℚ) / (longerLen s1 s2 : ℚ) := by
    gcongr
  have := lt_of_le_of_lt (le_trans hge hdiv) hlt
  exact lt_irrefl t this

/-- C10: the length-based fast reject never changes the clustering
result.  Edit distance is bounded below by the length difference; hence
any pair skipped by the reject (difference over 2 and ratio at least the
threshold) would fail the distance-ratio test anyway, and the pair loop
with the reject computes exactly the same UnionFind state — the same
partition — as the loop that runs the edit-distance test on every
pair. -/
theorem C10_theorem :
    (∀ a b : List Char, max a.length b.length - min a.length b.length ≤ levDistance a b) ∧
    (∀ (t : ℚ) (s1 s2 : String), pruneTest t s1 s2 = true → edgeTest t s1 s2 = false) ∧
    (∀ (t : ℚ) (norms : List String), streetClusters t norms = streetClustersNoPrune t norms) := by
  refine ⟨levDistance_ge_diff, prune_imp_not_edge, ?_⟩
  intro t norms
  have hstep : streetStep t (sortByLen norms) = streetStepNoPrune t (sortByLen norms) := by
    funext u e
    rw [streetStep, streetStepNoPrune]
    by_cases hp : pruneTest t ((sortByLen norms).getD e.1 "") ((sortByLen norms).getD e.2 "") = true
    · rw [if_pos hp, prune_imp_not_edge _ _ _ hp]
      simp
    · rw [if_neg hp]
  rw [streetClusters, streetClustersNoPrune, hstep]

theorem lenDiffN_comm (s1 s2 : String) : lenDiffN s1 s2 = lenDiffN s2 s1 := by
  rw [lenDiffN, lenDiffN, Nat.max_comm, Nat.min_comm]

theorem longerLen_comm (s1 s2 : String) : longerLen s1 s2 = longerLen s2 s1 := by
  rw [longerLen, longerLen, Nat.max_comm]

theorem pruneTest_symm (t : ℚ) (s1 s2 : String) : pruneTest t s1 s2 = pruneTest t s2 s1 := by
  rw [pruneTest, pruneTest, lenDiffN_comm, longerLen_comm]

theorem edgeTest_symm (t : ℚ) (s1 s2 : String) : edgeTest t s1 s2 = edgeTest t s2 s1 := by
  rw [edgeTest, edgeTest, levDistance_symm, longerLen_comm]

/-- The pairs of the loop that actually reach `uf.union`. -/
def streetEdgeFilter (t : ℚ) (ns : List String) (e : Nat × Nat) : Bool :=
  !pruneTest t (ns.getD e.1 "") (ns.getD e.2 "") && edgeTest t (ns.getD e.1 "") (ns.getD e.2 "")

theorem foldl_streetStep_eq_runUF (t : ℚ) (ns : List String) :
    ∀ (L : List (Nat × Nat)) (u : UF),
      L.foldl (streetStep t ns) u = runUF u (L.filter (streetEdgeFilter t ns)) := by
  intro L
  induction L with
  | nil => intro u; rfl
  | cons e L ih =>
      intro u
      rw [List.foldl_cons, List.filter_cons]
      by_cases hf : streetEdgeFilter t ns e = true
      · rw [if_pos hf]
        rw [streetEdgeFilter, Bool.and_eq_true, Bool.not_eq_true'] at hf
        have hstep : streetStep t ns u e = unionUF u e.1 e.2 := by
          rw [streetStep, hf.1, hf.2]
          simp
        rw [hstep, ih]
        rfl
      · rw [if_neg hf]
        have hstep : streetStep t ns u e = u := by
          by_cases hp : pruneTest t (ns.getD e.1 "") (ns.getD e.2 "") = true
          · rw [streetStep, hp]
            simp
          · have hp2 : pruneTest t (ns.getD e.1 "") (ns.getD e.2 "") = false := by
              revert hp
              cases pruneTest t (ns.getD e.1 "") (ns.getD e.2 "") <;> simp
            have he : edgeTest t (ns.getD e.1 "") (ns.getD e.2 "") = false := by
              rw [streetEdgeFilter, Bool.and_eq_true, Bool.not_eq_true'] at hf
              rcases Bool.eq_false_or_eq_true (edgeTest t (ns.getD e.1 "") (ns.getD e.2 "")) with h | h
              · exact absurd ⟨hp2, h⟩ hf
              · exact h
            rw [streetStep, hp2, he]
            simp
        rw [hstep, ih]

theorem eqvGen_map_strong {α β : Type} (g : α → β) {r : α → α → Prop} {s : β → β → Prop}
    (h : ∀ c d, r c d → Relation.EqvGen s (g c) (g d)) :
    ∀ x y, Relation.EqvGen r x y → Relation.EqvGen s (g x) (g y) := by
  intro x y hxy
  induction hxy with
  | rel a b hab => exact h a b hab
  | refl a => exact Relation.EqvGen.refl (g a)
  | symm a b hab ih => exact Relation.EqvGen.symm _ _ ih
  | trans a b c hab hbc ih1 ih2 => exact Relation.EqvGen.trans _ _ _ ih1 ih2

theorem eqvGen_congr {α : Type} {r s : α → α → Prop} (h : ∀ x y, r x y ↔ s x y) :
    ∀ x y, Relation.EqvGen r x y ↔ Relation.EqvGen s x y := by
  intro x y
  constructor
  · intro hg
    exact eqvGen_map_strong id (fun c d hcd => Relation.EqvGen.rel c d ((h c d).1 hcd)) x y hg
  · intro hg
    exact eqvGen_map_strong id (fun c d hcd => Relation.EqvGen.rel c d ((h c d).2 hcd)) x y hg

/-- The string-level union relation of the pair loop: two distinct
variants of the group that pass the fast reject and the distance-ratio
test.  Symmetric because distance and lengths are. -/
def strRel (t : ℚ) (ns : List String) (x y : String) : Prop :=
  x ∈ ns ∧ y ∈ ns ∧ x ≠ y ∧ pruneTest t x y = false ∧ edgeTest t x y = true

theorem strRel_congr (t : ℚ) (ns ns2 : List String) (hm : ∀ x, x ∈ ns ↔ x ∈ ns2) :
    ∀ x y, strRel t ns x y ↔ strRel t ns2 x y := by
  intro x y
  rw [strRel, strRel, hm x, hm y]

theorem eqvGen_erase_eq {α : Type} (r : α → α → Prop) (x y : α) :
    Relation.EqvGen (fun c d => c = d ∨ r c d) x y ↔ Relation.EqvGen r x y := by
  constructor
  · intro h
    exact eqvGen_map_strong id
      (fun c d hcd => by
        rcases hcd with hcd | hcd
        · rw [hcd]
          exact Relation.EqvGen.refl _
        · exact Relation.EqvGen.rel _ _ hcd) x y h
  · intro h
    exact eqvGen_map_strong id (fun c d hcd => Relation.EqvGen.rel c d (Or.inr hcd)) x y h

theorem getD_indexOf (ns : List String) (s : String) (h : s ∈ ns) :
    ns.getD (ns.indexOf s) "" = s := by
  have hlt := List.indexOf_lt_length.2 h
  rw [List.getD_eq_getElem ns "" hlt, List.getElem_indexOf]

theorem uf_loop_char (t : ℚ) (ns : List String) (hnd : ns.Nodup) (s1 s2 : String)
    (h1 : s1 ∈ ns) (h2 : s2 ∈ ns) :
    rootEq ((pairIdx ns.length).foldl (streetStep t ns) (initUF ns.length))
      (ns.indexOf s1) (ns.indexOf s2) ↔
    Relation.EqvGen (strRel t ns) s1 s2 := by
  obtain ⟨hwfi, hleni, hrooti⟩ := initUF_spec ns.length
  have hbound : ∀ e, e ∈ (pairIdx ns.length).filter (streetEdgeFilter t ns) →
      e.1 < (initUF ns.length).par.length ∧ e.2 < (initUF ns.length).par.length := by
    intro e he
    obtain ⟨hp, _⟩ := List.mem_filter.1 he
    obtain ⟨hlt1, hlt2⟩ := (mem_pairIdx ns.length e).1 hp
    rw [hleni]
    omega
  obtain ⟨_, _, hchar⟩ := runUF_spec ((pairIdx ns.length).filter (streetEdgeFilter t ns))
    (initUF ns.length) hwfi hbound
  have e1 : rootEq ((pairIdx ns.length).foldl (streetStep t ns) (initUF ns.length))
      (ns.indexOf s1) (ns.indexOf s2) ↔
      rootEq (runUF (initUF ns.length) ((pairIdx ns.length).filter (streetEdgeFilter t ns)))
        (ns.indexOf s1) (ns.indexOf s2) := by
    rw [foldl_streetStep_eq_runUF t ns (pairIdx ns.length) (initUF ns.length)]
  have e2 := hchar (ns.indexOf s1) (ns.indexOf s2)
  have hor : ∀ c d, (rootEq (initUF ns.length) c d ∨
      (c, d) ∈ (pairIdx ns.length).filter (streetEdgeFilter t ns)) ↔
      (c = d ∨ (c, d) ∈ (pairIdx ns.length).filter (streetEdgeFilter t ns)) := by
    intro c d
    have : rootEq (initUF ns.length) c d ↔ c = d := by
      rw [rootEq, hrooti c, hrooti d]
    rw [this]
  have e3 := eqvGen_congr hor (ns.indexOf s1) (ns.indexOf s2)
  have e4 := eqvGen_erase_eq
    (fun c d => (c, d) ∈ (pairIdx ns.length).filter (streetEdgeFilter t ns))
    (ns.indexOf s1) (ns.indexOf s2)
  have e5 : Relation.EqvGen
      (fun c d => (c, d) ∈ (pairIdx ns.length).filter (streetEdgeFilter t ns))
      (ns.indexOf s1) (ns.indexOf s2) ↔
      Relation.EqvGen (strRel t ns) s1 s2 := by
    constructor
    · intro h
      have hmap := eqvGen_map_strong (fun i => ns.getD i "")
        (s := strRel t ns)
        (fun c d hcd => by
          show Relation.EqvGen (strRel t ns) (ns.getD c "") (ns.getD d "")
          obtain ⟨hp, hf⟩ := List.mem_filter.1 hcd
          obtain ⟨hlt1, hlt2⟩ := (mem_pairIdx ns.length (c, d)).1 hp
          rw [streetEdgeFilter, Bool.and_eq_true, Bool.not_eq_true'] at hf
          have hc : c < ns.length := by omega
          have hgc : ns.getD c "" = ns.get ⟨c, hc⟩ := List.getD_eq_getElem ns "" hc
          have hgd : ns.getD d "" = ns.get ⟨d, hlt2⟩ := List.getD_eq_getElem ns "" hlt2
          refine Relation.EqvGen.rel _ _ ⟨?_, ?_, ?_, hf.1, hf.2⟩
          · rw [hgc]
            exact List.get_mem ns c hc
          · rw [hgd]
            exact List.get_mem ns d hlt2
          · intro hEq
            rw [hgc, hgd] at hEq
            have hcd2 : c = d := congrArg Fin.val (hnd.get_inj_iff.1 hEq)
            omega)
        (ns.indexOf s1) (ns.indexOf s2) h
      simp only at hmap
      rw [getD_indexOf ns s1 h1, getD_indexOf ns s2 h2] at hmap
      exact hmap
    · intro h
      exact eqvGen_map_strong (fun s => ns.indexOf s)
        (fun x y hxy => by
          show Relation.EqvGen
            (fun c d => (c, d) ∈ (pairIdx ns.length).filter (streetEdgeFilter t ns))
            (ns.indexOf x) (ns.indexOf y)
          obtain ⟨hx, hy, hne, hpr, hed⟩ := hxy
          have hltx := List.indexOf_lt_length.2 hx
          have hlty := List.indexOf_lt_length.2 hy
          have hine : ns.indexOf x ≠ ns.indexOf y := by
            intro hEq
            apply hne
            have h1x : ns[ns.indexOf x]? = some x := by
              rw [List.getElem?_eq_getElem hltx, List.getElem_indexOf]
            have h2y : ns[ns.indexOf y]? = some y := by
              rw [List.getElem?_eq_getElem hlty, List.getElem_indexOf]
            rw [hEq] at h1x
            rw [h1x] at h2y
            exact Option.some.inj h2y
          rcases Nat.lt_or_ge (ns.indexOf x) (ns.indexOf y) with hlt | hge
          · refine Relation.EqvGen.rel _ _ (List.mem_filter.2 ⟨?_, ?_⟩)
            · exact (mem_pairIdx ns.length (ns.indexOf x, ns.indexOf y)).2 ⟨hlt, hlty⟩
            · rw [streetEdgeFilter, Bool.and_eq_true, Bool.not_eq_true']
              simp only
              rw [getD_indexOf ns x hx, getD_indexOf ns y hy]
              exact ⟨hpr, hed⟩
          · have hlt2 : ns.indexOf y < ns.indexOf x := by omega
            refine Relation.EqvGen.symm _ _
              (Relation.EqvGen.rel _ _ (List.mem_filter.2 ⟨?_, ?_⟩))
            · exact (mem_pairIdx ns.length (ns.indexOf y, ns.indexOf x)).2 ⟨hlt2, hltx⟩
            · rw [streetEdgeFilter, Bool.and_eq_true, Bool.not_eq_true']
              simp only
              rw [getD_indexOf ns y hy, getD_indexOf ns x hx,
                pruneTest_symm t y x, edgeTest_symm t y x]
              exact ⟨hpr, hed⟩)
        s1 s2 h
  exact e1.trans (e2.trans (e3.trans (e4.trans e5)))

theorem sameCluster_iff_eqvGen (t : ℚ) (norms : List String) (hnd : norms.Nodup)
    (s1 s2 : String) (h1 : s1 ∈ norms) (h2 : s2 ∈ norms) :
    sameCluster t norms s1 s2 ↔ Relation.EqvGen (strRel t norms) s1 s2 := by
  have hperm : (sortByLen norms).Perm norms := List.perm_insertionSort _ norms
  have hnd2 : (sortByLen norms).Nodup := hperm.nodup_iff.mpr hnd
  have hm1 : s1 ∈ sortByLen norms := hperm.mem_iff.2 h1
  have hm2 : s2 ∈ sortByLen norms := hperm.mem_iff.2 h2
  have hchar := uf_loop_char t (sortByLen norms) hnd2 s1 s2 hm1 hm2
  have hsame : sameCluster t norms s1 s2 ↔
      rootEq ((pairIdx (sortByLen norms).length).foldl (streetStep t (sortByLen norms))
        (initUF (sortByLen norms).length))
        ((sortByLen norms).indexOf s1) ((sortByLen norms).indexOf s2) := Iff.rfl
  rw [hsame, hchar]
  exact eqvGen_congr (strRel_congr t (sortByLen norms) norms (fun x => hperm.mem_iff)) s1 s2

/-- C6: the cluster partition of the pair loop is independent of the
input order of the variants and of the visitation order of the pairs.
First part: permuting the distinct variants leaves the same-cluster
relation on them unchanged (the run sorts, prunes and unions, but the
resulting partition is the equivalence closure of the symmetric
distance-ratio relation, which does not depend on order).  Second part:
folding the very union calls in any permuted order produces the same
same-root relation, so only the internal parent layout may differ. -/
theorem C6_theorem (t : ℚ) :
    (∀ norms norms2 : List String, norms.Nodup → norms.Perm norms2 →
      ∀ s1 s2 : String, s1 ∈ norms → s2 ∈ norms →
        (sameCluster t norms s1 s2 ↔ sameCluster t norms2 s1 s2)) ∧
    (∀ (n : Nat) (E E2 : List (Nat × Nat)), E.Perm E2 →
      (∀ e, e ∈ E → e.1 < n ∧ e.2 < n) →
      ∀ x y, rootEq (runUF (initUF n) E) x y ↔ rootEq (runUF (initUF n) E2) x y) := by
  constructor
  · intro norms norms2 hnd hperm s1 s2 h1 h2
    have hnd2 : norms2.Nodup := hperm.nodup_iff.mp hnd
    rw [sameCluster_iff_eqvGen t norms hnd s1 s2 h1 h2,
      sameCluster_iff_eqvGen t norms2 hnd2 s1 s2 (hperm.mem_iff.1 h1) (hperm.mem_iff.1 h2)]
    exact eqvGen_congr (strRel_congr t norms norms2 (fun x => hperm.mem_iff)) s1 s2
  · intro n E E2 hperm hbound
    obtain ⟨hwfi, hleni, hrooti⟩ := initUF_spec n
    have hbE : ∀ e, e ∈ E → e.1 < (initUF n).par.length ∧ e.2 < (initUF n).par.length := by
      intro e he
      rw [hleni]
      exact hbound e he
    have hbE2 : ∀ e, e ∈ E2 → e.1 < (initUF n).par.length ∧ e.2 < (initUF n).par.length := by
      intro e he
      rw [hleni]
      exact hbound e (hperm.mem_iff.2 he)
    obtain ⟨_, _, hch1⟩ := runUF_spec E (initUF n) hwfi hbE
    obtain ⟨_, _, hch2⟩ := runUF_spec E2 (initUF n) hwfi hbE2
    intro x y
    rw [hch1 x y, hch2 x y]
    refine eqvGen_congr ?_ x y
    intro c d
    exact or_congr Iff.rfl hperm.mem_iff

/-- Witness for C6 at a concrete threshold, variant pair and edge lists. -/
theorem C6_witness :
    (sameCluster (1/10 : ℚ) ["abcde", "abcdx"] "abcde" "abcdx" ↔
      sameCluster (1/10 : ℚ) ["abcdx", "abcde"] "abcde" "abcdx") ∧
    (∀ x y, rootEq (runUF (initUF 2) [(0, 1), (1, 1)]) x y ↔
      rootEq (runUF (initUF 2) [(1, 1), (0, 1)]) x y) :=
  ⟨(C6_theorem (1/10)).1 ["abcde", "abcdx"] ["abcdx", "abcde"] (by decide) (by decide)
      "abcde" "abcdx" (by decide) (by decide),
   (C6_theorem (1/10)).2 2 [(0, 1), (1, 1)] [(1, 1), (0, 1)] (by decide) (by decide)⟩
